import Mathlib

/-!
# maestro-k CLI: MCP client, `list` and `validate` commands

A shallow embedding of `src/cli/src/mcp_client.go`, `src/cli/src/list.go` and
`src/cli/src/validate.go`.

* Go strings are modelled as Lean `String`s (valid UTF-8 text).
* Go `int` is modelled as `Int` restricted to the 64-bit range where the decoder checks it.
* A nil slice and an empty slice are both the empty `List`.
* Operations that touch the outside world (environment, files, HTTP, stdout) pass an
  explicit `World` state that also records every external call that was made.
* The library `encoding/json` is modelled by a recursive-descent reader over the characters
  of the text followed by a decoder into `[]DatabaseInfo` that follows the documented
  behaviour of `json.Unmarshal`.
-/

set_option maxRecDepth 100000

namespace MaestroK

/-! ## Model of `encoding/json` (decoding side) -/

/-- A JSON document tree. Numbers keep their literal text, object members keep their order. -/
inductive JSON where
  | null
  | bool (b : Bool)
  | num (lit : List Char)
  | str (s : String)
  | arr (elems : List JSON)
  | obj (members : List (String × JSON))

/-- The four whitespace characters JSON allows between tokens. -/
def isSpace (c : Char) : Bool :=
  c = ' ' || c = '\t' || c = '\r' || c = '\n'

/-- Drop leading JSON whitespace. -/
def skipSpace : List Char → List Char
  | [] => []
  | c :: cs => if isSpace c then skipSpace cs else c :: cs

/-- Value of one hexadecimal digit (either case). -/
def hexVal (c : Char) : Option Nat :=
  if '0' ≤ c ∧ c ≤ '9' then some (c.toNat - '0'.toNat)
  else if 'a' ≤ c ∧ c ≤ 'f' then some (c.toNat - 'a'.toNat + 10)
  else if 'A' ≤ c ∧ c ≤ 'F' then some (c.toNat - 'A'.toNat + 10)
  else none

/-- The code unit written by four hexadecimal digits (`getu4` without the leading `\u`). -/
def getu4 (a b c d : Char) : Option Nat :=
  match hexVal a, hexVal b, hexVal c, hexVal d with
  | some x, some y, some z, some w => some (((x * 16 + y) * 16 + z) * 16 + w)
  | _, _, _, _ => none

/-- The test `utf16.IsSurrogate`. -/
def isSurrogate (r : Nat) : Bool := 0xD800 ≤ r && r < 0xE000

/-- The character `unicode.ReplacementChar`. -/
def replacementChar : Char := Char.ofNat 0xFFFD

/-- Looks at the six characters right after a surrogate escape `hi`: when they are a
`\uXXXX` low surrogate and the two form a valid pair (`utf16.DecodeRune`), the combined
code point. -/
def pairAhead (hi : Nat) (bs u a b c d : Char) : Option Char :=
  if bs = '\\' ∧ u = 'u' then
    match getu4 a b c d with
    | some lo =>
      if 0xD800 ≤ hi ∧ hi < 0xDC00 ∧ 0xDC00 ≤ lo ∧ lo < 0xE000 then
        some (Char.ofNat ((hi - 0xD800) * 0x400 + (lo - 0xDC00) + 0x10000))
      else none
    | none => none
  else none

/-- The character denoted by a one-letter escape. -/
def unescape (e : Char) : Option Char :=
  if e = '"' then some '"'
  else if e = '\\' then some '\\'
  else if e = '/' then some '/'
  else if e = 'b' then some (Char.ofNat 8)
  else if e = 'f' then some (Char.ofNat 12)
  else if e = 'n' then some '\n'
  else if e = 'r' then some '\r'
  else if e = 't' then some '\t'
  else none

/-- Prepend a decoded character to the result of scanning the rest of a string. -/
def consChar (c : Char) : Option (List Char × List Char) → Option (List Char × List Char)
  | some (s, rest) => some (c :: s, rest)
  | none => none

/-- Scan a string literal whose opening quote has been consumed: the decoded characters and
the input after the closing quote. Control characters and unknown escapes are rejected, a
surrogate that is not part of a valid pair decodes to U+FFFD. -/
def scanString : List Char → Option (List Char × List Char)
  | [] => none
  | c :: rest =>
    if c = '"' then some ([], rest)
    else if c = '\\' then
      match rest with
      | [] => none
      | e :: rest1 =>
        if e = 'u' then
          match rest1 with
          | a :: b :: c2 :: d :: rest2 =>
            match getu4 a b c2 d with
            | none => none
            | some rr =>
              let unpaired := consChar replacementChar (scanString rest2)
              if isSurrogate rr then
                match rest2 with
                | bs :: u :: e1 :: e2 :: e3 :: e4 :: rest3 =>
                  match pairAhead rr bs u e1 e2 e3 e4 with
                  | some r => consChar r (scanString rest3)
                  | none => unpaired
                | _ => unpaired
              else consChar (Char.ofNat rr) (scanString rest2)
          | _ => none
        else
          match unescape e with
          | some ch => consChar ch (scanString rest1)
          | none => none
    else if c.toNat < 0x20 then none
    else consChar c (scanString rest)

/-- Leading decimal digits and what follows them. -/
def spanDigits : List Char → List Char × List Char
  | [] => ([], [])
  | c :: cs =>
    if c.isDigit then ((spanDigits cs).1.cons c, (spanDigits cs).2) else ([], c :: cs)

/-- Optional fraction part of a number: `.` followed by at least one digit. -/
def scanFrac (cs : List Char) : Option (List Char × List Char) :=
  match cs with
  | c :: rest =>
    if c = '.' then
      match spanDigits rest with
      | ([], _) => none
      | (ds, rest1) => some (c :: ds, rest1)
    else some ([], cs)
  | [] => some ([], [])

/-- Optional exponent part of a number: `e` or `E`, an optional sign, at least one digit. -/
def scanExp (cs : List Char) : Option (List Char × List Char) :=
  match cs with
  | c :: rest =>
    if c = 'e' ∨ c = 'E' then
      match rest with
      | s :: rest1 =>
        if s = '+' ∨ s = '-' then
          match spanDigits rest1 with
          | ([], _) => none
          | (ds, rest2) => some (c :: s :: ds, rest2)
        else
          match spanDigits rest with
          | ([], _) => none
          | (ds, rest2) => some (c :: ds, rest2)
      | [] => none
    else some ([], cs)
  | [] => some ([], [])

/-- Integer part of a number: a single `0`, or a non-zero digit followed by digits. -/
def scanIntPart (cs : List Char) : Option (List Char × List Char) :=
  match cs with
  | c :: rest =>
    if c = '0' then some ([c], rest)
    else if c.isDigit then some (c :: (spanDigits rest).1, (spanDigits rest).2)
    else none
  | [] => none

/-- Scan a number literal (the scanner's grammar): its text and the input after it. -/
def scanNumber (cs : List Char) : Option (List Char × List Char) :=
  let signed : List Char × List Char :=
    match cs with
    | c :: rest => if c = '-' then ([c], rest) else ([], cs)
    | [] => ([], [])
  match scanIntPart signed.2 with
  | none => none
  | some (ip, r1) =>
    match scanFrac r1 with
    | none => none
    | some (fp, r2) =>
      match scanExp r2 with
      | none => none
      | some (ep, r3) => some (signed.1 ++ ip ++ fp ++ ep, r3)

/-- Consume the expected characters `lit` from the front of the input. -/
def dropLit : List Char → List Char → Option (List Char)
  | [], cs => some cs
  | _ :: _, [] => none
  | l :: ls, c :: cs => if l = c then dropLit ls cs else none

/-- The scanner's `maxNestingDepth`. -/
def maxNestingDepth : Nat := 10000

mutual
/-- Read one JSON value (after optional whitespace) at nesting level `depth`. -/
def parseValue : Nat → Nat → List Char → Option (JSON × List Char)
  | 0, _, _ => none
  | fuel + 1, depth, cs =>
    match skipSpace cs with
    | [] => none
    | c :: rest =>
      if c = '[' then
        if maxNestingDepth ≤ depth then none
        else
          match skipSpace rest with
          | c1 :: rest1 =>
            if c1 = ']' then some (JSON.arr [], rest1)
            else
              match parseElems fuel (depth + 1) rest with
              | some (xs, r) => some (JSON.arr xs, r)
              | none => none
          | [] => none
      else if c = '{' then
        if maxNestingDepth ≤ depth then none
        else
          match skipSpace rest with
          | c1 :: rest1 =>
            if c1 = '}' then some (JSON.obj [], rest1)
            else
              match parseMembers fuel (depth + 1) rest with
              | some (ms, r) => some (JSON.obj ms, r)
              | none => none
          | [] => none
      else if c = '"' then
        match scanString rest with
        | some (s, r) => some (JSON.str (String.mk s), r)
        | none => none
      else if c = 'n' then
        match dropLit ['u', 'l', 'l'] rest with
        | some r => some (JSON.null, r)
        | none => none
      else if c = 't' then
        match dropLit ['r', 'u', 'e'] rest with
        | some r => some (JSON.bool true, r)
        | none => none
      else if c = 'f' then
        match dropLit ['a', 'l', 's', 'e'] rest with
        | some r => some (JSON.bool false, r)
        | none => none
      else if c = '-' ∨ c.isDigit then
        match scanNumber (c :: rest) with
        | some (lit, r) => some (JSON.num lit, r)
        | none => none
      else none
/-- Read the elements of a non-empty array up to and including the closing bracket. -/
def parseElems : Nat → Nat → List Char → Option (List JSON × List Char)
  | 0, _, _ => none
  | fuel + 1, depth, cs =>
    match parseValue fuel depth cs with
    | none => none
    | some (v, rest) =>
      match skipSpace rest with
      | c :: rest1 =>
        if c = ',' then
          match parseElems fuel depth rest1 with
          | some (vs, r) => some (v :: vs, r)
          | none => none
        else if c = ']' then some ([v], rest1)
        else none
      | [] => none
/-- Read the members of a non-empty object up to and including the closing brace. -/
def parseMembers : Nat → Nat → List Char → Option (List (String × JSON) × List Char)
  | 0, _, _ => none
  | fuel + 1, depth, cs =>
    match skipSpace cs with
    | q :: rest =>
      if q = '"' then
        match scanString rest with
        | none => none
        | some (k, rest1) =>
          match skipSpace rest1 with
          | col :: rest2 =>
            if col = ':' then
              match parseValue fuel depth rest2 with
              | none => none
              | some (v, rest3) =>
                match skipSpace rest3 with
                | c :: rest4 =>
                  if c = ',' then
                    match parseMembers fuel depth rest4 with
                    | some (ms, r) => some ((String.mk k, v) :: ms, r)
                    | none => none
                  else if c = '}' then some ([(String.mk k, v)], rest4)
                  else none
                | [] => none
            else none
          | [] => none
      else none
    | [] => none
end

/-- Read a complete JSON text: exactly one value surrounded by optional whitespace
(`checkValid` followed by reading the value). -/
def parseJSON (cs : List Char) : Option JSON :=
  match parseValue (cs.length + 1) 0 cs with
  | some (v, rest) =>
    match skipSpace rest with
    | [] => some v
    | _ :: _ => none
  | none => none

/-! ## `DatabaseInfo` and decoding into `[]DatabaseInfo` -/

/-- The struct `DatabaseInfo` (JSON keys `name`, `type`, `collection`, `document_count`). -/
structure DatabaseInfo where
  Name : String
  Type_ : String
  Collection : String
  DocumentCount : Int
deriving DecidableEq, Repr

/-- The zero value of `DatabaseInfo`. -/
def DatabaseInfo.zero : DatabaseInfo := ⟨"", "", "", 0⟩

/-- Errors of `json.Unmarshal`: a `*json.SyntaxError`, or a `*json.UnmarshalTypeError` with
the description of the JSON value and the Go type it did not fit. -/
inductive UnmarshalError where
  | malformed
  | typeMismatch (value : String) (goType : String)
deriving DecidableEq, Repr

/-- The word `UnmarshalTypeError.Value` uses for a JSON value. -/
def JSON.describe : JSON → String
  | JSON.null => "null"
  | JSON.bool _ => "bool"
  | JSON.num _ => "number"
  | JSON.str _ => "string"
  | JSON.arr _ => "array"
  | JSON.obj _ => "object"

/-- Value of a non-empty run of decimal digits. -/
def digitsValue (ds : List Char) : Option Nat :=
  if ds ≠ [] ∧ ds.all Char.isDigit then
    some (ds.foldl (fun acc c => acc * 10 + (c.toNat - '0'.toNat)) 0)
  else none

/-- The call `strconv.ParseInt(lit, 10, 64)` on a JSON number literal: only an optional minus sign
followed by digits is an integer, and it has to fit in 64 bits. -/
def parseInt64 (lit : List Char) : Option Int :=
  match lit with
  | c :: ds =>
    if c = '-' then
      match digitsValue ds with
      | some n => if n ≤ 2 ^ 63 then some (-(n : Int)) else none
      | none => none
    else
      match digitsValue (c :: ds) with
      | some n => if n < 2 ^ 63 then some (n : Int) else none
      | none => none
  | [] => none

/-- Field lookup of the decoder: an object key selects a struct field when it equals the
field's JSON name up to the case of ASCII letters (the four names of `DatabaseInfo` contain
neither `k` nor `s`, the only letters that also fold with a character outside ASCII). -/
def foldEq (key field : String) : Bool :=
  key.data.map Char.toLower == field.data.map Char.toLower

/-- Store a JSON value into a Go `string` field: a string is stored, `null` leaves the
field as it is, anything else is a type error. -/
def storeString (v : JSON) (current : String) : Except UnmarshalError String :=
  match v with
  | JSON.str s => Except.ok s
  | JSON.null => Except.ok current
  | other => Except.error (UnmarshalError.typeMismatch other.describe "string")

/-- Store a JSON value into a Go `int` field: an integer literal in range is stored,
`null` leaves the field as it is, anything else is a type error. -/
def storeInt (v : JSON) (current : Int) : Except UnmarshalError Int :=
  match v with
  | JSON.num lit =>
    match parseInt64 lit with
    | some n => Except.ok n
    | none => Except.error (UnmarshalError.typeMismatch (String.mk ("number ".data ++ lit)) "int")
  | JSON.null => Except.ok current
  | other => Except.error (UnmarshalError.typeMismatch other.describe "int")

/-- Decode one object member into the struct being filled; unknown keys are skipped. -/
def decodeField (db : DatabaseInfo) (m : String × JSON) : Except UnmarshalError DatabaseInfo :=
  if foldEq m.1 "name" then
    match storeString m.2 db.Name with
    | Except.ok s => Except.ok { db with Name := s }
    | Except.error e => Except.error e
  else if foldEq m.1 "type" then
    match storeString m.2 db.Type_ with
    | Except.ok s => Except.ok { db with Type_ := s }
    | Except.error e => Except.error e
  else if foldEq m.1 "collection" then
    match storeString m.2 db.Collection with
    | Except.ok s => Except.ok { db with Collection := s }
    | Except.error e => Except.error e
  else if foldEq m.1 "document_count" then
    match storeInt m.2 db.DocumentCount with
    | Except.ok n => Except.ok { db with DocumentCount := n }
    | Except.error e => Except.error e
  else Except.ok db

/-- Decode the members of an object in order (a repeated key overwrites). -/
def decodeMembers (db : DatabaseInfo) : List (String × JSON) → Except UnmarshalError DatabaseInfo
  | [] => Except.ok db
  | m :: ms =>
    match decodeField db m with
    | Except.ok db1 => decodeMembers db1 ms
    | Except.error e => Except.error e

/-- Decode one array element into a `DatabaseInfo`: an object fills a zero struct, `null`
leaves the zero struct, anything else is a type error. -/
def decodeElem (j : JSON) : Except UnmarshalError DatabaseInfo :=
  match j with
  | JSON.obj ms => decodeMembers DatabaseInfo.zero ms
  | JSON.null => Except.ok DatabaseInfo.zero
  | other => Except.error (UnmarshalError.typeMismatch other.describe "main.DatabaseInfo")

/-- Decode the elements of an array, in order; the first error is the one reported. -/
def decodeElems : List JSON → Except UnmarshalError (List DatabaseInfo)
  | [] => Except.ok []
  | j :: js =>
    match decodeElem j with
    | Except.error e => Except.error e
    | Except.ok db =>
      match decodeElems js with
      | Except.ok dbs => Except.ok (db :: dbs)
      | Except.error e => Except.error e

/-- Decode a JSON value into `[]DatabaseInfo`: an array decodes element-wise, `null` sets
the slice to nil without error, any other value is a type error. -/
def decodeDatabases (j : JSON) : Except UnmarshalError (List DatabaseInfo) :=
  match j with
  | JSON.arr js => decodeElems js
  | JSON.null => Except.ok []
  | other => Except.error (UnmarshalError.typeMismatch other.describe "[]main.DatabaseInfo")

/-- The call `json.Unmarshal(data, &databases)` for `var databases []DatabaseInfo`. -/
def jsonUnmarshal (data : String) : Except UnmarshalError (List DatabaseInfo) :=
  match parseJSON data.data with
  | none => Except.error UnmarshalError.malformed
  | some j => decodeDatabases j

/-! ## The outside world -/

/-- An external call made by the program (everything except writing to stdout). -/
inductive IOCall where
  | dotenvLoad
  | getenv (key : String)
  | stat (path : String)
  | readFile (path : String)
  | httpPost (url contentType payload : String)
  | schemaValidate (schemaRef document : String)
deriving DecidableEq, Repr

/-- Outcome of `os.Stat` as far as the program looks at it: the file is there; the error
satisfies `os.IsNotExist` (ENOENT); the path runs through something that is not a directory
(ENOTDIR), so there is no such file but the error does not satisfy `os.IsNotExist`; or any
other error. -/
inductive StatResult where
  | found
  | notExist
  | notDirectory
  | otherError
deriving DecidableEq, Repr

/-- An HTTP response as the client sees it: the status code and what `io.ReadAll` returns for
the body (the bytes read, and the read error if there was one). -/
structure HTTPResponse where
  StatusCode : Int
  Body : String
  ReadErr : Option String
deriving DecidableEq, Repr

/-- One schema violation reported by the evaluator (`Field()` and `Description()`). -/
structure Finding where
  Field : String
  Description : String
deriving DecidableEq, Repr

/-- The package-level flag variables `verbose`, `silent`, `dryRun` and `mcpServerURI`; they
are declared outside the files modelled here and are set by the command line. -/
structure Flags where
  verbose : Bool
  silent : Bool
  dryRun : Bool
  mcpServerURI : String
deriving DecidableEq, Repr

/-- The state of the outside world. The first group of fields answers external calls (the
libraries `os`, `filepath`, `net/http`, `godotenv`, `yaml.v3`, `gojsonschema`; `Y` is the
type of parsed YAML content), `environ` is the process environment (changed by loading a
`.env` file), `stdout` collects the printed lines and `calls` the external calls made. -/
structure World (Y : Type) where
  dotenvFile : Option (String → Option String)
  statFile : String → StatResult
  fileContent : String → Except String String
  pathBase : String → String
  pathAbs : String → Except String String
  httpPost : String → String → String → Except String HTTPResponse
  yamlUnmarshal : String → Except String Y
  jsonMarshal : Y → Except String String
  schemaValidate : String → String → Except String (List Finding)
  environ : String → Option String
  stdout : List String
  calls : List IOCall

variable {Y : Type}

/-- The call `fmt.Println(line)` (also a `fmt.Printf` of one line). -/
def println (line : String) (w : World Y) : World Y :=
  { w with stdout := w.stdout ++ [line] }

/-- Record an external call. -/
def record (c : IOCall) (w : World Y) : World Y :=
  { w with calls := w.calls ++ [c] }

/-- The call `godotenv.Load()`: when `.env` can be read, every variable it defines that the process
environment does not have yet is set; otherwise an error is returned. -/
def godotenvLoad (w : World Y) : World Y × Option String :=
  match w.dotenvFile with
  | none => (record IOCall.dotenvLoad w, some "open .env: no such file or directory")
  | some vars =>
    ({ record IOCall.dotenvLoad w with
        environ := fun k => match w.environ k with
          | some v => some v
          | none => vars k }, none)

/-- The call `os.Getenv(key)`: the value, or the empty string when the variable is not set. -/
def osGetenv (key : String) (w : World Y) : World Y × String :=
  (record (IOCall.getenv key) w, (w.environ key).getD "")

/-- The call `os.Stat(path)`. -/
def osStat (path : String) (w : World Y) : World Y × StatResult :=
  (record (IOCall.stat path) w, w.statFile path)

/-- The call `os.ReadFile(path)`. -/
def osReadFile (path : String) (w : World Y) : World Y × Except String String :=
  (record (IOCall.readFile path) w, w.fileContent path)

/-! ## `mcp_client.go` -/

/-- The `http.Client` configuration the client is built with. -/
structure HTTPClient where
  TimeoutSeconds : Nat
deriving DecidableEq, Repr

/-- The struct `MCPClient`. -/
structure MCPClient where
  baseURL : String
  httpClient : HTTPClient
deriving DecidableEq, Repr

/-- A dynamically typed Go value (`interface{}`) as far as the client inspects it: either
a string or something else. -/
inductive GoAny where
  | string (s : String)
  | other
deriving DecidableEq, Repr

/-- The struct `MCPError`. -/
structure MCPError where
  Code : Int
  Message : String
deriving DecidableEq, Repr

/-- The struct `MCPResponse`. -/
structure MCPResponse where
  JSONRPC : String
  ID : Int
  Result : GoAny
  Error : Option MCPError
deriving DecidableEq, Repr

/-- The `params` argument of a call, given by what `json.Marshal` makes of it. -/
structure Params where
  marshal : Except String String

/-- The parameter object `map[string]interface{}{}`. -/
def Params.empty : Params := ⟨Except.ok "\x7b\x7d"⟩

/-- The errors built by `callMCPServer` and `ListDatabases`. -/
inductive ClientError where
  | marshalRequest (cause : String)
  | httpRequest (cause : String)
  | httpStatus (code : Int) (body : String)
  | readBody (cause : String)
  | parseDatabaseList (cause : UnmarshalError)
  | unexpectedFormat
deriving DecidableEq, Repr

/-- The function `NewMCPClient`. -/
def NewMCPClient (baseURL : String) : MCPClient :=
  { baseURL := baseURL, httpClient := { TimeoutSeconds := 30 } }

/-- The function `loadEnvFile`: loads `.env` and ignores a failure. -/
def loadEnvFile (w : World Y) : World Y × Option String :=
  ((godotenvLoad w).1, none)

/-- The function `getMCPServerURI`: command line flag, then environment variable, then the
default. -/
def getMCPServerURI (cmdServerURI : String) (w : World Y) : World Y × String × Option String :=
  let w1 := (loadEnvFile w).1
  if cmdServerURI ≠ "" then (w1, cmdServerURI, none)
  else
    let r := osGetenv "MAESTRO_KNOWLEDGE_MCP_SERVER_URI" w1
    if r.2 ≠ "" then (r.1, r.2, none)
    else (r.1, "http://localhost:8000", none)

/-- The method `MCPClient.callMCPServer`. -/
def MCPClient.callMCPServer (c : MCPClient) (method : String) (params : Params) (w : World Y) :
    World Y × Except ClientError MCPResponse :=
  let url := c.baseURL ++ "/mcp/tools/" ++ method
  match params.marshal with
  | Except.error e => (w, Except.error (ClientError.marshalRequest e))
  | Except.ok jsonData =>
    let w1 := record (IOCall.httpPost url "application/json" jsonData) w
    match w.httpPost url "application/json" jsonData with
    | Except.error e => (w1, Except.error (ClientError.httpRequest e))
    | Except.ok resp =>
      if resp.StatusCode ≠ 200 then
        (w1, Except.error (ClientError.httpStatus resp.StatusCode resp.Body))
      else
        match resp.ReadErr with
        | some e => (w1, Except.error (ClientError.readBody e))
        | none =>
          (w1, Except.ok { JSONRPC := "2.0", ID := 1, Result := GoAny.string resp.Body,
                           Error := none })

/-- The sentinel text the server sends when there is no database. -/
def noDatabasesMessage : String := "No vector databases are currently active"

/-- The method `MCPClient.ListDatabases`. -/
def MCPClient.ListDatabases (c : MCPClient) (w : World Y) :
    World Y × Except ClientError (List DatabaseInfo) :=
  match c.callMCPServer "list_databases" Params.empty w with
  | (w1, Except.error err) => (w1, Except.error err)
  | (w1, Except.ok response) =>
    match response.Result with
    | GoAny.string resultStr =>
      match jsonUnmarshal resultStr with
      | Except.error err =>
        if resultStr = noDatabasesMessage then (w1, Except.ok [])
        else (w1, Except.error (ClientError.parseDatabaseList err))
      | Except.ok databases => (w1, Except.ok databases)
    | GoAny.other => (w1, Except.error ClientError.unexpectedFormat)

/-! ## `list.go` -/

/-- The errors returned by the `list` command. -/
inductive ListError where
  | indexOutOfRange
  | unsupportedResourceType (resourceType : String)
  | serverURI (cause : String)
  | listFailed (cause : ClientError)
deriving DecidableEq, Repr

/-- The text of `fmt.Errorf("unsupported resource type: %s. Use ...", resourceType)`. -/
def unsupportedResourceTypeText (resourceType : String) : String :=
  "unsupported resource type: " ++ resourceType ++ ". Use \x27vector-database\x27 or \x27vector-db\x27"

/-- The lines printed for the database at position `i` (counted from zero). -/
def databaseLines (i : Nat) (db : DatabaseInfo) : List String :=
  [toString (i + 1) ++ ". " ++ db.Name ++ " (" ++ db.Type_ ++ ")",
   "   Collection: " ++ db.Collection,
   "   Documents: " ++ toString db.DocumentCount,
   ""]

/-- The `for i, db := range databases` loop of `listVectorDatabases`, from index `i` on. -/
def printDatabases (silent : Bool) : Nat → List DatabaseInfo → World Y → World Y
  | _, [], w => w
  | i, db :: dbs, w =>
    if !silent then
      printDatabases silent (i + 1) dbs { w with stdout := w.stdout ++ databaseLines i db }
    else printDatabases silent (i + 1) dbs w

/-- The function `listVectorDatabases`. -/
def listVectorDatabases (fl : Flags) (w : World Y) : World Y × Option ListError :=
  let w1 := if fl.verbose then println "Listing vector databases..." w else w
  if fl.dryRun then (println "[DRY RUN] Would list vector databases" w1, none)
  else
    match getMCPServerURI fl.mcpServerURI w1 with
    | (w2, _, some err) => (w2, some (ListError.serverURI err))
    | (w2, serverURI, none) =>
      let w3 := if fl.verbose then println ("Connecting to MCP server at: " ++ serverURI) w2 else w2
      let client := NewMCPClient serverURI
      match client.ListDatabases w3 with
      | (w4, Except.error err) => (w4, some (ListError.listFailed err))
      | (w4, Except.ok databases) =>
        if databases.length = 0 then
          if !fl.silent then (println "No vector databases found" w4, none)
          else (w4, none)
        else
          let w5 :=
            if !fl.silent then
              println "" (println ("Found " ++ toString databases.length ++ " vector database(s):") w4)
            else w4
          let w6 := printDatabases fl.silent 0 databases w5
          if fl.verbose then (println "Vector database listing completed successfully" w6, none)
          else (w6, none)

/-- The `RunE` function of `listCmd`; `args[0]` on an empty argument list is a run-time
panic (the command is registered with `cobra.ExactArgs(1)`). -/
def listCmd.RunE (fl : Flags) (args : List String) (w : World Y) : World Y × Option ListError :=
  match args with
  | [] => (w, some ListError.indexOutOfRange)
  | resourceType :: _ =>
    if resourceType ≠ "vector-database" ∧ resourceType ≠ "vector-db" then
      (w, some (ListError.unsupportedResourceType resourceType))
    else listVectorDatabases fl w

/-- What `Error()` returns for the errors of the `list` command that carry no wrapped cause;
a wrapped cause is rendered by `cause`. -/
def ListError.message (cause : ClientError → String) : ListError → String
  | ListError.indexOutOfRange => "runtime error: index out of range [0] with length 0"
  | ListError.unsupportedResourceType rt => unsupportedResourceTypeText rt
  | ListError.serverURI e => "failed to get MCP server URI: " ++ e
  | ListError.listFailed e => "failed to list vector databases: " ++ cause e

/-! ## `validate.go` -/

/-- The errors built by `yamlToJSON`. -/
inductive ConvertError where
  | parseYAML (cause : String)
  | marshalJSON (cause : String)
deriving DecidableEq, Repr

/-- The errors built by `performValidation`. -/
inductive ValidationError where
  | readYAML (cause : String)
  | invalidYAML (cause : String)
  | absSchemaPath (cause : String)
  | convert (cause : ConvertError)
  | schemaError (cause : String)
  | failedWith (count : Nat)
deriving DecidableEq, Repr

/-- The errors returned by `validateFiles`. -/
inductive ValidateError where
  | yamlNotFound (path : String)
  | schemaNotFound (path : String)
  | validationFailed (cause : ValidationError)
deriving DecidableEq, Repr

/-- What `Error()` returns for the errors of `yamlToJSON`. -/
def ConvertError.message : ConvertError → String
  | ConvertError.parseYAML e => "failed to parse YAML: " ++ e
  | ConvertError.marshalJSON e => "failed to marshal to JSON: " ++ e

/-- What `Error()` returns for the errors of `performValidation`. -/
def ValidationError.message : ValidationError → String
  | ValidationError.readYAML e => "failed to read YAML file: " ++ e
  | ValidationError.invalidYAML e => "invalid YAML format: " ++ e
  | ValidationError.absSchemaPath e => "failed to get absolute path for schema: " ++ e
  | ValidationError.convert e => "failed to convert YAML to JSON: " ++ e.message
  | ValidationError.schemaError e => "schema validation error: " ++ e
  | ValidationError.failedWith n => "validation failed with " ++ toString n ++ " errors"

/-- What `Error()` returns for the errors of `validateFiles`. -/
def ValidateError.message : ValidateError → String
  | ValidateError.yamlNotFound path => "YAML file not found: " ++ path
  | ValidateError.schemaNotFound path => "Schema file not found: " ++ path
  | ValidateError.validationFailed e => "validation failed: " ++ e.message

/-- The function `yamlToJSON`. -/
def yamlToJSON (yamlData : String) (w : World Y) : Except ConvertError String :=
  match w.yamlUnmarshal yamlData with
  | Except.error e => Except.error (ConvertError.parseYAML e)
  | Except.ok yamlContent =>
    match w.jsonMarshal yamlContent with
    | Except.error e => Except.error (ConvertError.marshalJSON e)
    | Except.ok jsonData => Except.ok jsonData

/-- The line built for one finding: `fmt.Sprintf("- %s: %s", err.Field(), err.Description())`. -/
def findingLine (f : Finding) : String :=
  "- " ++ f.Field ++ ": " ++ f.Description

/-- The `for _, err := range result.Errors()` loop of `performValidation`: the slice
`errors` grows by one line per finding, and each line is printed when `verbose` is set. -/
def collectFindings (verbose : Bool) : List Finding → List String → World Y → List String × World Y
  | [], errors, w => (errors, w)
  | f :: fs, errors, w =>
    let errorMsg := findingLine f
    collectFindings verbose fs (errors ++ [errorMsg]) (if verbose then println errorMsg w else w)

/-- The function `performValidation`. -/
def performValidation (fl : Flags) (yamlFile schemaFile : String) (w : World Y) :
    World Y × Option ValidationError :=
  let w1 := if fl.verbose then println ("Performing validation of " ++ w.pathBase yamlFile) w else w
  match osReadFile yamlFile w1 with
  | (w2, Except.error err) => (w2, some (ValidationError.readYAML err))
  | (w2, Except.ok yamlData) =>
    match w2.yamlUnmarshal yamlData with
    | Except.error err => (w2, some (ValidationError.invalidYAML err))
    | Except.ok _ =>
      if schemaFile = "" then
        if fl.verbose then (println "No schema provided, only validating YAML syntax" w2, none)
        else (w2, none)
      else
        match w2.pathAbs schemaFile with
        | Except.error err => (w2, some (ValidationError.absSchemaPath err))
        | Except.ok absSchemaPath =>
          match yamlToJSON yamlData w2 with
          | Except.error err => (w2, some (ValidationError.convert err))
          | Except.ok jsonData =>
            let schemaRef := "file://" ++ absSchemaPath
            let w3 := record (IOCall.schemaValidate schemaRef jsonData) w2
            match w2.schemaValidate schemaRef jsonData with
            | Except.error err => (w3, some (ValidationError.schemaError err))
            | Except.ok findings =>
              if findings.length ≠ 0 then
                let w4 := if fl.verbose then println "Validation failed:" w3 else w3
                let r := collectFindings fl.verbose findings [] w4
                (r.2, some (ValidationError.failedWith findings.length))
              else
                if fl.verbose then (println "Schema validation passed" w3, none)
                else (w3, none)

/-- The part of `validateFiles` after the two existence checks: the dry-run gate, the
validation itself and the success message. -/
def validateExisting (fl : Flags) (yamlFile schemaFile : String) (w : World Y) :
    World Y × Option ValidateError :=
  if fl.dryRun then (println "[DRY RUN] Would validate files" w, none)
  else
    match performValidation fl yamlFile schemaFile w with
    | (w1, some err) => (w1, some (ValidateError.validationFailed err))
    | (w1, none) =>
      if !fl.silent then (println "✅ Validation successful" w1, none)
      else (w1, none)

/-- The function `validateFiles`. -/
def validateFiles (fl : Flags) (yamlFile schemaFile : String) (w : World Y) :
    World Y × Option ValidateError :=
  let w1 :=
    if fl.verbose then
      let wv := println ("Validating YAML file: " ++ yamlFile) w
      if schemaFile ≠ "" then println ("Using schema file: " ++ schemaFile) wv
      else println "Using default schema" wv
    else w
  match osStat yamlFile w1 with
  | (w2, StatResult.notExist) => (w2, some (ValidateError.yamlNotFound yamlFile))
  | (w2, _) =>
    if schemaFile ≠ "" then
      match osStat schemaFile w2 with
      | (w3, StatResult.notExist) => (w3, some (ValidateError.schemaNotFound schemaFile))
      | (w3, _) => validateExisting fl yamlFile schemaFile w3
    else validateExisting fl yamlFile schemaFile w2

/-! ## Concrete worlds used to evaluate the program -/

/-- A world without `.env` file, without files, with an empty environment, an unreachable
server, and libraries that accept everything. -/
def World.blank : World Unit where
  dotenvFile := none
  statFile := fun _ => StatResult.notExist
  fileContent := fun _ => Except.error "no such file or directory"
  pathBase := fun p => p
  pathAbs := fun p => Except.ok ("/work/" ++ p)
  httpPost := fun _ _ _ => Except.error "connection refused"
  yamlUnmarshal := fun _ => Except.ok ()
  jsonMarshal := fun _ => Except.ok "\x7b\x7d"
  schemaValidate := fun _ _ => Except.ok []
  environ := fun _ => none
  stdout := []
  calls := []

/-- A world whose server answers every request with `resp`. -/
def World.serving (resp : HTTPResponse) : World Unit :=
  { World.blank with httpPost := fun _ _ _ => Except.ok resp }

/-- A world in which every path runs below a regular file: nothing exists there, and both
`os.Stat` and `os.ReadFile` fail with "not a directory". -/
def World.belowRegularFile : World Unit :=
  { World.blank with
    statFile := fun _ => StatResult.notDirectory
    fileContent := fun _ => Except.error "not a directory" }

/-- A world in which `doc.yaml` exists with content that is not YAML and every other path
runs below a regular file. -/
def World.malformedDocument : World Unit :=
  { World.blank with
    statFile := fun p => if p = "doc.yaml" then StatResult.found else StatResult.notDirectory
    fileContent := fun p =>
      if p = "doc.yaml" then Except.ok "a: [" else Except.error "not a directory"
    yamlUnmarshal := fun _ => Except.error "did not find expected node content" }

/-- A world in which every path is an existing, readable file and the schema evaluator
reports `findings`. -/
def World.evaluating (findings : List Finding) : World Unit :=
  { World.blank with
    statFile := fun _ => StatResult.found
    fileContent := fun _ => Except.ok "a: 1"
    schemaValidate := fun _ _ => Except.ok findings }

/-- The one-record array `[{"name":"docs","type":"milvus","collection":"c1",
"document_count":42}]` as a response body. -/
def oneRecordBody : String :=
  "[\x7b\"name\":\"docs\",\"type\":\"milvus\",\"collection\":\"c1\",\"document_count\":42\x7d]"

/-- The JSON string that encodes the text of `oneRecordBody`: the same array with one extra
layer of string encoding, outer quotes included. -/
def stringEncodedBody : String :=
  "\"[\x7b\\\"name\\\":\\\"docs\\\",\\\"type\\\":\\\"milvus\\\",\\\"collection\\\":\\\"c1\\\",\\\"document_count\\\":42\x7d]\""

/-- A two-record array written with whitespace, members out of declaration order, and a name
written with the escapes `\"`, `\n` and `A`. -/
def twoRecordBody : String :=
  "[ \x7b\"type\":\"milvus\", \"name\":\"docs\", \"collection\":\"c1\", \"document_count\":42\x7d,\n  \x7b\"name\":\"a\\\"b\\n\\u0041\",\"type\":\"weaviate\",\"collection\":\"\",\"document_count\":0\x7d ]"

/-- The one-record array whose `document_count` is `9223372036854775808`, that is `2^63`,
one more than the largest 64-bit integer. -/
def hugeCountBody : String :=
  "[\x7b\"name\":\"docs\",\"type\":\"milvus\",\"collection\":\"c1\",\"document_count\":9223372036854775808\x7d]"

/-! ## Endpoint resolution -/

/-- The value `os.Getenv` finds for the server variable in `getMCPServerURI`, that is, in
the environment after `.env` has been loaded. -/
def envServerURI (w : World Y) : String :=
  (((loadEnvFile w).1).environ "MAESTRO_KNOWLEDGE_MCP_SERVER_URI").getD ""

/-! ## Near-matches of the sentinel -/

/-- Two characters are the same letter up to case. -/
def sameLetter (a b : Char) : Prop := a = b ∨ a = b.toUpper ∨ a = b.toLower

/-- A body that differs from the sentinel text only by a near-match: other letter case,
added leading or trailing whitespace (space, tab, carriage return, newline), surrounding
double or single quotes, one extra character anywhere, one missing character anywhere,
extra characters at the end, or missing characters at the end. -/
inductive NearMatch : String → Prop where
  | letterCase (body : String) :
      body ≠ noDatabasesMessage →
      List.Forall₂ sameLetter body.data noDatabasesMessage.data → NearMatch body
  | padded (pre post : List Char) :
      (∀ c ∈ pre, isSpace c = true) → (∀ c ∈ post, isSpace c = true) → pre ++ post ≠ [] →
      NearMatch (String.mk (pre ++ noDatabasesMessage.data ++ post))
  | quoted (q : Char) :
      q = '"' ∨ q = Char.ofNat 39 →
      NearMatch (String.mk (q :: noDatabasesMessage.data ++ [q]))
  | extraChar (pre suf : List Char) (c : Char) :
      pre ++ suf = noDatabasesMessage.data → NearMatch (String.mk (pre ++ c :: suf))
  | missingChar (pre suf : List Char) (c : Char) :
      pre ++ c :: suf = noDatabasesMessage.data → NearMatch (String.mk (pre ++ suf))
  | extended (extra : List Char) :
      extra ≠ [] → NearMatch (String.mk (noDatabasesMessage.data ++ extra))
  | truncated (pre suf : List Char) :
      pre ++ suf = noDatabasesMessage.data → suf ≠ [] → NearMatch (String.mk pre)

/-! ## JSON arrays of Database Records -/

/-- The character of a decimal digit. -/
def decimalDigit (d : Nat) : Char := Char.ofNat (48 + d)

/-- Decimal digits of `n` in front of `acc`, most significant first. -/
def natLiteralAux : Nat → Nat → List Char → List Char
  | 0, _, acc => acc
  | fuel + 1, n, acc =>
    if n < 10 then decimalDigit n :: acc
    else natLiteralAux fuel (n / 10) (decimalDigit (n % 10) :: acc)

/-- The decimal literal of a natural number. -/
def natLiteral (n : Nat) : List Char := natLiteralAux (n + 1) n []

/-- The JSON integer literal of an integer: a minus sign for negative numbers, then the
decimal digits. -/
def intLiteral : Int → List Char
  | Int.ofNat k => natLiteral k
  | Int.negSucc k => '-' :: natLiteral (k + 1)

/-- The members of the JSON object that encodes a record. -/
def recordMembers (db : DatabaseInfo) : List (String × JSON) :=
  [("name", JSON.str db.Name), ("type", JSON.str db.Type_),
   ("collection", JSON.str db.Collection),
   ("document_count", JSON.num (intLiteral db.DocumentCount))]

/-- The JSON value `j` is a Database Record object encoding `db`: an object with exactly
the members `name`, `type`, `collection` and `document_count`, in any order. -/
def EncodesRecord (j : JSON) (db : DatabaseInfo) : Prop :=
  ∃ ms, j = JSON.obj ms ∧ ms.Perm (recordMembers db)

/-- The document count of a record fits the 64-bit Go `int`. -/
def DatabaseInfo.inRange (db : DatabaseInfo) : Prop :=
  -(2 ^ 63 : Int) ≤ db.DocumentCount ∧ db.DocumentCount < 2 ^ 63

instance (db : DatabaseInfo) : Decidable db.inRange := by
  unfold DatabaseInfo.inRange
  infer_instance

/-- One step of `decodeMembers`, on a result that may already be an error. -/
def decodeStep (acc : Except UnmarshalError DatabaseInfo) (m : String × JSON) :
    Except UnmarshalError DatabaseInfo :=
  match acc with
  | Except.ok db => decodeField db m
  | Except.error e => Except.error e

/-! ## Compact JSON text of a list of records -/

/-- The character of a hexadecimal digit (lower case). -/
def hexDigit (k : Nat) : Char :=
  if k < 10 then Char.ofNat (48 + k) else Char.ofNat (87 + k)

/-- The escaping JSON requires inside a string: the quote, the backslash and the control
characters. -/
def escapeChar (c : Char) : List Char :=
  if c = '"' then ['\\', '"']
  else if c = '\\' then ['\\', '\\']
  else if c.toNat < 0x20 then
    ['\\', 'u', '0', '0', hexDigit (c.toNat / 16), hexDigit (c.toNat % 16)]
  else [c]

/-- Escape every character of a text. -/
def escapeChars : List Char → List Char
  | [] => []
  | c :: cs => escapeChar c ++ escapeChars cs

/-- The JSON string literal of a text. -/
def encodeString (s : String) : List Char :=
  '"' :: (escapeChars s.data ++ ['"'])

/-- The compact JSON object of a record, members in declaration order. -/
def encodeRecord (db : DatabaseInfo) : List Char :=
  '\x7b' :: (encodeString "name" ++ ':' :: (encodeString db.Name ++ ',' ::
    (encodeString "type" ++ ':' :: (encodeString db.Type_ ++ ',' ::
    (encodeString "collection" ++ ':' :: (encodeString db.Collection ++ ',' ::
    (encodeString "document_count" ++ ':' :: (intLiteral db.DocumentCount ++ ['\x7d']))))))))

/-- The records of a non-empty array, separated by commas. -/
def encodeRecords : List DatabaseInfo → List Char
  | [] => []
  | [db] => encodeRecord db
  | db :: db1 :: dbs => encodeRecord db ++ ',' :: encodeRecords (db1 :: dbs)

/-- The compact JSON array of a list of records (what a server marshalling the list sends,
up to optional escapes). -/
def encodeDatabases (dbs : List DatabaseInfo) : String :=
  String.mk ('[' :: (encodeRecords dbs ++ [']']))

/-! ## What fits a `[]DatabaseInfo` -/

/-- The characters of a key with the ASCII letters in lower case. -/
def lowerKey (key : String) : List Char := key.data.map Char.toLower

/-- The number written by a run of decimal digits. -/
def decimalValue (ds : List Char) : Nat :=
  Nat.ofDigits 10 (ds.reverse.map (fun c => c.toNat - 48))

/-- An integer literal that fits the 64-bit Go `int`: digits with a value below `2^63`, or a
minus sign and digits with a value of at most `2^63`. -/
def IsInt64Literal (lit : List Char) : Prop :=
  ∃ ds : List Char, ds ≠ [] ∧ (∀ c ∈ ds, c.isDigit = true) ∧
    ((lit = ds ∧ decimalValue ds < 2 ^ 63) ∨ (lit = '-' :: ds ∧ decimalValue ds ≤ 2 ^ 63))

/-- A JSON value that can be stored in a Go `string` field: a string or `null`. -/
def FitsString (v : JSON) : Prop := v = JSON.null ∨ ∃ s, v = JSON.str s

/-- A JSON value that can be stored in a Go `int` field: a 64-bit integer literal or
`null`. -/
def FitsInt (v : JSON) : Prop := v = JSON.null ∨ ∃ lit, v = JSON.num lit ∧ IsInt64Literal lit

/-- An object member that can be stored in a `DatabaseInfo`: when its key is, up to letter
case, `name`, `type` or `collection` its value fits a string, when its key is
`document_count` its value fits an int; any other member is ignored. -/
def FitsMember (m : String × JSON) : Prop :=
  (lowerKey m.1 = "name".data ∨ lowerKey m.1 = "type".data ∨ lowerKey m.1 = "collection".data →
    FitsString m.2) ∧
  (lowerKey m.1 = "document_count".data → FitsInt m.2)

/-- An array element that can be stored in a `DatabaseInfo`: `null`, or an object all of
whose members fit. -/
def FitsElem (j : JSON) : Prop := j = JSON.null ∨ ∃ ms, j = JSON.obj ms ∧ ∀ m ∈ ms, FitsMember m

/-- A JSON value that can be stored in a `[]DatabaseInfo`: `null`, or an array all of whose
elements fit. -/
def FitsDatabases (j : JSON) : Prop :=
  j = JSON.null ∨ ∃ js, j = JSON.arr js ∧ ∀ e ∈ js, FitsElem e

/-! ## The JSON text of an array of Database Records -/

/-- A run of JSON whitespace: spaces, tabs, carriage returns and line feeds. -/
def IsBlank (ws : List Char) : Prop :=
  ∀ c ∈ ws, c = ' ' ∨ c = '\t' ∨ c = '\r' ∨ c = '\n'

/-- The character of a hexadecimal digit (upper case). -/
def hexDigitUpper (k : Nat) : Char :=
  if k < 10 then Char.ofNat (48 + k) else Char.ofNat (55 + k)

/-- The character `c` writes the hexadecimal digit `k`, in either case. -/
def IsHexDigit (c : Char) (k : Nat) : Prop :=
  k < 16 ∧ (c = hexDigit k ∨ c = hexDigitUpper k)

/-- The four characters `a b c d` write the 16-bit code `code` in hexadecimal. -/
def IsHex4 (a b c d : Char) (code : Nat) : Prop :=
  ∃ x y z w, IsHexDigit a x ∧ IsHexDigit b y ∧ IsHexDigit c z ∧ IsHexDigit d w ∧
    code = ((x * 16 + y) * 16 + z) * 16 + w

/-- The two-character escapes of JSON: the letter after the backslash and the character the
escape stands for. -/
def simpleEscapes : List (Char × Char) :=
  [('"', '"'), ('\\', '\\'), ('/', '/'), ('b', Char.ofNat 8), ('f', Char.ofNat 12),
   ('n', Char.ofNat 10), ('r', Char.ofNat 13), ('t', Char.ofNat 9)]

/-- The text between the quotes of a JSON string literal, and the characters it stands
for: plain characters, two-character escapes, `\uXXXX` escapes of a code that is not a
surrogate, and pairs of `\uXXXX` escapes that form a surrogate pair. -/
inductive StringText : List Char → List Char → Prop where
  | done : StringText [] []
  | plain (c : Char) (t s : List Char) :
      c ≠ '"' → c ≠ '\\' → 0x20 ≤ c.toNat → StringText t s → StringText (c :: t) (c :: s)
  | escape (e ch : Char) (t s : List Char) :
      (e, ch) ∈ simpleEscapes → StringText t s → StringText ('\\' :: e :: t) (ch :: s)
  | unicode (a b c d : Char) (code : Nat) (t s : List Char) :
      IsHex4 a b c d code → ¬ (0xD800 ≤ code ∧ code < 0xE000) → StringText t s →
      StringText ('\\' :: 'u' :: a :: b :: c :: d :: t) (Char.ofNat code :: s)
  | surrogatePair (a b c d a1 b1 c1 d1 : Char) (hi lo : Nat) (t s : List Char) :
      IsHex4 a b c d hi → IsHex4 a1 b1 c1 d1 lo →
      0xD800 ≤ hi → hi < 0xDC00 → 0xDC00 ≤ lo → lo < 0xE000 → StringText t s →
      StringText ('\\' :: 'u' :: a :: b :: c :: d :: '\\' :: 'u' :: a1 :: b1 :: c1 :: d1 :: t)
        (Char.ofNat (0x10000 + (hi - 0xD800) * 0x400 + (lo - 0xDC00)) :: s)

/-- The text of the value of a record member and the JSON value it writes: a string
literal, or the decimal literal of an integer. -/
inductive MemberValueText : List Char → JSON → Prop where
  | string (t s : List Char) :
      StringText t s → MemberValueText ('"' :: (t ++ ['"'])) (JSON.str (String.mk s))
  | integer (n : Int) : MemberValueText (intLiteral n) (JSON.num (intLiteral n))

/-- The text of one object member: the key as a string literal, a colon and the value, with
optional whitespace around the colon. -/
def MemberText (t : List Char) (m : String × JSON) : Prop :=
  ∃ kt ws1 ws2 vt, StringText kt m.1.data ∧ IsBlank ws1 ∧ IsBlank ws2 ∧
    MemberValueText vt m.2 ∧ t = '"' :: (kt ++ '"' :: (ws1 ++ ':' :: (ws2 ++ vt)))

/-- The text between the braces of a non-empty object: members separated by commas, with
optional whitespace around each member. -/
inductive MembersText : List Char → List (String × JSON) → Prop where
  | last (ws0 t ws1 : List Char) (m : String × JSON) :
      IsBlank ws0 → IsBlank ws1 → MemberText t m → MembersText (ws0 ++ (t ++ ws1)) [m]
  | more (ws0 t ws1 rest : List Char) (m : String × JSON) (ms : List (String × JSON)) :
      IsBlank ws0 → IsBlank ws1 → MemberText t m → MembersText rest ms →
      MembersText (ws0 ++ (t ++ (ws1 ++ ',' :: rest))) (m :: ms)

/-- The text of a non-empty object and the JSON object it writes. -/
def ObjectText (t : List Char) (j : JSON) : Prop :=
  ∃ mt ms, MembersText mt ms ∧ t = '\x7b' :: (mt ++ ['\x7d']) ∧ j = JSON.obj ms

/-- The text between the brackets of a non-empty array of objects: objects separated by
commas, with optional whitespace around each object. -/
inductive ElementsText : List Char → List JSON → Prop where
  | last (ws0 t ws1 : List Char) (j : JSON) :
      IsBlank ws0 → IsBlank ws1 → ObjectText t j → ElementsText (ws0 ++ (t ++ ws1)) [j]
  | more (ws0 t ws1 rest : List Char) (j : JSON) (js : List JSON) :
      IsBlank ws0 → IsBlank ws1 → ObjectText t j → ElementsText rest js →
      ElementsText (ws0 ++ (t ++ (ws1 ++ ',' :: rest))) (j :: js)

/-- The text of an array of objects: brackets around nothing but whitespace, or around the
text of the elements. -/
def ArrayText (t : List Char) (js : List JSON) : Prop :=
  (∃ ws, IsBlank ws ∧ t = '[' :: (ws ++ [']']) ∧ js = []) ∨
  (∃ et, ElementsText et js ∧ t = '[' :: (et ++ [']']))

/-- A response body that is a JSON array of Database Record objects encoding `dbs`: the
text of an array of objects, optionally surrounded by whitespace, whose objects are record
objects of the records of `dbs`, in order. -/
def RecordArrayBody (body : String) (dbs : List DatabaseInfo) : Prop :=
  ∃ ws0 arrayText ws1 js, IsBlank ws0 ∧ IsBlank ws1 ∧ ArrayText arrayText js ∧
    body.data = ws0 ++ (arrayText ++ ws1) ∧ List.Forall₂ EncodesRecord js dbs

/-! # Properties -/

/-- A variable that is set in the process environment keeps its value when `.env` is
loaded. -/
theorem envServerURI_of_set (w : World Y) (v : String)
    (h : w.environ "MAESTRO_KNOWLEDGE_MCP_SERVER_URI" = some v) : envServerURI w = v := by
  unfold envServerURI loadEnvFile godotenvLoad record
  cases hd : w.dotenvFile <;> simp [h]

/-- Without a `.env` file the environment value is the one of the process environment. -/
theorem envServerURI_of_no_dotenv (w : World Y) (h : w.dotenvFile = none) :
    envServerURI w = (w.environ "MAESTRO_KNOWLEDGE_MCP_SERVER_URI").getD "" := by
  simp [envServerURI, loadEnvFile, godotenvLoad, record, h]

/-- C6: `getMCPServerURI` never fails and resolves by strict priority: the explicit value
`f` when it is non-empty, otherwise the environment value of
`MAESTRO_KNOWLEDGE_MCP_SERVER_URI` when that is non-empty, otherwise the default
`http://localhost:8000`; the returned error is nil in all three cases. The environment
value is the one `os.Getenv` finds: the value set in the process environment if there is
one, and without a `.env` file nothing else. -/
theorem getMCPServerURI_priority (f : String) (w : World Y) :
    (getMCPServerURI f w).2 =
      (if f ≠ "" then f
        else if envServerURI w ≠ "" then envServerURI w
        else "http://localhost:8000", none) ∧
    (∀ v, w.environ "MAESTRO_KNOWLEDGE_MCP_SERVER_URI" = some v → envServerURI w = v) ∧
    (w.dotenvFile = none →
      envServerURI w = (w.environ "MAESTRO_KNOWLEDGE_MCP_SERVER_URI").getD "") := by
  refine ⟨?_, envServerURI_of_set w, envServerURI_of_no_dotenv w⟩
  unfold getMCPServerURI envServerURI osGetenv
  by_cases hf : f = ""
  · by_cases he : (((loadEnvFile w).1).environ "MAESTRO_KNOWLEDGE_MCP_SERVER_URI").getD "" = ""
    · simp [hf, he, record]
    · simp [hf, he, record]
  · simp [hf]

/-- Instance of `getMCPServerURI_priority`: the flag wins over the environment, the
environment wins over the default, and the default is used when both are empty. -/
theorem getMCPServerURI_priority_witness :
    (getMCPServerURI "http://flag:1"
        { World.blank with environ := fun _ => some "http://env:2" }).2
      = ("http://flag:1", none) ∧
    (getMCPServerURI "" { World.blank with environ := fun _ => some "http://env:2" }).2
      = ("http://env:2", none) ∧
    (getMCPServerURI "" World.blank).2 = ("http://localhost:8000", none) :=
  ⟨(getMCPServerURI_priority "http://flag:1"
      { World.blank with environ := fun _ => some "http://env:2" }).1,
   ((getMCPServerURI_priority ""
      { World.blank with environ := fun _ => some "http://env:2" }).1).trans
     (by rw [(getMCPServerURI_priority ""
          { World.blank with environ := fun _ => some "http://env:2" }).2.1 "http://env:2" rfl]
         decide),
   ((getMCPServerURI_priority "" World.blank).1).trans
     (by rw [(getMCPServerURI_priority "" World.blank).2.2 rfl]; decide)⟩

/-! ## Transport -/

/-- What `callMCPServer` does once the request has been sent and a response received. -/
theorem callMCPServer_of_response (c : MCPClient) (method : String) (params : Params)
    (w : World Y) (jsonData : String) (resp : HTTPResponse)
    (hm : params.marshal = Except.ok jsonData)
    (hr : w.httpPost (c.baseURL ++ "/mcp/tools/" ++ method) "application/json" jsonData
      = Except.ok resp) :
    c.callMCPServer method params w =
      (record (IOCall.httpPost (c.baseURL ++ "/mcp/tools/" ++ method) "application/json" jsonData) w,
        if resp.StatusCode ≠ 200 then
          Except.error (ClientError.httpStatus resp.StatusCode resp.Body)
        else
          match resp.ReadErr with
          | some e => Except.error (ClientError.readBody e)
          | none => Except.ok { JSONRPC := "2.0", ID := 1, Result := GoAny.string resp.Body,
                                Error := none }) := by
  unfold MCPClient.callMCPServer
  simp only [hm, hr]
  by_cases hs : resp.StatusCode = 200
  · cases hre : resp.ReadErr <;> simp [hs]
  · simp [hs]

/-- C5 (counterexample): a response with status 201, which is in the 2xx range, and a
readable body makes `callMCPServer` fail with an HTTP status error instead of returning
the body. -/
theorem callMCPServer_status_201_fails :
    (200 : Int) ≤ 201 ∧ (201 : Int) ≤ 299 ∧
    ((NewMCPClient "http://localhost:8000").callMCPServer "list_databases" Params.empty
        (World.serving ⟨201, "[]", none⟩)).2
      = Except.error (ClientError.httpStatus 201 "[]") := by
  refine ⟨by decide, by decide, ?_⟩
  rfl

/-- C5 (amended): for every HTTP response received by `callMCPServer`, if its status code
is exactly 200 and the body is read without error the call returns no error and a result
equal to the response body verbatim; if its status code is anything else (other 2xx codes
included) the call returns an error that reports the response's actual status code and
carries the response body. -/
theorem callMCPServer_status (c : MCPClient) (method : String) (params : Params)
    (w : World Y) (jsonData : String) (resp : HTTPResponse)
    (hm : params.marshal = Except.ok jsonData)
    (hr : w.httpPost (c.baseURL ++ "/mcp/tools/" ++ method) "application/json" jsonData
      = Except.ok resp) :
    (resp.StatusCode = 200 → resp.ReadErr = none →
      (c.callMCPServer method params w).2 =
        Except.ok { JSONRPC := "2.0", ID := 1, Result := GoAny.string resp.Body, Error := none }) ∧
    (resp.StatusCode ≠ 200 →
      (c.callMCPServer method params w).2 =
        Except.error (ClientError.httpStatus resp.StatusCode resp.Body)) := by
  rw [callMCPServer_of_response c method params w jsonData resp hm hr]
  constructor
  · intro hs he
    simp [hs, he]
  · intro hs
    simp [hs]

/-- Instance of `callMCPServer_status` at a 200 response and at a 204 response. -/
theorem callMCPServer_status_witness :
    ((NewMCPClient "http://localhost:8000").callMCPServer "list_databases" Params.empty
        (World.serving ⟨200, "[]", none⟩)).2
      = Except.ok { JSONRPC := "2.0", ID := 1, Result := GoAny.string "[]", Error := none } ∧
    ((NewMCPClient "http://localhost:8000").callMCPServer "list_databases" Params.empty
        (World.serving ⟨204, "", none⟩)).2
      = Except.error (ClientError.httpStatus 204 "") :=
  ⟨(callMCPServer_status (NewMCPClient "http://localhost:8000") "list_databases" Params.empty
      (World.serving ⟨200, "[]", none⟩) "\x7b\x7d" ⟨200, "[]", none⟩ rfl rfl).1 rfl rfl,
   (callMCPServer_status (NewMCPClient "http://localhost:8000") "list_databases" Params.empty
      (World.serving ⟨204, "", none⟩) "\x7b\x7d" ⟨204, "", none⟩ rfl rfl).2 (by decide)⟩

/-! ## The `list` command -/

/-- The text of the unsupported-resource-type error starts with, hence contains, the words
`unsupported resource type`. -/
theorem unsupportedResourceTypeText_contains (rt : String) :
    ∃ pre suf : List Char,
      (unsupportedResourceTypeText rt).data = pre ++ "unsupported resource type".data ++ suf := by
  refine ⟨[], ": ".data ++ rt.data ++ ". Use \x27vector-database\x27 or \x27vector-db\x27".data, ?_⟩
  simp [unsupportedResourceTypeText, String.data_append]

/-- C10: the `list` command accepts its resource-type argument exactly when it is
`vector-database` or `vector-db`. For every other argument it returns an error whose text
contains `unsupported resource type` and leaves the world untouched (nothing printed, no
external call, so `listVectorDatabases` did not run); for each of the two accepted strings
it does what `listVectorDatabases` does, hence the same for both. -/
theorem listCmd_RunE_resource_type (fl : Flags) (rt : String) (w : World Y) :
    listCmd.RunE fl [rt] w =
        (if rt = "vector-database" ∨ rt = "vector-db" then listVectorDatabases fl w
          else (w, some (ListError.unsupportedResourceType rt))) ∧
    (∀ cause, ∃ pre suf : List Char,
      ((ListError.unsupportedResourceType rt).message cause).data
        = pre ++ "unsupported resource type".data ++ suf) ∧
    listCmd.RunE fl ["vector-database"] w = listCmd.RunE fl ["vector-db"] w := by
  refine ⟨?_, ?_, ?_⟩
  · unfold listCmd.RunE
    by_cases h1 : rt = "vector-database"
    · simp [h1]
    · by_cases h2 : rt = "vector-db"
      · simp [h2]
      · simp [h1, h2]
  · intro cause
    exact unsupportedResourceTypeText_contains rt
  · simp [listCmd.RunE]

/-! ## Dry run -/

/-- C9 (counterexample): with the dry-run flag set and a YAML file that does not exist,
`validateFiles` inspects the file system (`os.Stat`), prints nothing and fails with a
not-found error instead of printing the dry-run message and succeeding. -/
theorem validateFiles_dry_run_missing_file :
    (validateFiles ⟨false, false, true, ""⟩ "missing.yaml" "" World.blank).2
      = some (ValidateError.yamlNotFound "missing.yaml") ∧
    (validateFiles ⟨false, false, true, ""⟩ "missing.yaml" "" World.blank).1.calls
      = [IOCall.stat "missing.yaml"] ∧
    (validateFiles ⟨false, false, true, ""⟩ "missing.yaml" "" World.blank).1.stdout = [] := by
  refine ⟨rfl, rfl, rfl⟩

/-- C9 (amended): with the dry-run flag set, `listVectorDatabases` prints (after the
verbose line, if any) `[DRY RUN] Would list vector databases` and returns success without
any external call and without touching the environment, for every verbose/silent setting,
server URI and world. `validateFiles` first performs its existence checks: when the YAML
file and a supplied schema file are not reported missing it prints (after the verbose
lines, if any) `[DRY RUN] Would validate files` and returns success, and its only external
calls are the `os.Stat` calls of the checks, so no file is read. -/
theorem dry_run_short_circuit (fl : Flags) (hdry : fl.dryRun = true) :
    (∀ w : World Y,
      (listVectorDatabases fl w).2 = none ∧
      (listVectorDatabases fl w).1.stdout =
        w.stdout ++ (if fl.verbose then ["Listing vector databases..."] else [])
          ++ ["[DRY RUN] Would list vector databases"] ∧
      (listVectorDatabases fl w).1.calls = w.calls ∧
      (listVectorDatabases fl w).1.environ = w.environ) ∧
    (∀ (yamlFile schemaFile : String) (w : World Y),
      w.statFile yamlFile ≠ StatResult.notExist →
      (schemaFile ≠ "" → w.statFile schemaFile ≠ StatResult.notExist) →
      (validateFiles fl yamlFile schemaFile w).2 = none ∧
      (validateFiles fl yamlFile schemaFile w).1.stdout =
        w.stdout
          ++ (if fl.verbose then
                ["Validating YAML file: " ++ yamlFile,
                 if schemaFile ≠ "" then "Using schema file: " ++ schemaFile
                 else "Using default schema"]
              else [])
          ++ ["[DRY RUN] Would validate files"] ∧
      (validateFiles fl yamlFile schemaFile w).1.calls =
        w.calls ++ [IOCall.stat yamlFile]
          ++ (if schemaFile ≠ "" then [IOCall.stat schemaFile] else [])) := by
  constructor
  · intro w
    unfold listVectorDatabases
    cases hv : fl.verbose <;> simp [hdry, println]
  · intro yamlFile schemaFile w hy hs
    unfold validateFiles validateExisting osStat
    cases hv : fl.verbose
    · by_cases hsch : schemaFile = ""
      · cases hst : w.statFile yamlFile <;> simp_all [println, record]
      · have hs1 := hs hsch
        cases hst : w.statFile yamlFile <;> cases hst2 : w.statFile schemaFile <;>
          simp_all [println, record]
    · by_cases hsch : schemaFile = ""
      · cases hst : w.statFile yamlFile <;> simp_all [println, record]
      · have hs1 := hs hsch
        cases hst : w.statFile yamlFile <;> cases hst2 : w.statFile schemaFile <;>
          simp_all [println, record]

/-- Instance of `dry_run_short_circuit`: a verbose dry run of `list`, and a dry run of
`validate` on two existing files. -/
theorem dry_run_short_circuit_witness :
    (listVectorDatabases ⟨true, false, true, "http://example.org"⟩ World.blank).2 = none ∧
    (listVectorDatabases ⟨true, false, true, "http://example.org"⟩ World.blank).1.stdout
      = ["Listing vector databases...", "[DRY RUN] Would list vector databases"] ∧
    (validateFiles ⟨true, false, true, "http://example.org"⟩ "doc.yaml" "schema.json"
        (World.evaluating [])).1.calls
      = [IOCall.stat "doc.yaml", IOCall.stat "schema.json"] :=
  ⟨((dry_run_short_circuit ⟨true, false, true, "http://example.org"⟩ rfl).1 World.blank).1,
   ((dry_run_short_circuit ⟨true, false, true, "http://example.org"⟩ rfl).1 World.blank).2.1,
   ((dry_run_short_circuit ⟨true, false, true, "http://example.org"⟩ rfl).2 "doc.yaml"
      "schema.json" (World.evaluating []) (by decide) (fun _ => by decide)).2.2⟩

/-! ## Existence checks of `validate` -/

/-- C8 (counterexample): a YAML path that runs below a regular file does not exist, yet
`os.Stat` does not report it with the not-exist error, so `validateFiles` passes the
existence check, reads the file and fails with a read failure instead of a not-found error.
In the same way a schema path that does not exist is not reported when the document is
malformed: the malformed-content error comes first. -/
theorem validateFiles_absent_file_not_caught :
    (validateFiles ⟨false, false, false, ""⟩ "doc.yaml/child" "" World.belowRegularFile).2
      = some (ValidateError.validationFailed (ValidationError.readYAML "not a directory")) ∧
    (validateFiles ⟨false, false, false, ""⟩ "doc.yaml/child" "" World.belowRegularFile).1.calls
      = [IOCall.stat "doc.yaml/child", IOCall.readFile "doc.yaml/child"] ∧
    (validateFiles ⟨false, false, false, ""⟩ "doc.yaml" "schema.json/child"
        World.malformedDocument).2
      = some (ValidateError.validationFailed
          (ValidationError.invalidYAML "did not find expected node content")) := by
  refine ⟨rfl, rfl, rfl⟩

/-- C8 (amended): whenever `os.Stat` reports `yamlFile` with the not-exist error,
`validateFiles` fails with the not-found error naming `yamlFile`, whatever the flags and
whether or not `schemaFile` is supplied, exists or is missing; when `yamlFile` is not so
reported but a supplied `schemaFile` is, it fails with the not-found error naming
`schemaFile`. In both cases the only external calls made are the `os.Stat` calls of the
checks: no file content has been read or parsed when the error is returned. A YAML file
that is absent in a way `os.Stat` reports differently (a path below a regular file) passes
the check and, outside a dry run, surfaces as the read failure of `os.ReadFile`. -/
theorem validateFiles_missing_file (fl : Flags) (yamlFile schemaFile : String) (w : World Y) :
    (w.statFile yamlFile = StatResult.notExist →
      (validateFiles fl yamlFile schemaFile w).2 = some (ValidateError.yamlNotFound yamlFile) ∧
      (validateFiles fl yamlFile schemaFile w).1.calls = w.calls ++ [IOCall.stat yamlFile]) ∧
    (w.statFile yamlFile ≠ StatResult.notExist → schemaFile ≠ "" →
      w.statFile schemaFile = StatResult.notExist →
      (validateFiles fl yamlFile schemaFile w).2 = some (ValidateError.schemaNotFound schemaFile) ∧
      (validateFiles fl yamlFile schemaFile w).1.calls
        = w.calls ++ [IOCall.stat yamlFile, IOCall.stat schemaFile]) ∧
    (∀ e, w.statFile yamlFile = StatResult.notDirectory →
      (schemaFile ≠ "" → w.statFile schemaFile ≠ StatResult.notExist) →
      fl.dryRun = false → w.fileContent yamlFile = Except.error e →
      (validateFiles fl yamlFile schemaFile w).2
        = some (ValidateError.validationFailed (ValidationError.readYAML e))) := by
  refine ⟨?_, ?_, ?_⟩
  · intro hy
    unfold validateFiles osStat
    cases hv : fl.verbose <;> by_cases hsch : schemaFile = "" <;> simp [hy, println, record, hsch]
  · intro hy hsch hs
    unfold validateFiles osStat
    cases hv : fl.verbose <;> cases hst : w.statFile yamlFile <;>
      simp_all [println, record]
  · intro e hy hs hdry hread
    unfold validateFiles validateExisting performValidation osStat osReadFile
    by_cases hsch : schemaFile = ""
    · cases hv : fl.verbose <;> simp [hy, hsch, hdry, hread, println, record]
    · have hs1 := hs hsch
      cases hv : fl.verbose <;> cases hst : w.statFile schemaFile <;>
        simp_all [println, record]

/-- Instance of `validateFiles_missing_file`: both files missing, then only the schema
missing, then a YAML path below a regular file. -/
theorem validateFiles_missing_file_witness :
    (validateFiles ⟨false, false, false, ""⟩ "doc.yaml" "schema.json" World.blank).2
      = some (ValidateError.yamlNotFound "doc.yaml") ∧
    (validateFiles ⟨false, false, false, ""⟩ "doc.yaml" "schema.json"
        { World.blank with
          statFile := fun p => if p = "doc.yaml" then StatResult.found else StatResult.notExist }).2
      = some (ValidateError.schemaNotFound "schema.json") ∧
    (validateFiles ⟨false, false, false, ""⟩ "doc.yaml/child" "" World.belowRegularFile).2
      = some (ValidateError.validationFailed (ValidationError.readYAML "not a directory")) :=
  ⟨((validateFiles_missing_file ⟨false, false, false, ""⟩ "doc.yaml" "schema.json"
      World.blank).1 rfl).1,
   ((validateFiles_missing_file ⟨false, false, false, ""⟩ "doc.yaml" "schema.json"
      { World.blank with
        statFile := fun p => if p = "doc.yaml" then StatResult.found else StatResult.notExist }).2.1
      (by decide) (by decide) (by decide)).1,
   (validateFiles_missing_file ⟨false, false, false, ""⟩ "doc.yaml/child" ""
      World.belowRegularFile).2.2 "not a directory" rfl (fun h => absurd rfl h) rfl rfl⟩

/-! ## Schema findings -/

/-- The loop over the findings builds one line per finding, in order, and prints each line
exactly when `verbose` is set; it makes no external call. -/
theorem collectFindings_spec (verbose : Bool) (fs : List Finding) :
    ∀ (errors : List String) (w : World Y),
      (collectFindings verbose fs errors w).1 = errors ++ fs.map findingLine ∧
      (collectFindings verbose fs errors w).2.stdout
        = w.stdout ++ (if verbose then fs.map findingLine else []) ∧
      (collectFindings verbose fs errors w).2.calls = w.calls := by
  induction fs with
  | nil => intro errors w; simp [collectFindings]
  | cons f fs ih =>
    intro errors w
    obtain ⟨h1, h2, h3⟩ := ih (errors ++ [findingLine f])
      (if verbose then println (findingLine f) w else w)
    simp only [collectFindings]
    refine ⟨?_, ?_, ?_⟩
    · rw [h1]; simp
    · rw [h2]; cases verbose <;> simp [println]
    · rw [h3]; cases verbose <;> simp [println]

/-- C7 (counterexample): two evaluator reports with different findings make
`performValidation` return the very same error, and without `verbose` print the very same
(empty) output: the error reports the count but does not carry the findings. -/
theorem performValidation_error_omits_findings :
    [Finding.mk "name" "name is required"] ≠ [Finding.mk "port" "must be an integer"] ∧
    (performValidation ⟨false, false, false, ""⟩ "doc.yaml" "schema.json"
        (World.evaluating [⟨"name", "name is required"⟩])).2
      = some (ValidationError.failedWith 1) ∧
    (performValidation ⟨false, false, false, ""⟩ "doc.yaml" "schema.json"
        (World.evaluating [⟨"port", "must be an integer"⟩])).2
      = some (ValidationError.failedWith 1) ∧
    (performValidation ⟨false, false, false, ""⟩ "doc.yaml" "schema.json"
        (World.evaluating [⟨"name", "name is required"⟩])).1.stdout
      = (performValidation ⟨false, false, false, ""⟩ "doc.yaml" "schema.json"
        (World.evaluating [⟨"port", "must be an integer"⟩])).1.stdout := by
  refine ⟨by decide, rfl, rfl, rfl⟩

/-- C7 (amended): in `performValidation` with a schema supplied, once the document has been
read, parsed and converted and the evaluator has run, a non-empty list of findings makes the
call fail with the error `validation failed with N errors` where `N` is the number of
findings (so `N` independent violations give count `N`); the error carries the count only.
Every finding, not only the first, is rendered as `- field: description` and these lines
are printed in evaluator order after `Validation failed:` when `verbose` is set, and
nothing is printed otherwise. With zero findings the call succeeds. -/
theorem performValidation_findings (fl : Flags) (yamlFile schemaFile : String) (w : World Y)
    (yamlData absSchemaPath jsonData : String) (y : Y) (findings : List Finding)
    (hschema : schemaFile ≠ "")
    (hread : w.fileContent yamlFile = Except.ok yamlData)
    (hyaml : w.yamlUnmarshal yamlData = Except.ok y)
    (habs : w.pathAbs schemaFile = Except.ok absSchemaPath)
    (hjson : w.jsonMarshal y = Except.ok jsonData)
    (heval : w.schemaValidate ("file://" ++ absSchemaPath) jsonData = Except.ok findings) :
    (findings ≠ [] →
      (performValidation fl yamlFile schemaFile w).2
        = some (ValidationError.failedWith findings.length) ∧
      (ValidationError.failedWith findings.length).message
        = "validation failed with " ++ toString findings.length ++ " errors" ∧
      (performValidation fl yamlFile schemaFile w).1.stdout
        = w.stdout ++
          (if fl.verbose then
            ["Performing validation of " ++ w.pathBase yamlFile, "Validation failed:"]
              ++ findings.map findingLine
           else [])) ∧
    (findings = [] → (performValidation fl yamlFile schemaFile w).2 = none) := by
  constructor
  · intro hne
    have hlen : findings.length ≠ 0 := by
      intro h0
      exact hne (List.length_eq_zero.mp h0)
    cases hv : fl.verbose
    · have hc := collectFindings_spec false findings []
        (record (IOCall.schemaValidate ("file://" ++ absSchemaPath) jsonData)
          (record (IOCall.readFile yamlFile) w))
      simp [performValidation, osReadFile, yamlToJSON, record, println, hv, hread, hyaml,
        habs, hjson, heval, hschema, hlen, ValidationError.message] at hc ⊢
      simpa [record] using hc.2.1
    · have hc := collectFindings_spec true findings []
        (println "Validation failed:"
          (record (IOCall.schemaValidate ("file://" ++ absSchemaPath) jsonData)
            (record (IOCall.readFile yamlFile)
              (println ("Performing validation of " ++ w.pathBase yamlFile) w))))
      simp [performValidation, osReadFile, yamlToJSON, record, println, hv, hread, hyaml,
        habs, hjson, heval, hschema, hlen, ValidationError.message] at hc ⊢
      simpa [record, println] using hc.2.1
  · intro hnil
    subst hnil
    cases hv : fl.verbose <;>
      simp [performValidation, osReadFile, yamlToJSON, record, println, hv, hread, hyaml,
        habs, hjson, heval, hschema]

/-- Instance of `performValidation_findings`: a verbose run in which the evaluator reports
three findings. -/
theorem performValidation_findings_witness :
    (performValidation ⟨true, false, false, ""⟩ "doc.yaml" "schema.json"
        (World.evaluating [⟨"a", "x"⟩, ⟨"b", "y"⟩, ⟨"c", "z"⟩])).2
      = some (ValidationError.failedWith 3) ∧
    (performValidation ⟨true, false, false, ""⟩ "doc.yaml" "schema.json"
        (World.evaluating [⟨"a", "x"⟩, ⟨"b", "y"⟩, ⟨"c", "z"⟩])).1.stdout
      = ["Performing validation of doc.yaml", "Validation failed:", "- a: x", "- b: y", "- c: z"] :=
  (performValidation_findings ⟨true, false, false, ""⟩ "doc.yaml" "schema.json"
    (World.evaluating [⟨"a", "x"⟩, ⟨"b", "y"⟩, ⟨"c", "z"⟩]) "a: 1" "/work/schema.json" "\x7b\x7d" ()
    [⟨"a", "x"⟩, ⟨"b", "y"⟩, ⟨"c", "z"⟩] (by decide) rfl rfl rfl rfl rfl).1 (by decide)
    |> fun h => ⟨h.1, h.2.2⟩

/-! ## What the decoder accepts -/

/-- The value accumulated over a run of digits, in terms of the number the digits write. -/
theorem foldl_digits (ds : List Char) : ∀ a : Nat,
    ds.foldl (fun acc c => acc * 10 + (c.toNat - '0'.toNat)) a
      = a * 10 ^ ds.length + decimalValue ds := by
  induction ds with
  | nil => intro a; simp [decimalValue]
  | cons c t ih =>
    intro a
    have h48 : '0'.toNat = 48 := by decide
    rw [List.foldl_cons, ih]
    simp only [decimalValue, List.reverse_cons, List.map_append,
      List.map_cons, List.map_nil, Nat.ofDigits_append, Nat.ofDigits_singleton,
      List.length_map, List.length_reverse, List.length_cons, h48]
    ring

/-- Reading a run of digits gives the number the digits write. -/
theorem digitsValue_eq (ds : List Char) (n : Nat) :
    digitsValue ds = some n ↔
      ds ≠ [] ∧ (∀ c ∈ ds, c.isDigit = true) ∧ n = decimalValue ds := by
  unfold digitsValue
  rw [foldl_digits]
  simp only [Nat.zero_mul, Nat.zero_add, List.all_eq_true]
  constructor
  · intro h
    split at h
    · rename_i hc
      simp only [Option.some.injEq] at h
      exact ⟨hc.1, hc.2, h.symm⟩
    · exact Option.noConfusion h
  · rintro ⟨h1, h2, h3⟩
    rw [if_pos ⟨h1, h2⟩, h3]

/-- The integer reader accepts exactly the 64-bit integer literals. -/
theorem parseInt64_isSome (lit : List Char) :
    (∃ n, parseInt64 lit = some n) ↔ IsInt64Literal lit := by
  cases lit with
  | nil =>
    constructor
    · rintro ⟨n, h⟩; exact Option.noConfusion h
    · rintro ⟨ds, hne, _, h | h⟩
      · exact absurd h.1.symm hne
      · exact List.noConfusion h.1
  | cons c t =>
    by_cases hc : c = '-'
    · subst hc
      simp only [parseInt64, if_true]
      constructor
      · rintro ⟨n, h⟩
        cases hd : digitsValue t with
        | none => rw [hd] at h; exact Option.noConfusion h
        | some k =>
          rw [hd] at h
          simp only at h
          obtain ⟨h1, h2, h3⟩ := (digitsValue_eq t k).mp hd
          by_cases hk : k ≤ 2 ^ 63
          · exact ⟨t, h1, h2, Or.inr ⟨rfl, h3 ▸ hk⟩⟩
          · rw [if_neg hk] at h; exact Option.noConfusion h
      · rintro ⟨ds, hne, hdig, h | h⟩
        · have : ('-' : Char).isDigit = true := hdig '-' (by rw [← h.1]; exact List.mem_cons_self _ _)
          exact absurd this (by decide)
        · obtain ⟨hl, hv⟩ := h
          have ht : t = ds := (List.cons.inj hl).2
          subst ht
          have hd := (digitsValue_eq t (decimalValue t)).mpr ⟨hne, hdig, rfl⟩
          exact ⟨-(decimalValue t : Int), by rw [hd]; simp only; rw [if_pos hv]⟩
    · simp only [parseInt64, hc, if_false]
      constructor
      · rintro ⟨n, h⟩
        cases hd : digitsValue (c :: t) with
        | none => rw [hd] at h; exact Option.noConfusion h
        | some k =>
          rw [hd] at h
          simp only at h
          obtain ⟨h1, h2, h3⟩ := (digitsValue_eq (c :: t) k).mp hd
          by_cases hk : k < 2 ^ 63
          · exact ⟨c :: t, h1, h2, Or.inl ⟨rfl, h3 ▸ hk⟩⟩
          · rw [if_neg hk] at h; exact Option.noConfusion h
      · rintro ⟨ds, hne, hdig, h | h⟩
        · obtain ⟨hl, hv⟩ := h
          subst hl
          have hd := (digitsValue_eq (c :: t) (decimalValue (c :: t))).mpr ⟨hne, hdig, rfl⟩
          exact ⟨(decimalValue (c :: t) : Int), by rw [hd]; simp only; rw [if_pos hv]⟩
        · exact absurd (List.cons.inj h.1).1 hc


/-- A string field accepts exactly strings and `null`. -/
theorem storeString_ok (v : JSON) (cur : String) :
    (∃ s, storeString v cur = Except.ok s) ↔ FitsString v := by
  unfold FitsString
  cases v <;> simp [storeString]

/-- An int field accepts exactly 64-bit integer literals and `null`. -/
theorem storeInt_ok (v : JSON) (cur : Int) :
    (∃ n, storeInt v cur = Except.ok n) ↔ FitsInt v := by
  unfold FitsInt
  cases v with
  | num lit =>
    rw [show (∃ l, JSON.num lit = JSON.num l ∧ IsInt64Literal l) ↔ IsInt64Literal lit by
      constructor
      · rintro ⟨l, hl, h⟩; cases hl; exact h
      · intro h; exact ⟨lit, rfl, h⟩]
    rw [← parseInt64_isSome]
    simp only [storeInt, false_or]
    cases hp : parseInt64 lit with
    | none => simp
    | some n => simp
  | null => simp [storeInt]
  | bool b => simp [storeInt]
  | str t => simp [storeInt]
  | arr xs => simp [storeInt]
  | obj ms => simp [storeInt]

/-- A key selects a field with a lower-case name exactly when its lower-case form is the
name. -/
theorem foldEq_lower (key field : String) (hf : field.data.map Char.toLower = field.data) :
    foldEq key field = true ↔ lowerKey key = field.data := by
  simp [foldEq, lowerKey, hf]

/-- A member is decoded without error exactly when it fits. -/
theorem decodeField_ok (db : DatabaseInfo) (m : String × JSON) :
    (∃ d, decodeField db m = Except.ok d) ↔ FitsMember m := by
  have hn := foldEq_lower m.1 "name" (by decide)
  have ht := foldEq_lower m.1 "type" (by decide)
  have hcl := foldEq_lower m.1 "collection" (by decide)
  have hd := foldEq_lower m.1 "document_count" (by decide)
  have hs1 := storeString_ok m.2 db.Name
  have hs2 := storeString_ok m.2 db.Type_
  have hs3 := storeString_ok m.2 db.Collection
  have hi := storeInt_ok m.2 db.DocumentCount
  have d1 : "name".data ≠ "document_count".data := by decide
  have d2 : "type".data ≠ "document_count".data := by decide
  have d3 : "collection".data ≠ "document_count".data := by decide
  unfold FitsMember decodeField
  by_cases h1 : foldEq m.1 "name" = true
  · have e1 := hn.mp h1
    rw [if_pos h1, ← hs1]
    have hnc : ¬ lowerKey m.1 = "document_count".data := by rw [e1]; exact d1
    simp only [e1, true_or, true_implies, hnc, false_implies, and_true]
    cases storeString m.2 db.Name <;> simp
  · have e1 : ¬ lowerKey m.1 = "name".data := fun h => h1 (hn.mpr h)
    rw [if_neg h1]
    by_cases h2 : foldEq m.1 "type" = true
    · have e2 := ht.mp h2
      rw [if_pos h2, ← hs2]
      have hnc : ¬ lowerKey m.1 = "document_count".data := by rw [e2]; exact d2
      simp only [e2, true_or, or_true, true_implies, hnc, false_implies, and_true]
      cases storeString m.2 db.Type_ <;> simp
    · have e2 : ¬ lowerKey m.1 = "type".data := fun h => h2 (ht.mpr h)
      rw [if_neg h2]
      by_cases h3 : foldEq m.1 "collection" = true
      · have e3 := hcl.mp h3
        rw [if_pos h3, ← hs3]
        have hnc : ¬ lowerKey m.1 = "document_count".data := by rw [e3]; exact d3
        simp only [e3, or_true, true_implies, hnc, false_implies, and_true]
        cases storeString m.2 db.Collection <;> simp
      · have e3 : ¬ lowerKey m.1 = "collection".data := fun h => h3 (hcl.mpr h)
        rw [if_neg h3]
        by_cases h4 : foldEq m.1 "document_count" = true
        · have e4 := hd.mp h4
          rw [if_pos h4, ← hi]
          simp only [e1, e2, e3, or_self, false_implies, true_and, e4, true_implies]
          cases storeInt m.2 db.DocumentCount <;> simp
        · have e4 : ¬ lowerKey m.1 = "document_count".data := fun h => h4 (hd.mpr h)
          rw [if_neg h4]
          simp [e1, e2, e3, e4]

/-- The members of an object are decoded without error exactly when all of them fit. -/
theorem decodeMembers_ok (ms : List (String × JSON)) : ∀ db : DatabaseInfo,
    (∃ d, decodeMembers db ms = Except.ok d) ↔ ∀ m ∈ ms, FitsMember m := by
  induction ms with
  | nil => intro db; simp [decodeMembers]
  | cons m ms ih =>
    intro db
    have hf := decodeField_ok db m
    simp only [decodeMembers, List.mem_cons, forall_eq_or_imp]
    cases hd : decodeField db m with
    | error e =>
      rw [hd] at hf
      have : ¬ FitsMember m := fun h => by
        obtain ⟨d, hd2⟩ := hf.mpr h
        exact Except.noConfusion hd2
      simp [this]
    | ok db1 =>
      rw [hd] at hf
      have : FitsMember m := hf.mp ⟨db1, rfl⟩
      simp only [this, true_and]
      exact ih db1

/-- An array element is decoded without error exactly when it fits. -/
theorem decodeElem_ok (j : JSON) : (∃ d, decodeElem j = Except.ok d) ↔ FitsElem j := by
  unfold FitsElem
  cases j with
  | obj ms =>
    simp only [decodeElem, decodeMembers_ok]
    constructor
    · intro h; exact Or.inr ⟨ms, rfl, h⟩
    · rintro (h | ⟨ms1, h1, h2⟩)
      · exact JSON.noConfusion h
      · cases h1; exact h2
  | null => simp [decodeElem]
  | bool b => simp [decodeElem]
  | num lit => simp [decodeElem]
  | str t => simp [decodeElem]
  | arr xs => simp [decodeElem]

/-- The elements of an array are decoded without error exactly when all of them fit, and
then there is one record per element. -/
theorem decodeElems_ok (js : List JSON) :
    ((∃ ds, decodeElems js = Except.ok ds) ↔ ∀ e ∈ js, FitsElem e) ∧
    (∀ ds, decodeElems js = Except.ok ds → ds.length = js.length) := by
  induction js with
  | nil => simp [decodeElems]
  | cons j js ih =>
    have hj := decodeElem_ok j
    simp only [decodeElems, List.mem_cons, forall_eq_or_imp]
    cases hd : decodeElem j with
    | error e =>
      rw [hd] at hj
      have : ¬ FitsElem j := fun h => by
        obtain ⟨d, hd2⟩ := hj.mpr h
        exact Except.noConfusion hd2
      simp [this]
    | ok db =>
      rw [hd] at hj
      have hfit : FitsElem j := hj.mp ⟨db, rfl⟩
      simp only [hfit, true_and]
      cases hs : decodeElems js with
      | error e =>
        rw [hs] at ih
        constructor
        · rw [← ih.1]
        · intro ds h; exact Except.noConfusion h
      | ok dbs =>
        rw [hs] at ih
        constructor
        · rw [← ih.1]
          simp
        · intro ds h
          simp only [Except.ok.injEq] at h
          rw [← h, List.length_cons, List.length_cons, ih.2 dbs rfl]

/-- A JSON value is decoded into `[]DatabaseInfo` without error exactly when it fits. -/
theorem decodeDatabases_ok (j : JSON) :
    (∃ ds, decodeDatabases j = Except.ok ds) ↔ FitsDatabases j := by
  unfold FitsDatabases
  cases j with
  | arr js =>
    simp only [decodeDatabases, (decodeElems_ok js).1]
    constructor
    · intro h; exact Or.inr ⟨js, rfl, h⟩
    · rintro (h | ⟨js1, h1, h2⟩)
      · exact JSON.noConfusion h
      · cases h1; exact h2
  | null => simp [decodeDatabases]
  | bool b => simp [decodeDatabases]
  | num lit => simp [decodeDatabases]
  | str t => simp [decodeDatabases]
  | obj ms => simp [decodeDatabases]

/-- Only `null` and the empty array decode to the empty sequence. -/
theorem decodeDatabases_nil (j : JSON) :
    decodeDatabases j = Except.ok [] ↔ j = JSON.null ∨ j = JSON.arr [] := by
  cases j with
  | arr js =>
    simp only [decodeDatabases]
    constructor
    · intro h
      have := (decodeElems_ok js).2 [] h
      have hjs : js = [] := List.length_eq_zero.mp this.symm
      exact Or.inr (by rw [hjs])
    · rintro (h | h)
      · exact JSON.noConfusion h
      · cases h; rfl
  | null => simp [decodeDatabases]
  | bool b => simp [decodeDatabases]
  | num lit => simp [decodeDatabases]
  | str t => simp [decodeDatabases]
  | obj ms => simp [decodeDatabases]

/-! ## Response normalisation in `ListDatabases` -/

/-- What `ListDatabases` returns once the server has answered with status 200 and a body
that was read without error. -/
theorem ListDatabases_of_body (c : MCPClient) (w : World Y) (body : String)
    (hr : w.httpPost (c.baseURL ++ "/mcp/tools/" ++ "list_databases") "application/json" "\x7b\x7d"
      = Except.ok ⟨200, body, none⟩) :
    (c.ListDatabases w).2 =
      match jsonUnmarshal body with
      | Except.error err =>
        if body = noDatabasesMessage then Except.ok []
        else Except.error (ClientError.parseDatabaseList err)
      | Except.ok databases => Except.ok databases := by
  have hcall := callMCPServer_of_response c "list_databases" Params.empty w "\x7b\x7d"
    ⟨200, body, none⟩ rfl hr
  unfold MCPClient.ListDatabases
  rw [hcall]
  simp only [ne_eq, not_true_eq_false, if_false]
  cases hu : jsonUnmarshal body with
  | error err =>
    by_cases hb : body = noDatabasesMessage <;> simp [hb]
  | ok dbs => simp

/-- The sentinel text is not JSON. -/
theorem parseJSON_noDatabasesMessage : parseJSON noDatabasesMessage.data = none := by
  rfl

/-- A body that is a JSON text is different from the sentinel. -/
theorem ne_noDatabasesMessage_of_parse (body : String) (j : JSON)
    (h : parseJSON body.data = some j) : body ≠ noDatabasesMessage := by
  intro hb
  rw [hb, parseJSON_noDatabasesMessage] at h
  exact Option.noConfusion h

/-- C4 (counterexample): the body `null` is not the sentinel and not a JSON array, yet
`ListDatabases` returns an empty (nil) sequence and no error for it. The arrays `[null]` and
`[{}]`, whose elements are not Database Record objects, are accepted as well and yield a
zero-valued record each. -/
theorem ListDatabases_null_body_is_silent :
    "null" ≠ noDatabasesMessage ∧
    ((NewMCPClient "http://localhost:8000").ListDatabases
        (World.serving ⟨200, "null", none⟩)).2 = Except.ok [] ∧
    ((NewMCPClient "http://localhost:8000").ListDatabases
        (World.serving ⟨200, "[null]", none⟩)).2 = Except.ok [⟨"", "", "", 0⟩] ∧
    ((NewMCPClient "http://localhost:8000").ListDatabases
        (World.serving ⟨200, "[\x7b\x7d]", none⟩)).2 = Except.ok [⟨"", "", "", 0⟩] := by
  refine ⟨by decide, ?_, ?_, ?_⟩
  · rw [ListDatabases_of_body _ _ "null" rfl]
    rfl
  · rw [ListDatabases_of_body _ _ "[null]" rfl]
    rfl
  · rw [ListDatabases_of_body _ _ "[\x7b\x7d]" rfl]
    rfl

/-- C4 (amended): for every response body that is not the exact sentinel, `ListDatabases`
returns a parse error exactly when the body is not a JSON value that fits a
`[]DatabaseInfo`. That is the case for every body that is not JSON at all (a syntax
error), for every JSON object, number, string and boolean (a type error naming the kind
of value), and for every JSON array with an element that is neither `null` nor an object
whose `name`, `type` and `collection` members are strings or `null` and whose
`document_count` members are 64-bit integer literals or `null` (as in `[1]`, `["x"]` and
`[{"name":5}]`); no such body yields a sequence with a nil error. What fits without being
an array of records is `null`, which yields the nil sequence, and arrays of `null` or of
objects that lack members, which yield zero-valued fields; an empty sequence with a nil
error is returned for `null` and for the empty array only. -/
theorem ListDatabases_parse_error (c : MCPClient) (w : World Y) (body : String)
    (hr : w.httpPost (c.baseURL ++ "/mcp/tools/" ++ "list_databases") "application/json" "\x7b\x7d"
      = Except.ok ⟨200, body, none⟩)
    (hne : body ≠ noDatabasesMessage) :
    ((∃ e, (c.ListDatabases w).2 = Except.error (ClientError.parseDatabaseList e)) ↔
      ¬ ∃ j, parseJSON body.data = some j ∧ FitsDatabases j) ∧
    (parseJSON body.data = none →
      (c.ListDatabases w).2
        = Except.error (ClientError.parseDatabaseList UnmarshalError.malformed)) ∧
    (∀ j, parseJSON body.data = some j → (∀ js, j ≠ JSON.arr js) → j ≠ JSON.null →
      (c.ListDatabases w).2
        = Except.error (ClientError.parseDatabaseList
            (UnmarshalError.typeMismatch j.describe "[]main.DatabaseInfo"))) ∧
    (∀ js, parseJSON body.data = some (JSON.arr js) → (∃ e ∈ js, ¬ FitsElem e) →
      ∃ err, (c.ListDatabases w).2 = Except.error (ClientError.parseDatabaseList err)) ∧
    ((c.ListDatabases w).2 = Except.ok [] ↔
      parseJSON body.data = some JSON.null ∨ parseJSON body.data = some (JSON.arr [])) := by
  rw [ListDatabases_of_body c w body hr]
  have hiff : (∃ e, (match jsonUnmarshal body with
        | Except.error err =>
          if body = noDatabasesMessage then Except.ok []
          else Except.error (ClientError.parseDatabaseList err)
        | Except.ok databases => (Except.ok databases : Except ClientError (List DatabaseInfo)))
          = Except.error (ClientError.parseDatabaseList e)) ↔
      ¬ ∃ j, parseJSON body.data = some j ∧ FitsDatabases j := by
    unfold jsonUnmarshal
    cases hp : parseJSON body.data with
    | none => simp [hne]
    | some j =>
      have hd := decodeDatabases_ok j
      cases hdec : decodeDatabases j with
      | error e =>
        rw [hdec] at hd
        have hnot : ¬ FitsDatabases j := fun h => by
          obtain ⟨ds, hds⟩ := hd.mpr h
          exact Except.noConfusion hds
        simp [hne, hnot, hdec]
      | ok ds =>
        rw [hdec] at hd
        have hfit : FitsDatabases j := hd.mp ⟨ds, rfl⟩
        simp [hfit, hdec]
  refine ⟨hiff, ?_, ?_, ?_, ?_⟩
  · intro hp
    simp [jsonUnmarshal, hp, hne]
  · intro j hp harr hnull
    cases j with
    | null => exact absurd rfl hnull
    | arr js => exact absurd rfl (harr js)
    | bool b => simp [jsonUnmarshal, hp, hne, decodeDatabases]
    | num lit => simp [jsonUnmarshal, hp, hne, decodeDatabases]
    | str t => simp [jsonUnmarshal, hp, hne, decodeDatabases]
    | obj ms => simp [jsonUnmarshal, hp, hne, decodeDatabases]
  · intro js hp hbad
    apply hiff.mpr
    rintro ⟨j, hj, hfit⟩
    rw [hp] at hj
    cases hj
    obtain ⟨e, he, hnot⟩ := hbad
    rcases hfit with h | ⟨js1, h1, h2⟩
    · exact JSON.noConfusion h
    · cases h1
      exact hnot (h2 e he)
  · unfold jsonUnmarshal
    cases hp : parseJSON body.data with
    | none => simp [hne]
    | some j =>
      have hnil := decodeDatabases_nil j
      cases hdec : decodeDatabases j with
      | error e =>
        rw [hdec] at hnil
        simp only [hne, if_false, hdec]
        constructor
        · intro h; exact Except.noConfusion h
        · intro h
          have : j = JSON.null ∨ j = JSON.arr [] := by
            rcases h with h | h
            · exact Or.inl (Option.some.inj h)
            · exact Or.inr (Option.some.inj h)
          exact Except.noConfusion (hnil.mpr this)
      | ok ds =>
        rw [hdec] at hnil
        simp only [Option.some.injEq, hdec]
        constructor
        · intro h
          have hds : ds = [] := by
            simp only [Except.ok.injEq] at h
            exact h
          subst hds
          exact hnil.mp rfl
        · intro h
          have := hnil.mpr h
          simp only [Except.ok.injEq] at this
          rw [this]

/-- Instance of `ListDatabases_parse_error`: plain text, a JSON object, an array of a
number and an array of an object whose name is a number. -/
theorem ListDatabases_parse_error_witness :
    ((NewMCPClient "http://localhost:8000").ListDatabases
        (World.serving ⟨200, "Internal Server Error", none⟩)).2
      = Except.error (ClientError.parseDatabaseList UnmarshalError.malformed) ∧
    ((NewMCPClient "http://localhost:8000").ListDatabases
        (World.serving ⟨200, "\x7b\"databases\": []\x7d", none⟩)).2
      = Except.error (ClientError.parseDatabaseList
          (UnmarshalError.typeMismatch "object" "[]main.DatabaseInfo")) ∧
    (∃ err, ((NewMCPClient "http://localhost:8000").ListDatabases
        (World.serving ⟨200, "[1]", none⟩)).2
      = Except.error (ClientError.parseDatabaseList err)) ∧
    (∃ err, ((NewMCPClient "http://localhost:8000").ListDatabases
        (World.serving ⟨200, "[\x7b\"name\":5\x7d]", none⟩)).2
      = Except.error (ClientError.parseDatabaseList err)) :=
  ⟨(ListDatabases_parse_error (NewMCPClient "http://localhost:8000")
      (World.serving ⟨200, "Internal Server Error", none⟩) "Internal Server Error" rfl
      (by decide)).2.1 (by rfl),
   (ListDatabases_parse_error (NewMCPClient "http://localhost:8000")
      (World.serving ⟨200, "\x7b\"databases\": []\x7d", none⟩) "\x7b\"databases\": []\x7d" rfl
      (by decide)).2.2.1 (JSON.obj [("databases", JSON.arr [])]) (by rfl)
      (fun js h => JSON.noConfusion h) (fun h => JSON.noConfusion h),
   (ListDatabases_parse_error (NewMCPClient "http://localhost:8000")
      (World.serving ⟨200, "[1]", none⟩) "[1]" rfl (by decide)).2.2.2.1
      [JSON.num ['1']] (by rfl)
      ⟨JSON.num ['1'], List.mem_singleton.mpr rfl, by
        rintro (h | ⟨ms, h, _⟩) <;> exact JSON.noConfusion h⟩,
   (ListDatabases_parse_error (NewMCPClient "http://localhost:8000")
      (World.serving ⟨200, "[\x7b\"name\":5\x7d]", none⟩) "[\x7b\"name\":5\x7d]" rfl
      (by decide)).2.2.2.1
      [JSON.obj [("name", JSON.num ['5'])]] (by rfl)
      ⟨JSON.obj [("name", JSON.num ['5'])], List.mem_singleton.mpr rfl, by
        rintro (h | ⟨ms, h, hfit⟩)
        · exact JSON.noConfusion h
        · cases h
          rcases (hfit ("name", JSON.num ['5']) (List.mem_singleton.mpr rfl)).1
            (Or.inl (by decide)) with h | ⟨s, h⟩ <;> exact JSON.noConfusion h⟩⟩

/-- C2 (counterexample): for the body that is the JSON string encoding of the one-record
array (outer quotes included), `ListDatabases` does not unwrap the string layer: it returns
a parse error and no record. -/
theorem ListDatabases_string_encoded_body_fails :
    ((NewMCPClient "http://localhost:8000").ListDatabases
        (World.serving ⟨200, stringEncodedBody, none⟩)).2
      = Except.error (ClientError.parseDatabaseList
          (UnmarshalError.typeMismatch "string" "[]main.DatabaseInfo")) := by
  rw [ListDatabases_of_body _ _ _ rfl]
  rfl

/-- C2 (amended): `ListDatabases` decodes the response body once. When the body is a JSON
string (one layer of string encoding around whatever it contains, for instance around a
JSON array of records) it does not unwrap that layer and returns a parse error saying that
a string cannot be stored in `[]DatabaseInfo`. When the body is the array itself, as in
`[{"name":"docs","type":"milvus","collection":"c1","document_count":42}]`, it returns the
encoded records with no error; for that example exactly one record whose `DocumentCount`
is 42. -/
theorem ListDatabases_single_decode (c : MCPClient) (w : World Y) (body : String) (inner : String)
    (hr : w.httpPost (c.baseURL ++ "/mcp/tools/" ++ "list_databases") "application/json" "\x7b\x7d"
      = Except.ok ⟨200, body, none⟩)
    (hstr : parseJSON body.data = some (JSON.str inner)) :
    (c.ListDatabases w).2
      = Except.error (ClientError.parseDatabaseList
          (UnmarshalError.typeMismatch "string" "[]main.DatabaseInfo")) ∧
    ((NewMCPClient "http://localhost:8000").ListDatabases
        (World.serving ⟨200, oneRecordBody, none⟩)).2
      = Except.ok [⟨"docs", "milvus", "c1", 42⟩] := by
  constructor
  · rw [ListDatabases_of_body c w body hr]
    have hne := ne_noDatabasesMessage_of_parse body _ hstr
    simp [jsonUnmarshal, hstr, hne, decodeDatabases, JSON.describe]
  · rw [ListDatabases_of_body _ _ _ rfl]
    rfl

/-- Instance of `ListDatabases_single_decode` at the string-encoded one-record array. -/
theorem ListDatabases_single_decode_witness :
    ((NewMCPClient "http://localhost:8000").ListDatabases
        (World.serving ⟨200, stringEncodedBody, none⟩)).2
      = Except.error (ClientError.parseDatabaseList
          (UnmarshalError.typeMismatch "string" "[]main.DatabaseInfo")) :=
  (ListDatabases_single_decode (NewMCPClient "http://localhost:8000")
    (World.serving ⟨200, stringEncodedBody, none⟩) stringEncodedBody oneRecordBody
    rfl (by rfl)).1

/-! ## The sentinel and its near-matches -/

/-- A value read at a position that starts with neither `[` nor `n` is neither an array nor
`null`. -/
theorem parseValue_kind (fuel depth : Nat) (cs : List Char) (c : Char) (rest : List Char)
    (j : JSON) (r : List Char)
    (hs : skipSpace cs = c :: rest) (h1 : c ≠ '[') (h2 : c ≠ 'n')
    (hp : parseValue (fuel + 1) depth cs = some (j, r)) :
    (∀ js, j ≠ JSON.arr js) ∧ j ≠ JSON.null := by
  rw [parseValue] at hp
  simp only [hs, h1, h2, if_false] at hp
  repeat' split at hp
  all_goals first
    | exact Option.noConfusion hp
    | (cases hp; exact ⟨fun js h => JSON.noConfusion h, fun h => JSON.noConfusion h⟩)

/-- A body whose first character after leading whitespace is neither `[` nor `n` is
rejected by `json.Unmarshal` into `[]DatabaseInfo`. -/
theorem jsonUnmarshal_error_of_head (body : String) (c : Char) (rest : List Char)
    (hs : skipSpace body.data = c :: rest) (h1 : c ≠ '[') (h2 : c ≠ 'n') :
    ∃ e, jsonUnmarshal body = Except.error e := by
  unfold jsonUnmarshal parseJSON
  cases hp : parseValue (body.data.length + 1) 0 body.data with
  | none => exact ⟨_, rfl⟩
  | some p =>
    obtain ⟨j, r⟩ := p
    obtain ⟨ha, hn⟩ := parseValue_kind _ _ _ c rest j r hs h1 h2 hp
    cases hr : skipSpace r with
    | nil =>
      cases j with
      | null => exact absurd rfl hn
      | arr js => exact absurd rfl (ha js)
      | bool b => simp [hr, decodeDatabases]
      | num lit => simp [hr, decodeDatabases]
      | str t => simp [hr, decodeDatabases]
      | obj ms => simp [hr, decodeDatabases]
    | cons x xs => simp [hr]

/-- Leading whitespace is skipped up to the first character that is not whitespace. -/
theorem skipSpace_append (pre : List Char) (c : Char) (rest : List Char)
    (hpre : ∀ x ∈ pre, isSpace x = true) (hc : isSpace c = false) :
    skipSpace (pre ++ c :: rest) = c :: rest := by
  induction pre with
  | nil => simp [skipSpace, hc]
  | cons x xs ih =>
    have hx : isSpace x = true := hpre x (List.mem_cons_self _ _)
    simp only [List.cons_append, skipSpace, hx, if_true]
    exact ih (fun y hy => hpre y (List.mem_cons_of_mem _ hy))

/-- A character that is not whitespace stops the skipping. -/
theorem skipSpace_head (c : Char) (rest : List Char) (hc : isSpace c = false) :
    skipSpace (c :: rest) = c :: rest := by
  simp [skipSpace, hc]


/-- A body that starts (after whitespace) with `n` not followed by `u` is not JSON. -/
theorem jsonUnmarshal_error_of_n (body : String) (c : Char) (rest : List Char)
    (hs : skipSpace body.data = 'n' :: c :: rest) (hc : c ≠ 'u') :
    ∃ e, jsonUnmarshal body = Except.error e := by
  have hc2 : ¬ 'u' = c := fun h => hc h.symm
  refine ⟨UnmarshalError.malformed, ?_⟩
  unfold jsonUnmarshal parseJSON
  rw [parseValue]
  simp [hs, dropLit, hc2]

/-- The characters of the sentinel. -/
theorem noDatabasesMessage_data :
    noDatabasesMessage.data = 'N' :: 'o' :: " vector databases are currently active".data := by
  rfl

/-- The sentinel has forty characters. -/
theorem noDatabasesMessage_length : noDatabasesMessage.data.length = 40 := by
  rfl

/-- A text of another length is not the sentinel. -/
theorem ne_noDatabasesMessage_of_length (l : List Char) (h : l.length ≠ 40) :
    String.mk l ≠ noDatabasesMessage := by
  intro he
  apply h
  have : l = noDatabasesMessage.data := by rw [← he]
  rw [this, noDatabasesMessage_length]

/-- Every near-match of the sentinel differs from the sentinel and is rejected by
`json.Unmarshal` into `[]DatabaseInfo`. -/
theorem nearMatch_rejected (body : String) (h : NearMatch body) :
    body ≠ noDatabasesMessage ∧ ∃ e, jsonUnmarshal body = Except.error e := by
  cases h with
  | letterCase _ hne hf =>
    refine ⟨hne, ?_⟩
    rw [noDatabasesMessage_data] at hf
    obtain ⟨c0, u0, h0, hf1, hb⟩ := List.forall₂_cons_right_iff.mp hf
    obtain ⟨c1, u1, h1, _, hb1⟩ := List.forall₂_cons_right_iff.mp hf1
    rw [hb1] at hb
    have hN : c0 = 'N' ∨ c0 = 'n' := by
      rcases h0 with h | h | h
      · exact Or.inl h
      · exact Or.inl (h.trans (by decide))
      · exact Or.inr (h.trans (by decide))
    have ho : c1 ≠ 'u' := by
      rcases h1 with h | h | h
      · rw [h]; decide
      · rw [h]; decide
      · rw [h]; decide
    rcases hN with h | h
    · subst h
      exact jsonUnmarshal_error_of_head body 'N' (c1 :: u1)
        (by rw [hb]; exact skipSpace_head _ _ (by decide)) (by decide) (by decide)
    · subst h
      exact jsonUnmarshal_error_of_n body c1 u1
        (by rw [hb]; exact skipSpace_head _ _ (by decide)) ho
  | padded pre post hpre hpost hne =>
    constructor
    · apply ne_noDatabasesMessage_of_length
      have hl : 0 < (pre ++ post).length := List.length_pos.mpr hne
      simp only [List.length_append, noDatabasesMessage_length] at hl ⊢
      omega
    · apply jsonUnmarshal_error_of_head _ 'N'
        ('o' :: " vector databases are currently active".data ++ post)
      · show skipSpace (pre ++ noDatabasesMessage.data ++ post) = _
        rw [noDatabasesMessage_data, List.append_assoc]
        exact skipSpace_append pre 'N' _ hpre (by decide)
      · decide
      · decide
  | quoted q hq =>
    constructor
    · apply ne_noDatabasesMessage_of_length
      simp only [List.length_cons, List.length_append, noDatabasesMessage_length,
        List.length_nil]
      omega
    · rcases hq with h | h
      · subst h
        exact ⟨UnmarshalError.typeMismatch "string" "[]main.DatabaseInfo", by rfl⟩
      · subst h
        exact ⟨UnmarshalError.malformed, by rfl⟩
  | extraChar pre suf c hps =>
    constructor
    · apply ne_noDatabasesMessage_of_length
      have hl : (pre ++ suf).length = 40 := by rw [hps, noDatabasesMessage_length]
      simp only [List.length_append, List.length_cons] at hl ⊢
      omega
    · cases pre with
      | nil =>
        simp only [List.nil_append] at hps ⊢
        subst hps
        by_cases hsp : isSpace c = true
        · apply jsonUnmarshal_error_of_head _ 'N'
            ('o' :: " vector databases are currently active".data)
          · show skipSpace (c :: noDatabasesMessage.data) = _
            rw [noDatabasesMessage_data]
            simp only [skipSpace, hsp, if_true]
            exact skipSpace_head 'N' _ (by decide)
          · decide
          · decide
        · by_cases hb : c = '['
          · subst hb
            exact ⟨UnmarshalError.malformed, by rfl⟩
          · by_cases hn : c = 'n'
            · subst hn
              exact ⟨UnmarshalError.malformed, by rfl⟩
            · exact jsonUnmarshal_error_of_head _ c noDatabasesMessage.data
                (skipSpace_head _ _ (by simpa using hsp)) hb hn
      | cons p ps =>
        rw [noDatabasesMessage_data, List.cons_append] at hps
        obtain ⟨hp, _⟩ := List.cons.inj hps
        subst hp
        exact jsonUnmarshal_error_of_head _ 'N' (ps ++ c :: suf)
          (skipSpace_head _ _ (by decide)) (by decide) (by decide)
  | missingChar pre suf c hps =>
    constructor
    · apply ne_noDatabasesMessage_of_length
      have hl : (pre ++ c :: suf).length = 40 := by rw [hps, noDatabasesMessage_length]
      simp only [List.length_append, List.length_cons] at hl ⊢
      omega
    · cases pre with
      | nil =>
        rw [noDatabasesMessage_data, List.nil_append] at hps
        obtain ⟨_, hsuf⟩ := List.cons.inj hps
        subst hsuf
        exact jsonUnmarshal_error_of_head _ 'o' " vector databases are currently active".data
          (skipSpace_head _ _ (by decide)) (by decide) (by decide)
      | cons p ps =>
        rw [noDatabasesMessage_data, List.cons_append] at hps
        obtain ⟨hp, _⟩ := List.cons.inj hps
        subst hp
        exact jsonUnmarshal_error_of_head _ 'N' (ps ++ suf)
          (skipSpace_head _ _ (by decide)) (by decide) (by decide)
  | extended extra hne =>
    constructor
    · apply ne_noDatabasesMessage_of_length
      have hl : 0 < extra.length := List.length_pos.mpr hne
      simp only [List.length_append, noDatabasesMessage_length]
      omega
    · apply jsonUnmarshal_error_of_head _ 'N'
        ('o' :: " vector databases are currently active".data ++ extra)
      · show skipSpace (noDatabasesMessage.data ++ extra) = _
        rw [noDatabasesMessage_data]
        exact skipSpace_head 'N' _ (by decide)
      · decide
      · decide
  | truncated pre suf hps hne =>
    constructor
    · apply ne_noDatabasesMessage_of_length
      have hl : (pre ++ suf).length = 40 := by rw [hps, noDatabasesMessage_length]
      have hs : 0 < suf.length := List.length_pos.mpr hne
      simp only [List.length_append] at hl
      omega
    · cases pre with
      | nil => exact ⟨UnmarshalError.malformed, by rfl⟩
      | cons p ps =>
        rw [noDatabasesMessage_data, List.cons_append] at hps
        obtain ⟨hp, _⟩ := List.cons.inj hps
        subst hp
        exact jsonUnmarshal_error_of_head _ 'N' ps
          (skipSpace_head _ _ (by decide)) (by decide) (by decide)

/-- C3: `ListDatabases` returns an empty sequence and no error when the response body is
exactly the sentinel `No vector databases are currently active`. For every body that is a
near-match of the sentinel (different letter case, added leading or trailing whitespace or
newline, surrounding quotes, one extra or one missing character anywhere, extra or missing
characters at the end) it does not take the no-results path but returns a parse error. -/
theorem ListDatabases_sentinel (c : MCPClient) (w : World Y) (body : String)
    (hr : w.httpPost (c.baseURL ++ "/mcp/tools/" ++ "list_databases") "application/json" "\x7b\x7d"
      = Except.ok ⟨200, body, none⟩) :
    (body = noDatabasesMessage → (c.ListDatabases w).2 = Except.ok []) ∧
    (NearMatch body →
      ∃ e, (c.ListDatabases w).2 = Except.error (ClientError.parseDatabaseList e)) := by
  rw [ListDatabases_of_body c w body hr]
  constructor
  · intro hb
    subst hb
    simp [jsonUnmarshal, parseJSON_noDatabasesMessage]
  · intro hnear
    obtain ⟨hne, e, he⟩ := nearMatch_rejected body hnear
    exact ⟨e, by simp [he, hne]⟩

/-- Instance of `ListDatabases_sentinel`: the exact sentinel, and the sentinel followed by
a newline. -/
theorem ListDatabases_sentinel_witness :
    ((NewMCPClient "http://localhost:8000").ListDatabases
        (World.serving ⟨200, "No vector databases are currently active", none⟩)).2
      = Except.ok [] ∧
    ∃ e, ((NewMCPClient "http://localhost:8000").ListDatabases
        (World.serving ⟨200, "No vector databases are currently active\n", none⟩)).2
      = Except.error (ClientError.parseDatabaseList e) :=
  ⟨(ListDatabases_sentinel (NewMCPClient "http://localhost:8000")
      (World.serving ⟨200, "No vector databases are currently active", none⟩)
      "No vector databases are currently active" rfl).1 rfl,
   (ListDatabases_sentinel (NewMCPClient "http://localhost:8000")
      (World.serving ⟨200, "No vector databases are currently active\n", none⟩)
      "No vector databases are currently active\n" rfl).2
      (NearMatch.padded [] ['\n'] (by simp) (by decide) (by decide))⟩

/-! ## Arrays of Database Records -/

/-- A decimal digit character is a digit and has the digit as its value. -/
theorem decimalDigit_spec : ∀ d, d < 10 →
    (decimalDigit d).isDigit = true ∧ (decimalDigit d).toNat - '0'.toNat = d ∧
      decimalDigit d ≠ '-' := by
  decide

/-- The literal consists of digits. -/
theorem natLiteralAux_all (fuel : Nat) : ∀ (n : Nat) (acc : List Char),
    acc.all Char.isDigit = true → (natLiteralAux fuel n acc).all Char.isDigit = true := by
  induction fuel with
  | zero => intro n acc h; simpa [natLiteralAux] using h
  | succ fuel ih =>
    intro n acc h
    unfold natLiteralAux
    split
    · rename_i hlt
      simp only [List.all_cons, (decimalDigit_spec n hlt).1, Bool.true_and]
      exact h
    · apply ih
      simp only [List.all_cons, (decimalDigit_spec (n % 10) (Nat.mod_lt _ (by decide))).1,
        Bool.true_and]
      exact h

/-- The value accumulated over the digits of the literal is the number. -/
theorem natLiteralAux_value (fuel : Nat) : ∀ (n : Nat) (acc : List Char), n < fuel →
    (natLiteralAux fuel n acc).foldl (fun a c => a * 10 + (c.toNat - '0'.toNat)) 0
      = acc.foldl (fun a c => a * 10 + (c.toNat - '0'.toNat)) n := by
  induction fuel with
  | zero => intro n acc h; omega
  | succ fuel ih =>
    intro n acc h
    unfold natLiteralAux
    split
    · rename_i hlt
      simp only [List.foldl_cons, (decimalDigit_spec n hlt).2.1, Nat.zero_mul, Nat.zero_add]
    · rename_i hge
      rw [ih (n / 10) _ (by omega)]
      simp only [List.foldl_cons, (decimalDigit_spec (n % 10) (Nat.mod_lt _ (by decide))).2.1]
      congr 1
      omega

/-- The literal starts with a digit that is `0` only for the number zero, and continues
with digits. -/
theorem natLiteralAux_shape (fuel : Nat) : ∀ (n : Nat) (acc : List Char), n < fuel →
    ∃ c ds, natLiteralAux fuel n acc = c :: (ds ++ acc) ∧ c.isDigit = true ∧
      ds.all Char.isDigit = true ∧ (c = '0' → n = 0 ∧ ds = []) := by
  induction fuel with
  | zero => intro n acc h; omega
  | succ fuel ih =>
    intro n acc h
    unfold natLiteralAux
    split
    · rename_i hlt
      refine ⟨decimalDigit n, [], rfl, (decimalDigit_spec n hlt).1, rfl, ?_⟩
      intro h0
      have hv := (decimalDigit_spec n hlt).2.1
      rw [h0] at hv
      exact ⟨by simpa using hv.symm, rfl⟩
    · rename_i hge
      obtain ⟨c, ds, heq, hc, hds, h0⟩ := ih (n / 10) (decimalDigit (n % 10) :: acc) (by omega)
      refine ⟨c, ds ++ [decimalDigit (n % 10)], ?_, hc, ?_, ?_⟩
      · rw [heq]; simp
      · simp only [List.all_append, hds, List.all_cons, List.all_nil, Bool.and_true,
          Bool.true_and]
        exact (decimalDigit_spec (n % 10) (Nat.mod_lt _ (by decide))).1
      · intro hz
        have := (h0 hz).1
        omega

/-- The literal of a natural number is a non-empty run of digits. -/
theorem natLiteral_shape (n : Nat) :
    ∃ c ds, natLiteral n = c :: ds ∧ c.isDigit = true ∧ ds.all Char.isDigit = true ∧
      (c = '0' → n = 0 ∧ ds = []) := by
  obtain ⟨c, ds, heq, hc, hds, h0⟩ := natLiteralAux_shape (n + 1) n [] (by omega)
  exact ⟨c, ds, by simpa [natLiteral] using heq, hc, hds, h0⟩

/-- Reading the literal of a natural number gives the number back. -/
theorem digitsValue_natLiteral (n : Nat) : digitsValue (natLiteral n) = some n := by
  obtain ⟨c, ds, heq, hc, hds, _⟩ := natLiteral_shape n
  have hv := natLiteralAux_value (n + 1) n [] (by omega)
  unfold digitsValue
  have hall : (natLiteral n).all Char.isDigit = true := by
    rw [heq]; simp [hc, hds]
  have hne : natLiteral n ≠ [] := by rw [heq]; simp
  rw [if_pos ⟨hne, hall⟩]
  simpa [natLiteral] using hv

/-- The function `strconv.ParseInt` reads the literal of an integer in the 64-bit range back. -/
theorem parseInt64_intLiteral (n : Int) (hlo : -(2 ^ 63 : Int) ≤ n) (hhi : n < 2 ^ 63) :
    parseInt64 (intLiteral n) = some n := by
  cases n with
  | ofNat k =>
    obtain ⟨c, ds, heq, hc, _, _⟩ := natLiteral_shape k
    have hk := digitsValue_natLiteral k
    have hcm : c ≠ '-' := by
      intro h
      rw [h] at hc
      exact absurd hc (by decide)
    have hlt : k < 2 ^ 63 := by
      have : (k : Int) < 2 ^ 63 := hhi
      exact_mod_cast this
    simp only [intLiteral]
    rw [heq] at hk ⊢
    simp only [parseInt64, hcm, if_false, hk, hlt, if_true]
    rfl
  | negSucc k =>
    have hk := digitsValue_natLiteral (k + 1)
    have hle : k + 1 ≤ 2 ^ 63 := by
      have : -(2 ^ 63 : Int) ≤ Int.negSucc k := hlo
      rw [Int.negSucc_eq] at this
      have h2 : ((k : Int) + 1) ≤ 2 ^ 63 := by omega
      exact_mod_cast h2
    simp only [intLiteral, parseInt64, if_true, hk, hle]
    rw [Int.negSucc_eq]
    simp


/-- Which struct field each of the four JSON names selects. -/
theorem foldEq_record_names :
    foldEq "name" "name" = true ∧
    foldEq "type" "name" = false ∧ foldEq "type" "type" = true ∧
    foldEq "collection" "name" = false ∧ foldEq "collection" "type" = false ∧
    foldEq "collection" "collection" = true ∧
    foldEq "document_count" "name" = false ∧ foldEq "document_count" "type" = false ∧
    foldEq "document_count" "collection" = false ∧
    foldEq "document_count" "document_count" = true := by
  decide

/-- Decoding the member `name` stores the string. -/
theorem decodeField_name (d : DatabaseInfo) (s : String) :
    decodeField d ("name", JSON.str s) = Except.ok { d with Name := s } := by
  simp [decodeField, storeString, foldEq_record_names]

/-- Decoding the member `type` stores the string. -/
theorem decodeField_type (d : DatabaseInfo) (s : String) :
    decodeField d ("type", JSON.str s) = Except.ok { d with Type_ := s } := by
  simp [decodeField, storeString, foldEq_record_names]

/-- Decoding the member `collection` stores the string. -/
theorem decodeField_collection (d : DatabaseInfo) (s : String) :
    decodeField d ("collection", JSON.str s) = Except.ok { d with Collection := s } := by
  simp [decodeField, storeString, foldEq_record_names]

/-- Decoding the member `document_count` stores the integer when it fits 64 bits. -/
theorem decodeField_document_count (d : DatabaseInfo) (n : Int)
    (hlo : -(2 ^ 63 : Int) ≤ n) (hhi : n < 2 ^ 63) :
    decodeField d ("document_count", JSON.num (intLiteral n))
      = Except.ok { d with DocumentCount := n } := by
  simp [decodeField, storeInt, foldEq_record_names, parseInt64_intLiteral n hlo hhi]

/-- An error is kept by the remaining steps. -/
theorem foldl_decodeStep_error (e : UnmarshalError) (ms : List (String × JSON)) :
    ms.foldl decodeStep (Except.error e) = Except.error e := by
  induction ms with
  | nil => rfl
  | cons m ms ih => simpa [List.foldl, decodeStep] using ih

/-- The function `decodeMembers` is the left fold of `decodeStep`. -/
theorem decodeMembers_eq_foldl (ms : List (String × JSON)) : ∀ db : DatabaseInfo,
    decodeMembers db ms = ms.foldl decodeStep (Except.ok db) := by
  induction ms with
  | nil => intro db; rfl
  | cons m ms ih =>
    intro db
    simp only [decodeMembers, List.foldl_cons, decodeStep]
    cases h : decodeField db m with
    | ok db1 => simpa using ih db1
    | error e => simp [foldl_decodeStep_error]

/-- Decoding two members of a record object in either order gives the same result. -/
theorem decodeStep_comm (db : DatabaseInfo) (h : db.inRange) :
    ∀ x ∈ recordMembers db, ∀ y ∈ recordMembers db, ∀ z,
      decodeStep (decodeStep z x) y = decodeStep (decodeStep z y) x := by
  intro x hx y hy z
  cases z with
  | error e => rfl
  | ok d =>
    simp only [recordMembers, List.mem_cons, List.mem_singleton, List.not_mem_nil, or_false] at hx hy
    rcases hx with hx | hx | hx | hx <;> rcases hy with hy | hy | hy | hy <;> subst hx <;> subst hy <;>
      simp [decodeStep, decodeField_name, decodeField_type, decodeField_collection,
        decodeField_document_count _ _ h.1 h.2]

/-- The members of a record object, in any order, decode to the record. -/
theorem decodeElem_of_encodes (j : JSON) (db : DatabaseInfo) (h : db.inRange)
    (henc : EncodesRecord j db) : decodeElem j = Except.ok db := by
  obtain ⟨ms, hj, hperm⟩ := henc
  subst hj
  simp only [decodeElem]
  rw [decodeMembers_eq_foldl]
  rw [List.Perm.foldl_eq' hperm ?_ (Except.ok DatabaseInfo.zero)]
  · simp [recordMembers, decodeStep, decodeField_name, decodeField_type, decodeField_collection,
      decodeField_document_count _ _ h.1 h.2, DatabaseInfo.zero]
  · intro x hx y hy z
    exact decodeStep_comm db h x (hperm.subset hx) y (hperm.subset hy) z

/-- An array of record objects decodes to the records, in order. -/
theorem decodeElems_of_encodes (js : List JSON) (dbs : List DatabaseInfo)
    (henc : List.Forall₂ EncodesRecord js dbs) (hrange : ∀ db ∈ dbs, db.inRange) :
    decodeElems js = Except.ok dbs := by
  induction henc with
  | nil => rfl
  | @cons j db js dbs hhead _ ih =>
    have h1 := decodeElem_of_encodes j db (hrange db (List.mem_cons_self _ _)) hhead
    have h2 := ih (fun d hd => hrange d (List.mem_cons_of_mem _ hd))
    simp [decodeElems, h1, h2]


/-! ## Reading the compact text back -/

/-- The two hexadecimal digits written for a control character denote its code. -/
theorem getu4_hexDigit : ∀ n, n < 32 →
    getu4 '0' '0' (hexDigit (n / 16)) (hexDigit (n % 16)) = some n := by
  decide


set_option smartUnfolding false in
/-- A quote ends the string. -/
theorem scanString_quote (rest : List Char) : scanString ('"' :: rest) = some ([], rest) := by
  rfl

set_option smartUnfolding false in
/-- An escaped quote is a quote. -/
theorem scanString_escaped_quote (tail : List Char) :
    scanString ('\\' :: '"' :: tail) = consChar '"' (scanString tail) := by
  rfl

set_option smartUnfolding false in
/-- An escaped backslash is a backslash. -/
theorem scanString_escaped_backslash (tail : List Char) :
    scanString ('\\' :: '\\' :: tail) = consChar '\\' (scanString tail) := by
  rfl

set_option smartUnfolding false in
/-- How the scan proceeds on the first character. -/
theorem scanString_char (c : Char) (tail : List Char) :
    scanString (c :: tail) =
      if c = '"' then some ([], tail)
      else if c = '\\' then scanString ('\\' :: tail)
      else if c.toNat < 0x20 then none
      else consChar c (scanString tail) := by
  rfl

set_option smartUnfolding false in
/-- A control character written as `\u00XX` is read back. -/
theorem scanString_control (n : Nat) (hn : n < 32) (tail : List Char) :
    scanString ('\\' :: 'u' :: '0' :: '0' :: hexDigit (n / 16) :: hexDigit (n % 16) :: tail)
      = consChar (Char.ofNat n) (scanString tail) := by
  interval_cases n <;> rfl


/-- Scanning an escaped character yields the character. -/
theorem scanString_escapeChar (c : Char) (tail : List Char) :
    scanString (escapeChar c ++ tail) = consChar c (scanString tail) := by
  unfold escapeChar
  by_cases h1 : c = '"'
  · subst h1
    exact scanString_escaped_quote tail
  · by_cases h2 : c = '\\'
    · subst h2
      exact scanString_escaped_backslash tail
    · by_cases h3 : c.toNat < 0x20
      · simp only [h1, h2, h3, if_false, if_true, List.cons_append, List.nil_append]
        rw [scanString_control c.toNat (by simpa using h3) tail, Char.ofNat_toNat]
      · simp only [h1, h2, h3, if_false, List.cons_append, List.nil_append]
        rw [scanString_char]
        simp only [h1, h2, h3, if_false]

/-- Scanning the escaped text of `cs` up to the closing quote yields `cs`. -/
theorem scanString_escapeChars (cs : List Char) (rest : List Char) :
    scanString (escapeChars cs ++ '"' :: rest) = some (cs, rest) := by
  induction cs with
  | nil => exact scanString_quote rest
  | cons c cs ih =>
    simp only [escapeChars, List.append_assoc]
    rw [scanString_escapeChar, ih]
    rfl

/-- Digits are skipped up to the first character that is not a digit. -/
theorem spanDigits_append (ds : List Char) (c : Char) (rest : List Char)
    (hds : ds.all Char.isDigit = true) (hc : c.isDigit = false) :
    spanDigits (ds ++ c :: rest) = (ds, c :: rest) := by
  induction ds with
  | nil => simp [spanDigits, hc]
  | cons d ds ih =>
    simp only [List.all_cons, Bool.and_eq_true] at hds
    simp [spanDigits, hds.1, ih hds.2]

/-- The literal of a natural number followed by a closing brace is scanned as a number. -/
theorem scanNumber_natLiteral (n : Nat) (rest : List Char) :
    scanIntPart (natLiteral n ++ '\x7d' :: rest) = some (natLiteral n, '\x7d' :: rest) := by
  obtain ⟨c, ds, heq, hc, hds, h0⟩ := natLiteral_shape n
  rw [heq]
  by_cases hz : c = '0'
  · obtain ⟨_, hnil⟩ := h0 hz
    subst hz
    subst hnil
    simp [scanIntPart]
  · simp [scanIntPart, hz, hc, spanDigits_append ds '\x7d' rest hds (by decide)]

/-- The literal of an integer followed by a closing brace is scanned as a number. -/
theorem scanNumber_intLiteral (n : Int) (rest : List Char) :
    scanNumber (intLiteral n ++ '\x7d' :: rest) = some (intLiteral n, '\x7d' :: rest) := by
  cases n with
  | ofNat k =>
    obtain ⟨c, ds, heq, hc, _, _⟩ := natLiteral_shape k
    have hcm : c ≠ '-' := by
      intro h
      rw [h] at hc
      exact absurd hc (by decide)
    have hint := scanNumber_natLiteral k rest
    simp only [intLiteral]
    rw [heq] at hint ⊢
    rw [List.cons_append] at hint
    simp only [scanNumber, List.cons_append, hcm, if_false, hint]
    simp [scanFrac, scanExp]
  | negSucc k =>
    have hint := scanNumber_natLiteral (k + 1) rest
    simp [intLiteral, scanNumber, hint, scanFrac, scanExp]


/-- A string literal is read as a string value. -/
theorem parseValue_encodeString (fuel depth : Nat) (s : String) (rest : List Char) :
    parseValue (fuel + 1) depth (encodeString s ++ rest) = some (JSON.str s, rest) := by
  have hscan := scanString_escapeChars s.data rest
  rw [parseValue]
  simp [encodeString, skipSpace, isSpace, hscan]

/-- A digit is none of the characters that start another kind of value. -/
theorem isDigit_ne (c : Char) (hc : c.isDigit = true) :
    isSpace c = false ∧ c ≠ '[' ∧ c ≠ '\x7b' ∧ c ≠ '"' ∧ c ≠ 'n' ∧ c ≠ 't' ∧ c ≠ 'f' := by
  refine ⟨?_, ?_, ?_, ?_, ?_, ?_, ?_⟩
  · unfold isSpace
    have h1 : c ≠ ' ' := by intro h; rw [h] at hc; exact absurd hc (by decide)
    have h2 : c ≠ '\t' := by intro h; rw [h] at hc; exact absurd hc (by decide)
    have h3 : c ≠ '\r' := by intro h; rw [h] at hc; exact absurd hc (by decide)
    have h4 : c ≠ '\n' := by intro h; rw [h] at hc; exact absurd hc (by decide)
    simp [h1, h2, h3, h4]
  all_goals (intro h; rw [h] at hc; exact absurd hc (by decide))

/-- An integer literal followed by a closing brace is read as a number value. -/
theorem parseValue_intLiteral (fuel depth : Nat) (n : Int) (rest : List Char) :
    parseValue (fuel + 1) depth (intLiteral n ++ '\x7d' :: rest)
      = some (JSON.num (intLiteral n), '\x7d' :: rest) := by
  have hscan := scanNumber_intLiteral n rest
  cases n with
  | ofNat k =>
    obtain ⟨c, ds, heq, hc, _, _⟩ := natLiteral_shape k
    obtain ⟨h0, h1, h2, h3, h4, h5, h6⟩ := isDigit_ne c hc
    simp only [intLiteral] at hscan ⊢
    rw [heq] at hscan ⊢
    rw [List.cons_append] at hscan
    rw [parseValue]
    simp only [List.cons_append, skipSpace, h0, h1, h2, h3, h4, h5, h6, hc, if_false,
      Bool.false_eq_true, or_true, if_true, List.append_eq, hscan]
  | negSucc k =>
    simp only [intLiteral] at hscan ⊢
    rw [List.cons_append] at hscan
    rw [parseValue]
    simp [skipSpace, isSpace, hscan]

/-- A member with a string value followed by a comma. -/
theorem parseMembers_string (fuel depth : Nat) (k v : String) (more : List Char) :
    parseMembers (fuel + 2) depth (encodeString k ++ ':' :: (encodeString v ++ ',' :: more))
      = match parseMembers (fuel + 1) depth more with
        | some (ms, r) => some ((k, JSON.str v) :: ms, r)
        | none => none := by
  have hkey := scanString_escapeChars k.data (':' :: (encodeString v ++ ',' :: more))
  have hval := parseValue_encodeString fuel depth v (',' :: more)
  rw [parseMembers]
  simp only [encodeString, List.cons_append, List.append_assoc, List.nil_append,
    List.singleton_append] at hkey hval ⊢
  simp [skipSpace, isSpace, hkey, hval]

/-- The last member, with an integer value, followed by the closing brace. -/
theorem parseMembers_int (fuel depth : Nat) (k : String) (n : Int) (rest : List Char) :
    parseMembers (fuel + 2) depth (encodeString k ++ ':' :: (intLiteral n ++ '\x7d' :: rest))
      = some ([(k, JSON.num (intLiteral n))], rest) := by
  have hkey := scanString_escapeChars k.data (':' :: (intLiteral n ++ '\x7d' :: rest))
  have hval := parseValue_intLiteral fuel depth n rest
  rw [parseMembers]
  simp only [encodeString, List.cons_append, List.append_assoc, List.nil_append,
    List.singleton_append] at hkey hval ⊢
  simp [skipSpace, isSpace, hkey, hval]


/-- The compact object of a record is read as the record object. -/
theorem parseValue_encodeRecord (fuel depth : Nat) (hd : depth < maxNestingDepth)
    (db : DatabaseInfo) (rest : List Char) :
    parseValue (fuel + 6) depth (encodeRecord db ++ rest)
      = some (JSON.obj (recordMembers db), rest) := by
  have hd2 : ¬ maxNestingDepth ≤ depth := Nat.not_le.mpr hd
  have h4 := parseMembers_int fuel (depth + 1) "document_count" db.DocumentCount rest
  have h3 := parseMembers_string (fuel + 1) (depth + 1) "collection" db.Collection
    (encodeString "document_count" ++ ':' :: (intLiteral db.DocumentCount ++ '\x7d' :: rest))
  have h2 := parseMembers_string (fuel + 2) (depth + 1) "type" db.Type_
    (encodeString "collection" ++ ':' :: (encodeString db.Collection ++ ',' ::
      (encodeString "document_count" ++ ':' :: (intLiteral db.DocumentCount ++ '\x7d' :: rest))))
  have h1 := parseMembers_string (fuel + 3) (depth + 1) "name" db.Name
    (encodeString "type" ++ ':' :: (encodeString db.Type_ ++ ',' ::
      (encodeString "collection" ++ ':' :: (encodeString db.Collection ++ ',' ::
      (encodeString "document_count" ++ ':' :: (intLiteral db.DocumentCount ++ '\x7d' :: rest))))))
  rw [h4] at h3
  rw [h3] at h2
  rw [h2] at h1
  simp only at h1
  have hopen : ∀ tail, encodeRecord db ++ rest = tail → skipSpace tail = tail := by
    intro tail ht
    rw [← ht]
    exact skipSpace_head '\x7b' _ (by decide)
  have hfirst : skipSpace (encodeString "name" ++ ':' :: (encodeString db.Name ++ ',' ::
      (encodeString "type" ++ ':' :: (encodeString db.Type_ ++ ',' ::
      (encodeString "collection" ++ ':' :: (encodeString db.Collection ++ ',' ::
      (encodeString "document_count" ++ ':' ::
        (intLiteral db.DocumentCount ++ '\x7d' :: rest))))))))
      = '"' :: (escapeChars "name".data ++ '"' :: ':' :: (encodeString db.Name ++ ',' ::
      (encodeString "type" ++ ':' :: (encodeString db.Type_ ++ ',' ::
      (encodeString "collection" ++ ':' :: (encodeString db.Collection ++ ',' ::
      (encodeString "document_count" ++ ':' ::
        (intLiteral db.DocumentCount ++ '\x7d' :: rest)))))))) := by
    simp only [encodeString, List.cons_append, List.append_assoc, List.nil_append,
      List.singleton_append]
    exact skipSpace_head '"' _ (by decide)
  have h1b : parseMembers (fuel + 5) (depth + 1) _ = _ := h1
  rw [parseValue, hopen _ rfl]
  simp only [encodeRecord, List.cons_append, List.append_assoc, List.nil_append,
    List.singleton_append, hfirst, h1b, hd2]
  simp [recordMembers]

/-- The compact object of a record is at least five characters long. -/
theorem length_encodeRecord (db : DatabaseInfo) : 5 ≤ (encodeRecord db).length := by
  simp only [encodeRecord, encodeString, List.length_cons, List.length_append]
  omega

/-- The comma-separated records are at least five characters per record long. -/
theorem length_encodeRecords (dbs : List DatabaseInfo) :
    5 * dbs.length ≤ (encodeRecords dbs).length := by
  induction dbs with
  | nil => simp
  | cons db dbs ih =>
    cases dbs with
    | nil =>
      have := length_encodeRecord db
      simpa [encodeRecords] using this
    | cons db1 dbs =>
      have := length_encodeRecord db
      simp only [encodeRecords, List.length_append, List.length_cons] at ih ⊢
      omega

/-- The comma-separated records up to the closing bracket are read as the record objects. -/
theorem parseElems_encodeRecords (depth : Nat) (hd : depth < maxNestingDepth)
    (dbs : List DatabaseInfo) (hne : dbs ≠ []) (rest : List Char) :
    ∀ fuel, dbs.length + 6 ≤ fuel →
      parseElems fuel depth (encodeRecords dbs ++ ']' :: rest)
        = some (dbs.map (fun db => JSON.obj (recordMembers db)), rest) := by
  induction dbs with
  | nil => exact absurd rfl hne
  | cons db dbs ih =>
    intro fuel hf
    obtain ⟨f, rfl⟩ : ∃ f, fuel = f + 7 := ⟨fuel - 7, by simp at hf; omega⟩
    cases dbs with
    | nil =>
      have hv := parseValue_encodeRecord f depth hd db (']' :: rest)
      rw [parseElems]
      simp [encodeRecords, hv, skipSpace, isSpace]
    | cons db1 dbs =>
      have hv := parseValue_encodeRecord f depth hd db
        (',' :: (encodeRecords (db1 :: dbs) ++ ']' :: rest))
      have hrest := ih (by simp) (f + 6) (by simp at hf ⊢; omega)
      rw [parseElems]
      simp only [encodeRecords, List.append_assoc, List.cons_append] at hv hrest ⊢
      simp [hv, hrest, skipSpace, isSpace]

/-- The compact text of a list of records is JSON for the array of the record objects. -/
theorem parseJSON_encodeDatabases (dbs : List DatabaseInfo) :
    parseJSON (encodeDatabases dbs).data
      = some (JSON.arr (dbs.map (fun db => JSON.obj (recordMembers db)))) := by
  cases dbs with
  | nil => rfl
  | cons db dbs =>
    have hlen := length_encodeRecords (db :: dbs)
    have helems := parseElems_encodeRecords 1 (by decide) (db :: dbs) (by simp) []
      (('[' :: (encodeRecords (db :: dbs) ++ [']'])).length)
      (by simp only [List.length_cons, List.length_append, List.length_nil] at hlen ⊢; omega)
    have hhead : ∃ tail, encodeRecords (db :: dbs) ++ [']'] = '\x7b' :: tail := by
      cases dbs with
      | nil => exact ⟨_, rfl⟩
      | cons db1 dbs => exact ⟨_, rfl⟩
    obtain ⟨tail, htail⟩ := hhead
    unfold parseJSON encodeDatabases
    rw [parseValue]
    rw [skipSpace_head '[' _ (by decide)]
    simp only [if_true]
    rw [if_neg (by decide)]
    rw [htail] at helems ⊢
    rw [skipSpace_head '\x7b' _ (by decide)]
    simp only [show ¬ ('\x7b' = ']') by decide, if_false, helems]
    simp [skipSpace]

/-- Every record is encoded by its own record object. -/
theorem forall₂_encodesRecord (dbs : List DatabaseInfo) :
    List.Forall₂ EncodesRecord (dbs.map (fun db => JSON.obj (recordMembers db))) dbs := by
  induction dbs with
  | nil => exact List.Forall₂.nil
  | cons db dbs ih => exact List.Forall₂.cons ⟨_, rfl, List.Perm.refl _⟩ ih

/-! ## The fuel of the JSON reader -/

set_option smartUnfolding false in
/-- How the scan proceeds after a backslash. -/
theorem scanString_backslash (rest : List Char) :
    scanString ('\\' :: rest) =
      match rest with
      | [] => none
      | e :: rest1 =>
        if e = 'u' then
          match rest1 with
          | a :: b :: c2 :: d :: rest2 =>
            match getu4 a b c2 d with
            | none => none
            | some rr =>
              if isSurrogate rr then
                match rest2 with
                | bs :: u :: e1 :: e2 :: e3 :: e4 :: rest3 =>
                  match pairAhead rr bs u e1 e2 e3 e4 with
                  | some r => consChar r (scanString rest3)
                  | none => consChar replacementChar (scanString rest2)
                | _ => consChar replacementChar (scanString rest2)
              else consChar (Char.ofNat rr) (scanString rest2)
          | _ => none
        else
          match unescape e with
          | some ch => consChar ch (scanString rest1)
          | none => none := by
  rcases rest with _ | ⟨e, _ | ⟨a, _ | ⟨b, _ | ⟨c2, _ | ⟨d, rest2⟩⟩⟩⟩⟩
  · rfl
  · rfl
  · rfl
  · rfl
  · rfl
  · rcases rest2 with _ | ⟨x1, _ | ⟨x2, _ | ⟨x3, _ | ⟨x4, _ | ⟨x5, _ | ⟨x6, rest3⟩⟩⟩⟩⟩⟩ <;> rfl


/-- What remains after skipping whitespace is not longer than the input. -/
theorem skipSpace_length (cs : List Char) : (skipSpace cs).length ≤ cs.length := by
  induction cs with
  | nil => simp [skipSpace]
  | cons c cs ih =>
    unfold skipSpace
    split
    · simp only [List.length_cons]; omega
    · exact Nat.le_refl _

/-- A result with a prepended character comes from a result for the rest. -/
theorem consChar_some (x : Char) (o : Option (List Char × List Char)) (s r : List Char)
    (h : consChar x o = some (s, r)) : ∃ s1, o = some (s1, r) := by
  cases o with
  | none => simp [consChar] at h
  | some p =>
    obtain ⟨s1, r1⟩ := p
    simp only [consChar, Option.some.injEq, Prod.mk.injEq] at h
    exact ⟨s1, by rw [h.2]⟩

set_option smartUnfolding false in
/-- An unterminated string is rejected. -/
theorem scanString_nil : scanString [] = none := by
  rfl

/-- Scanning a string consumes at least the closing quote. -/
theorem scanString_length (n : Nat) : ∀ (cs s r : List Char), cs.length ≤ n →
    scanString cs = some (s, r) → r.length < cs.length := by
  induction n with
  | zero =>
    intro cs s r hn h
    have : cs = [] := List.length_eq_zero.mp (Nat.le_zero.mp hn)
    subst this
    rw [scanString_nil] at h
    exact Option.noConfusion h
  | succ n ih =>
    intro cs s r hn h
    cases cs with
    | nil =>
      rw [scanString_nil] at h
      exact Option.noConfusion h
    | cons c rest =>
      simp only [List.length_cons] at hn ⊢
      have hstep : ∀ (x : Char) (tail : List Char), tail.length ≤ rest.length →
          consChar x (scanString tail) = some (s, r) → r.length < rest.length + 1 := by
        intro x tail htail hx
        obtain ⟨s1, h1⟩ := consChar_some x _ s r hx
        have := ih tail s1 r (by omega) h1
        omega
      by_cases h2 : c = '\\'
      · subst h2
        rw [scanString_backslash] at h
        repeat' split at h
        all_goals first
          | exact Option.noConfusion h
          | (apply hstep _ _ _ h; simp only [List.length_cons]; omega)
      · rw [scanString_char] at h
        by_cases h1 : c = '"'
        · simp only [h1, if_true, Option.some.injEq, Prod.mk.injEq] at h
          rw [← h.2]; omega
        · by_cases h3 : c.toNat < 0x20
          · simp only [h1, h2, h3, if_true, if_false] at h
            exact Option.noConfusion h
          · simp only [h1, h2, h3, if_false] at h
            exact hstep c rest (Nat.le_refl _) h


/-- What remains after the leading digits is not longer than the input. -/
theorem spanDigits_length (cs : List Char) : (spanDigits cs).2.length ≤ cs.length := by
  induction cs with
  | nil => simp [spanDigits]
  | cons c cs ih =>
    unfold spanDigits
    split
    · simp only [List.length_cons]; omega
    · exact Nat.le_refl _

/-- The integer part of a number is at least one character long. -/
theorem scanIntPart_length (cs ip r : List Char) (h : scanIntPart cs = some (ip, r)) :
    r.length < cs.length := by
  unfold scanIntPart at h
  cases cs with
  | nil => exact Option.noConfusion h
  | cons c rest =>
    have hsp := spanDigits_length rest
    simp only at h
    repeat' split at h
    all_goals first
      | exact Option.noConfusion h
      | (simp only [Option.some.injEq, Prod.mk.injEq] at h
         rw [← h.2]; simp only [List.length_cons]; omega)

/-- The fraction part of a number does not lengthen the input. -/
theorem scanFrac_length (cs fp r : List Char) (h : scanFrac cs = some (fp, r)) :
    r.length ≤ cs.length := by
  unfold scanFrac at h
  cases cs with
  | nil =>
    simp only [Option.some.injEq, Prod.mk.injEq] at h
    rw [← h.2]
  | cons c rest =>
    have hsp := spanDigits_length rest
    simp only at h
    split at h
    · split at h
      · exact Option.noConfusion h
      · rename_i ds rest1 _ heq
        simp only [Option.some.injEq, Prod.mk.injEq] at h
        rw [heq] at hsp
        rw [← h.2]; simp only [List.length_cons]
        simp only at hsp
        omega
    · simp only [Option.some.injEq, Prod.mk.injEq] at h
      rw [← h.2]

/-- The exponent part of a number does not lengthen the input. -/
theorem scanExp_length (cs ep r : List Char) (h : scanExp cs = some (ep, r)) :
    r.length ≤ cs.length := by
  unfold scanExp at h
  cases cs with
  | nil =>
    simp only [Option.some.injEq, Prod.mk.injEq] at h
    rw [← h.2]
  | cons c rest =>
    simp only at h
    split at h
    · cases rest with
      | nil => exact Option.noConfusion h
      | cons s rest1 =>
        have hsp1 := spanDigits_length rest1
        have hsp := spanDigits_length (s :: rest1)
        simp only at h
        split at h
        · split at h
          · exact Option.noConfusion h
          · rename_i ds rest2 _ heq
            simp only [Option.some.injEq, Prod.mk.injEq] at h
            rw [heq] at hsp1
            rw [← h.2]; simp only [List.length_cons]
            simp only at hsp1
            omega
        · split at h
          · exact Option.noConfusion h
          · rename_i ds rest2 _ heq
            simp only [Option.some.injEq, Prod.mk.injEq] at h
            rw [heq] at hsp
            rw [← h.2]; simp only [List.length_cons] at hsp ⊢
            omega
    · simp only [Option.some.injEq, Prod.mk.injEq] at h
      rw [← h.2]

/-- A number literal is at least one character long. -/
theorem scanNumber_length (cs lit r : List Char) (h : scanNumber cs = some (lit, r)) :
    r.length < cs.length := by
  unfold scanNumber at h
  simp only at h
  split at h
  · exact Option.noConfusion h
  · rename_i ip r1 hint
    split at h
    · exact Option.noConfusion h
    · rename_i fp r2 hfrac
      split at h
      · exact Option.noConfusion h
      · rename_i ep r3 hexp
        simp only [Option.some.injEq, Prod.mk.injEq] at h
        have h1 := scanIntPart_length _ _ _ hint
        have h2 := scanFrac_length _ _ _ hfrac
        have h3 := scanExp_length _ _ _ hexp
        rw [← h.2]
        have hsign : (match cs with
            | c :: rest => if c = '-' then ([c], rest) else ([], cs)
            | [] => ([], [])).2.length ≤ cs.length := by
          cases cs with
          | nil => simp
          | cons c rest =>
            simp only
            split
            · simp only [List.length_cons]; omega
            · exact Nat.le_refl _
        omega

/-- Dropping expected characters does not lengthen the input. -/
theorem dropLit_length (l : List Char) : ∀ (cs r : List Char), dropLit l cs = some r →
    r.length ≤ cs.length := by
  induction l with
  | nil =>
    intro cs r h
    simp only [dropLit, Option.some.injEq] at h
    rw [h]
  | cons x xs ih =>
    intro cs r h
    cases cs with
    | nil => simp [dropLit] at h
    | cons c cs =>
      simp only [dropLit] at h
      split at h
      · have := ih cs r h
        simp only [List.length_cons]; omega
      · exact Option.noConfusion h


/-- A string, literal or number value consumes at least its first character. -/
theorem parseScalar_length (c : Char) (rest0 : List Char) (v : JSON) (rest : List Char)
    (h : (if c = '"' then
        match scanString rest0 with
        | some (s, r) => some (JSON.str (String.mk s), r)
        | none => none
      else if c = 'n' then
        match dropLit ['u', 'l', 'l'] rest0 with
        | some r => some (JSON.null, r)
        | none => none
      else if c = 't' then
        match dropLit ['r', 'u', 'e'] rest0 with
        | some r => some (JSON.bool true, r)
        | none => none
      else if c = 'f' then
        match dropLit ['a', 'l', 's', 'e'] rest0 with
        | some r => some (JSON.bool false, r)
        | none => none
      else if c = '-' ∨ c.isDigit then
        match scanNumber (c :: rest0) with
        | some (lit, r) => some (JSON.num lit, r)
        | none => none
      else none) = some (v, rest)) :
    rest.length ≤ rest0.length := by
  split at h
  · split at h
    · rename_i s r hscan
      simp only [Option.some.injEq, Prod.mk.injEq] at h
      have := scanString_length rest0.length rest0 s r (Nat.le_refl _) hscan
      rw [← h.2]; omega
    · exact Option.noConfusion h
  · split at h
    · split at h
      · rename_i r hdrop
        simp only [Option.some.injEq, Prod.mk.injEq] at h
        have := dropLit_length _ _ _ hdrop
        rw [← h.2]; omega
      · exact Option.noConfusion h
    · split at h
      · split at h
        · rename_i r hdrop
          simp only [Option.some.injEq, Prod.mk.injEq] at h
          have := dropLit_length _ _ _ hdrop
          rw [← h.2]; omega
        · exact Option.noConfusion h
      · split at h
        · split at h
          · rename_i r hdrop
            simp only [Option.some.injEq, Prod.mk.injEq] at h
            have := dropLit_length _ _ _ hdrop
            rw [← h.2]; omega
          · exact Option.noConfusion h
        · split at h
          · split at h
            · rename_i lit r hnum
              simp only [Option.some.injEq, Prod.mk.injEq] at h
              have := scanNumber_length _ _ _ hnum
              simp only [List.length_cons] at this
              rw [← h.2]; omega
            · exact Option.noConfusion h
          · exact Option.noConfusion h

/-- Fuel is spent no faster than characters are consumed: a result obtained with some
amount of fuel consumes at least one character and is obtained with every amount of fuel
that is at least the number of characters consumed. -/
theorem parse_fuel (fuel : Nat) :
    (∀ depth cs v rest, parseValue fuel depth cs = some (v, rest) →
      rest.length < cs.length ∧
      ∀ g, cs.length - rest.length ≤ g → parseValue g depth cs = some (v, rest)) ∧
    (∀ depth cs vs rest, parseElems fuel depth cs = some (vs, rest) →
      rest.length < cs.length ∧
      ∀ g, cs.length - rest.length ≤ g → parseElems g depth cs = some (vs, rest)) ∧
    (∀ depth cs ms rest, parseMembers fuel depth cs = some (ms, rest) →
      rest.length < cs.length ∧
      ∀ g, cs.length - rest.length ≤ g → parseMembers g depth cs = some (ms, rest)) := by
  induction fuel with
  | zero =>
    refine ⟨?_, ?_, ?_⟩
    · intro depth cs v rest h; rw [parseValue] at h; exact Option.noConfusion h
    · intro depth cs v rest h; rw [parseElems] at h; exact Option.noConfusion h
    · intro depth cs v rest h; rw [parseMembers] at h; exact Option.noConfusion h
  | succ fuel ih =>
    obtain ⟨ihv, ihe, ihm⟩ := ih
    refine ⟨?_, ?_, ?_⟩
    · intro depth cs v rest h
      rw [parseValue] at h
      have hsk := skipSpace_length cs
      cases hs : skipSpace cs with
      | nil => rw [hs] at h; exact Option.noConfusion h
      | cons c rest0 =>
        rw [hs] at h hsk
        simp only [List.length_cons] at hsk
        simp only at h
        by_cases hb : c = '['
        · subst hb
          simp only [if_true] at h
          by_cases hd : maxNestingDepth ≤ depth
          · simp only [hd, if_true] at h
            exact Option.noConfusion h
          · simp only [hd, if_false] at h
            have hsk1 := skipSpace_length rest0
            cases hs1 : skipSpace rest0 with
            | nil => rw [hs1] at h; exact Option.noConfusion h
            | cons c1 rest1 =>
              rw [hs1] at h hsk1
              simp only [List.length_cons] at hsk1
              simp only at h
              by_cases hc1 : c1 = ']'
              · simp only [hc1, if_true, Option.some.injEq, Prod.mk.injEq] at h
                obtain ⟨hv, hr⟩ := h
                subst hv; subst hr
                refine ⟨by omega, ?_⟩
                intro g hg
                obtain ⟨g1, rfl⟩ : ∃ g1, g = g1 + 1 := ⟨g - 1, by omega⟩
                rw [parseValue]
                simp only [hs, hs1, hd, hc1, if_true, if_false]
              · simp only [hc1, if_false] at h
                cases he : parseElems fuel (depth + 1) rest0 with
                | none => rw [he] at h; exact Option.noConfusion h
                | some p =>
                  obtain ⟨xs, r⟩ := p
                  rw [he] at h
                  simp only [Option.some.injEq, Prod.mk.injEq] at h
                  obtain ⟨hv, hr⟩ := h
                  subst hv; subst hr
                  obtain ⟨hlt, hadeq⟩ := ihe (depth + 1) rest0 xs r he
                  refine ⟨by omega, ?_⟩
                  intro g hg
                  obtain ⟨g1, rfl⟩ : ∃ g1, g = g1 + 1 := ⟨g - 1, by omega⟩
                  rw [parseValue]
                  simp only [hs, hs1, hd, hc1, if_true, if_false, hadeq g1 (by omega)]
        · by_cases hbr : c = '\x7b'
          · subst hbr
            simp only [hb, if_true, if_false] at h
            by_cases hd : maxNestingDepth ≤ depth
            · simp only [hd, if_true] at h
              exact Option.noConfusion h
            · simp only [hd, if_false] at h
              have hsk1 := skipSpace_length rest0
              cases hs1 : skipSpace rest0 with
              | nil => rw [hs1] at h; exact Option.noConfusion h
              | cons c1 rest1 =>
                rw [hs1] at h hsk1
                simp only [List.length_cons] at hsk1
                simp only at h
                by_cases hc1 : c1 = '\x7d'
                · simp only [hc1, if_true, Option.some.injEq, Prod.mk.injEq] at h
                  obtain ⟨hv, hr⟩ := h
                  subst hv; subst hr
                  refine ⟨by omega, ?_⟩
                  intro g hg
                  obtain ⟨g1, rfl⟩ : ∃ g1, g = g1 + 1 := ⟨g - 1, by omega⟩
                  rw [parseValue]
                  simp only [hs, hs1, hd, hb, hc1, if_true, if_false]
                · simp only [hc1, if_false] at h
                  cases he : parseMembers fuel (depth + 1) rest0 with
                  | none => rw [he] at h; exact Option.noConfusion h
                  | some p =>
                    obtain ⟨xs, r⟩ := p
                    rw [he] at h
                    simp only [Option.some.injEq, Prod.mk.injEq] at h
                    obtain ⟨hv, hr⟩ := h
                    subst hv; subst hr
                    obtain ⟨hlt, hadeq⟩ := ihm (depth + 1) rest0 xs r he
                    refine ⟨by omega, ?_⟩
                    intro g hg
                    obtain ⟨g1, rfl⟩ : ∃ g1, g = g1 + 1 := ⟨g - 1, by omega⟩
                    rw [parseValue]
                    simp only [hs, hs1, hd, hb, hc1, if_true, if_false, hadeq g1 (by omega)]
          · simp only [hb, hbr, if_false] at h
            have hlen := parseScalar_length c rest0 v rest h
            refine ⟨by omega, ?_⟩
            intro g hg
            obtain ⟨g1, rfl⟩ : ∃ g1, g = g1 + 1 := ⟨g - 1, by omega⟩
            rw [parseValue]
            simp only [hs, hb, hbr, if_false]
            exact h
    · intro depth cs vs rest h
      rw [parseElems] at h
      cases hv : parseValue fuel depth cs with
      | none => rw [hv] at h; exact Option.noConfusion h
      | some p =>
        obtain ⟨v, r0⟩ := p
        obtain ⟨hlt0, had0⟩ := ihv depth cs v r0 hv
        rw [hv] at h
        simp only at h
        have hsk := skipSpace_length r0
        cases hs : skipSpace r0 with
        | nil => rw [hs] at h; exact Option.noConfusion h
        | cons c rest1 =>
          rw [hs] at h hsk
          simp only [List.length_cons] at hsk
          simp only at h
          by_cases hc : c = ','
          · simp only [hc, if_true] at h
            cases he : parseElems fuel depth rest1 with
            | none => rw [he] at h; exact Option.noConfusion h
            | some p1 =>
              obtain ⟨vs1, r⟩ := p1
              rw [he] at h
              simp only [Option.some.injEq, Prod.mk.injEq] at h
              obtain ⟨hvs, hr⟩ := h
              subst hvs; subst hr
              obtain ⟨hlt1, had1⟩ := ihe depth rest1 vs1 r he
              refine ⟨by omega, ?_⟩
              intro g hg
              obtain ⟨g1, rfl⟩ : ∃ g1, g = g1 + 1 := ⟨g - 1, by omega⟩
              rw [parseElems]
              simp only [had0 g1 (by omega), hs, hc, if_true, had1 g1 (by omega)]
          · simp only [hc, if_false] at h
            by_cases hc2 : c = ']'
            · subst hc2
              simp only [if_true, Option.some.injEq, Prod.mk.injEq] at h
              obtain ⟨hvs, hr⟩ := h
              subst hvs; subst hr
              refine ⟨by omega, ?_⟩
              intro g hg
              obtain ⟨g1, rfl⟩ : ∃ g1, g = g1 + 1 := ⟨g - 1, by omega⟩
              rw [parseElems]
              simp only [had0 g1 (by omega), hs, hc, if_true, if_false]
            · simp only [hc2, if_false] at h
              exact Option.noConfusion h
    · intro depth cs ms rest h
      rw [parseMembers] at h
      have hsk := skipSpace_length cs
      cases hs : skipSpace cs with
      | nil => rw [hs] at h; exact Option.noConfusion h
      | cons q rest0 =>
        rw [hs] at h hsk
        simp only [List.length_cons] at hsk
        simp only at h
        by_cases hq : q = '"'
        · simp only [hq, if_true] at h
          cases hk : scanString rest0 with
          | none => rw [hk] at h; exact Option.noConfusion h
          | some pk =>
            obtain ⟨k, rest1⟩ := pk
            have hklen := scanString_length rest0.length rest0 k rest1 (Nat.le_refl _) hk
            rw [hk] at h
            simp only at h
            have hsk1 := skipSpace_length rest1
            cases hs1 : skipSpace rest1 with
            | nil => rw [hs1] at h; exact Option.noConfusion h
            | cons col rest2 =>
              rw [hs1] at h hsk1
              simp only [List.length_cons] at hsk1
              simp only at h
              by_cases hcol : col = ':'
              · simp only [hcol, if_true] at h
                cases hv : parseValue fuel depth rest2 with
                | none => rw [hv] at h; exact Option.noConfusion h
                | some pv =>
                  obtain ⟨v, rest3⟩ := pv
                  obtain ⟨hlt0, had0⟩ := ihv depth rest2 v rest3 hv
                  rw [hv] at h
                  simp only at h
                  have hsk3 := skipSpace_length rest3
                  cases hs3 : skipSpace rest3 with
                  | nil => rw [hs3] at h; exact Option.noConfusion h
                  | cons c rest4 =>
                    rw [hs3] at h hsk3
                    simp only [List.length_cons] at hsk3
                    simp only at h
                    by_cases hc : c = ','
                    · simp only [hc, if_true] at h
                      cases hm : parseMembers fuel depth rest4 with
                      | none => rw [hm] at h; exact Option.noConfusion h
                      | some pm =>
                        obtain ⟨ms1, r⟩ := pm
                        rw [hm] at h
                        simp only [Option.some.injEq, Prod.mk.injEq] at h
                        obtain ⟨hms, hr⟩ := h
                        subst hms; subst hr
                        obtain ⟨hlt1, had1⟩ := ihm depth rest4 ms1 r hm
                        refine ⟨by omega, ?_⟩
                        intro g hg
                        obtain ⟨g1, rfl⟩ : ∃ g1, g = g1 + 1 := ⟨g - 1, by omega⟩
                        rw [parseMembers]
                        simp only [hs, hq, if_true, hk, hs1, hcol, had0 g1 (by omega), hs3, hc,
                          had1 g1 (by omega)]
                    · simp only [hc, if_false] at h
                      by_cases hc2 : c = '\x7d'
                      · subst hc2
                        simp only [if_true, Option.some.injEq, Prod.mk.injEq] at h
                        obtain ⟨hms, hr⟩ := h
                        subst hms; subst hr
                        refine ⟨by omega, ?_⟩
                        intro g hg
                        obtain ⟨g1, rfl⟩ : ∃ g1, g = g1 + 1 := ⟨g - 1, by omega⟩
                        rw [parseMembers]
                        simp only [hs, hq, if_true, hk, hs1, hcol, had0 g1 (by omega), hs3, hc,
                          if_false]
                      · simp only [hc2, if_false] at h
                        exact Option.noConfusion h
              · simp only [hcol, if_false] at h
                exact Option.noConfusion h
        · simp only [hq, if_false] at h
          exact Option.noConfusion h

/-- The fuel `parseJSON` provides is never the reason for a rejection: whenever some amount
of fuel reads a value from the whole text, `parseJSON` reads that value. -/
theorem parseJSON_of_fuel (fuel : Nat) (cs : List Char) (v : JSON) (rest : List Char)
    (h : parseValue fuel 0 cs = some (v, rest)) (hrest : skipSpace rest = []) :
    parseJSON cs = some v := by
  obtain ⟨_, hadeq⟩ := (parse_fuel fuel).1 0 cs v rest h
  unfold parseJSON
  rw [hadeq (cs.length + 1) (by omega)]
  simp [hrest]



/-! ## Reading the text of an array of records -/

/-- Whitespace characters are the ones the reader skips. -/
theorem isSpace_of_blank (ws : List Char) (h : IsBlank ws) : ∀ c ∈ ws, isSpace c = true := by
  intro c hc
  rcases h c hc with h | h | h | h <;> subst h <;> decide

/-- Nothing remains of a text that is only whitespace. -/
theorem skipSpace_blank (ws : List Char) (h : IsBlank ws) : skipSpace ws = [] := by
  induction ws with
  | nil => rfl
  | cons c ws ih =>
    have hc := isSpace_of_blank _ h c (List.mem_cons_self _ _)
    simp only [skipSpace, hc, if_true]
    exact ih (fun x hx => h x (List.mem_cons_of_mem _ hx))

/-- Whitespace in front of a character that is not whitespace is skipped. -/
theorem skipSpace_blank_append (ws : List Char) (h : IsBlank ws) (c : Char) (rest : List Char)
    (hc : isSpace c = false) : skipSpace (ws ++ c :: rest) = c :: rest :=
  skipSpace_append ws c rest (isSpace_of_blank ws h) hc

/-- The value of a hexadecimal digit character, in either case. -/
theorem hexVal_digits : ∀ k, k < 16 →
    hexVal (hexDigit k) = some k ∧ hexVal (hexDigitUpper k) = some k := by
  decide

/-- Four hexadecimal digit characters are read as the code they write. -/
theorem getu4_of_hex4 (a b c d : Char) (code : Nat) (h : IsHex4 a b c d code) :
    getu4 a b c d = some code := by
  obtain ⟨x, y, z, w, ⟨hx, ha⟩, ⟨hy, hb⟩, ⟨hz, hc⟩, ⟨hw, hd⟩, hcode⟩ := h
  have e1 : hexVal a = some x := by
    rcases ha with h | h <;> rw [h]
    · exact (hexVal_digits x hx).1
    · exact (hexVal_digits x hx).2
  have e2 : hexVal b = some y := by
    rcases hb with h | h <;> rw [h]
    · exact (hexVal_digits y hy).1
    · exact (hexVal_digits y hy).2
  have e3 : hexVal c = some z := by
    rcases hc with h | h <;> rw [h]
    · exact (hexVal_digits z hz).1
    · exact (hexVal_digits z hz).2
  have e4 : hexVal d = some w := by
    rcases hd with h | h <;> rw [h]
    · exact (hexVal_digits w hw).1
    · exact (hexVal_digits w hw).2
  simp [getu4, e1, e2, e3, e4, hcode]

/-- A `\uXXXX` escape of a code that is not a surrogate is read as that code. -/
theorem scanString_unicode (a b c d : Char) (rest2 : List Char) (code : Nat)
    (hg : getu4 a b c d = some code) (hs : isSurrogate code = false) :
    scanString ('\\' :: 'u' :: a :: b :: c :: d :: rest2)
      = consChar (Char.ofNat code) (scanString rest2) := by
  rw [scanString_backslash]
  dsimp only
  rw [if_pos rfl, hg]
  dsimp only
  rw [hs]
  rfl

/-- Two `\uXXXX` escapes that form a surrogate pair are read as the combined code. -/
theorem scanString_pair (a b c d a1 b1 c1 d1 : Char) (rest3 : List Char) (hi : Nat) (r : Char)
    (hg : getu4 a b c d = some hi) (hs : isSurrogate hi = true)
    (hp : pairAhead hi '\\' 'u' a1 b1 c1 d1 = some r) :
    scanString ('\\' :: 'u' :: a :: b :: c :: d :: '\\' :: 'u' :: a1 :: b1 :: c1 :: d1 :: rest3)
      = consChar r (scanString rest3) := by
  rw [scanString_backslash]
  dsimp only
  rw [if_pos rfl, hg]
  dsimp only
  rw [hs, if_pos rfl, hp]

/-- The two-character escapes are read as the characters they stand for. -/
theorem unescape_simple : ∀ p ∈ simpleEscapes, p.1 ≠ 'u' ∧ unescape p.1 = some p.2 := by
  decide

/-- The scanner decodes the text of a string literal to the characters it stands for. -/
theorem scanString_text (t s : List Char) (h : StringText t s) :
    ∀ rest, scanString (t ++ '"' :: rest) = some (s, rest) := by
  induction h with
  | done => intro rest; exact scanString_quote rest
  | plain c t s h1 h2 h3 _ ih =>
    intro rest
    rw [List.cons_append, scanString_char]
    have h3' : ¬ c.toNat < 0x20 := by omega
    simp only [h1, h2, h3', if_false, ih rest]
    simp only [consChar]
  | escape e ch t s hmem _ ih =>
    intro rest
    obtain ⟨hu, hun⟩ := unescape_simple (e, ch) hmem
    rw [List.cons_append, List.cons_append, scanString_backslash]
    simp only [hu, if_false, hun, ih rest]
    simp only [consChar]
  | unicode a b c d code t s hhex hsur _ ih =>
    intro rest
    have hg := getu4_of_hex4 a b c d code hhex
    have hs : isSurrogate code = false := by
      simp only [isSurrogate, Bool.and_eq_false_imp, decide_eq_true_eq, decide_eq_false_iff_not]
      intro h1 h2
      exact hsur ⟨h1, h2⟩
    simp only [List.cons_append]
    rw [scanString_unicode a b c d _ code hg hs, ih rest]
    simp only [consChar]
  | surrogatePair a b c d a1 b1 c1 d1 hi lo t s hhi hlo h1 h2 h3 h4 _ ih =>
    intro rest
    have hg := getu4_of_hex4 a b c d hi hhi
    have hg1 := getu4_of_hex4 a1 b1 c1 d1 lo hlo
    have hs : isSurrogate hi = true := by
      simp only [isSurrogate, Bool.and_eq_true, decide_eq_true_eq]
      omega
    have hnum : (hi - 0xD800) * 0x400 + (lo - 0xDC00) + 0x10000
        = 0x10000 + (hi - 0xD800) * 0x400 + (lo - 0xDC00) := by
      omega
    have hpair : pairAhead hi '\\' 'u' a1 b1 c1 d1
        = some (Char.ofNat (0x10000 + (hi - 0xD800) * 0x400 + (lo - 0xDC00))) := by
      unfold pairAhead
      rw [if_pos ⟨rfl, rfl⟩, hg1]
      dsimp only
      rw [if_pos ⟨h1, h2, h3, h4⟩, hnum]
    simp only [List.cons_append]
    rw [scanString_pair a b c d a1 b1 c1 d1 _ hi _ hg hs hpair, ih rest]
    simp only [consChar]


/-- The literal of a natural number is scanned up to a character that is not a digit. -/
theorem scanIntPart_natLiteral (n : Nat) (c : Char) (rest : List Char)
    (hc : c.isDigit = false) :
    scanIntPart (natLiteral n ++ c :: rest) = some (natLiteral n, c :: rest) := by
  obtain ⟨d, ds, heq, hd, hds, h0⟩ := natLiteral_shape n
  rw [heq]
  by_cases hz : d = '0'
  · obtain ⟨_, hnil⟩ := h0 hz
    subst hz
    subst hnil
    simp [scanIntPart]
  · simp [scanIntPart, hz, hd, spanDigits_append ds c rest hds hc]

/-- The literal of an integer is scanned as a number up to a character that cannot continue
a number. -/
theorem scanNumber_intLiteral_stop (n : Int) (c : Char) (rest : List Char)
    (hc : c.isDigit = false) (hdot : c ≠ '.') (he : c ≠ 'e') (hE : c ≠ 'E') :
    scanNumber (intLiteral n ++ c :: rest) = some (intLiteral n, c :: rest) := by
  cases n with
  | ofNat k =>
    obtain ⟨d, ds, heq, hd, _, _⟩ := natLiteral_shape k
    have hdm : d ≠ '-' := by
      intro h
      rw [h] at hd
      exact absurd hd (by decide)
    have hint := scanIntPart_natLiteral k c rest hc
    simp only [intLiteral]
    rw [heq] at hint ⊢
    rw [List.cons_append] at hint
    simp only [scanNumber, List.cons_append, hdm, if_false, hint]
    simp [scanFrac, scanExp, hdot, he, hE]
  | negSucc k =>
    have hint := scanIntPart_natLiteral (k + 1) c rest hc
    simp [intLiteral, scanNumber, hint, scanFrac, scanExp, hdot, he, hE]

/-- The text of a member value, after optional whitespace and in front of a character that
cannot continue a number, is read as the value it writes. -/
theorem parseValue_memberValue (fuel depth : Nat) (ws vt : List Char) (v : JSON) (c : Char)
    (rest : List Char) (hws : IsBlank ws) (hv : MemberValueText vt v)
    (hc : c.isDigit = false) (hdot : c ≠ '.') (he : c ≠ 'e') (hE : c ≠ 'E') :
    parseValue (fuel + 1) depth (ws ++ (vt ++ c :: rest)) = some (v, c :: rest) := by
  cases hv with
  | string t s ht =>
    have hscan := scanString_text t s ht (c :: rest)
    rw [parseValue]
    simp only [List.cons_append, List.append_assoc, List.singleton_append, List.nil_append]
    rw [skipSpace_blank_append ws hws '"' _ (by decide)]
    simp only [show ¬ ('"' = '[') by decide, show ¬ ('"' = '\x7b') by decide, if_false, if_true,
      hscan]
  | integer n =>
    have hscan := scanNumber_intLiteral_stop n c rest hc hdot he hE
    cases n with
    | ofNat k =>
      obtain ⟨d, ds, heq, hd, _, _⟩ := natLiteral_shape k
      obtain ⟨h0, h1, h2, h3, h4, h5, h6⟩ := isDigit_ne d hd
      simp only [intLiteral] at hscan ⊢
      rw [heq] at hscan ⊢
      rw [List.cons_append] at hscan
      rw [parseValue]
      simp only [List.cons_append]
      rw [skipSpace_blank_append ws hws d _ h0]
      simp only [h1, h2, h3, h4, h5, h6, hd, if_false, or_true, if_true, hscan]
    | negSucc k =>
      simp only [intLiteral] at hscan ⊢
      rw [List.cons_append] at hscan
      rw [parseValue]
      simp only [List.cons_append]
      rw [skipSpace_blank_append ws hws '-' _ (by decide)]
      simp only [show ¬ ('-' = '[') by decide, show ¬ ('-' = '\x7b') by decide,
        show ¬ ('-' = '"') by decide, show ¬ ('-' = 'n') by decide,
        show ¬ ('-' = 't') by decide, show ¬ ('-' = 'f') by decide, if_false, true_or, if_true,
        hscan]


/-- Whitespace followed by a separator starts with a character that cannot continue a
number. -/
theorem blank_separator_stops (ws : List Char) (hws : IsBlank ws) (sep : Char)
    (rest : List Char) (hsep : sep = ',' ∨ sep = '\x7d' ∨ sep = ']') :
    ∃ c r, ws ++ sep :: rest = c :: r ∧ c.isDigit = false ∧ c ≠ '.' ∧ c ≠ 'e' ∧ c ≠ 'E' := by
  cases ws with
  | nil =>
    refine ⟨sep, rest, rfl, ?_⟩
    rcases hsep with h | h | h <;> subst h <;> decide
  | cons x xs =>
    refine ⟨x, xs ++ sep :: rest, rfl, ?_⟩
    rcases hws x (List.mem_cons_self _ _) with h | h | h | h <;> subst h <;> decide

/-- One member followed by a comma or by the closing brace. -/
theorem parseMembers_member (fuel depth : Nat) (ws0 t ws1 : List Char) (m : String × JSON)
    (sep : Char) (rest : List Char) (h0 : IsBlank ws0) (h1 : IsBlank ws1)
    (hm : MemberText t m) (hsep : sep = ',' ∨ sep = '\x7d') :
    parseMembers (fuel + 2) depth (ws0 ++ (t ++ (ws1 ++ sep :: rest)))
      = if sep = ',' then
          match parseMembers (fuel + 1) depth rest with
          | some (ms, r) => some (m :: ms, r)
          | none => none
        else some ([m], rest) := by
  obtain ⟨kt, wsa, wsb, vt, hkey, ha, hb, hval, ht⟩ := hm
  obtain ⟨c, r, hcr, hc, hdot, he, hE⟩ := blank_separator_stops ws1 h1 sep rest
    (by rcases hsep with h | h
        · exact Or.inl h
        · exact Or.inr (Or.inl h))
  have hscan := scanString_text kt m.1.data hkey
    (wsa ++ ':' :: (wsb ++ (vt ++ (ws1 ++ sep :: rest))))
  have hvalue := parseValue_memberValue fuel depth wsb vt m.2 c r hb hval hc hdot he hE
  rw [← hcr] at hvalue
  have hnotspace : isSpace sep = false := by
    rcases hsep with h | h <;> subst h <;> decide
  have hm_eta : (String.mk m.1.data, m.2) = m := by cases m; rfl
  subst ht
  rw [parseMembers]
  simp only [List.cons_append, List.append_assoc]
  rw [skipSpace_blank_append ws0 h0 '"' _ (by decide)]
  simp only [if_true, hscan]
  rw [skipSpace_blank_append wsa ha ':' _ (by decide)]
  simp only [if_true, hvalue]
  rw [skipSpace_blank_append ws1 h1 sep _ hnotspace]
  rcases hsep with h | h
  · subst h
    simp only [if_true, hm_eta]
  · subst h
    simp only [show ¬ ('\x7d' = ',') by decide, if_false, if_true, hm_eta]

/-- The text between the braces of an object is read as its members. -/
theorem parseMembers_text (mt : List Char) (ms : List (String × JSON))
    (h : MembersText mt ms) : ∀ (fuel depth : Nat) (rest : List Char),
      mt.length + 1 ≤ fuel →
      parseMembers fuel depth (mt ++ '\x7d' :: rest) = some (ms, rest) := by
  induction h with
  | last ws0 t ws1 m h0 h1 hm =>
    intro fuel depth rest hlen
    have ht : 1 ≤ t.length := by
      obtain ⟨kt, wsa, wsb, vt, _, _, _, _, ht⟩ := hm
      rw [ht]; simp
    obtain ⟨f, rfl⟩ : ∃ f, fuel = f + 2 :=
      ⟨fuel - 2, by simp only [List.length_append, List.length_cons] at hlen; omega⟩
    have := parseMembers_member f depth ws0 t ws1 m '\x7d' rest h0 h1 hm (Or.inr rfl)
    simp only [List.append_assoc]
    rw [this]
    simp
  | more ws0 t ws1 more m ms h0 h1 hm _ ih =>
    intro fuel depth rest hlen
    have ht : 1 ≤ t.length := by
      obtain ⟨kt, wsa, wsb, vt, _, _, _, _, ht⟩ := hm
      rw [ht]; simp
    obtain ⟨f, rfl⟩ : ∃ f, fuel = f + 2 :=
      ⟨fuel - 2, by simp only [List.length_append, List.length_cons] at hlen; omega⟩
    have := parseMembers_member f depth ws0 t ws1 m ',' (more ++ '\x7d' :: rest) h0 h1 hm
      (Or.inl rfl)
    simp only [List.append_assoc, List.cons_append]
    rw [this]
    rw [ih (f + 1) depth rest
      (by simp only [List.length_append, List.length_cons] at hlen ⊢; omega)]
    simp


/-- The text of the members starts, after whitespace, with the quote of the first key. -/
theorem membersText_head (mt : List Char) (ms : List (String × JSON))
    (h : MembersText mt ms) : ∃ ws0 tail, IsBlank ws0 ∧ mt = ws0 ++ '"' :: tail := by
  cases h with
  | last ws0 t ws1 m h0 h1 hm =>
    obtain ⟨kt, wsa, wsb, vt, _, _, _, _, ht⟩ := hm
    subst ht
    exact ⟨ws0, _, h0, rfl⟩
  | more ws0 t ws1 more m ms h0 h1 hm _ =>
    obtain ⟨kt, wsa, wsb, vt, _, _, _, _, ht⟩ := hm
    subst ht
    exact ⟨ws0, _, h0, rfl⟩

/-- The text of an object, after optional whitespace, is read as the object it writes. -/
theorem parseValue_object (t : List Char) (j : JSON) (h : ObjectText t j)
    (fuel depth : Nat) (ws rest : List Char) (hws : IsBlank ws)
    (hd : depth < maxNestingDepth) (hlen : t.length ≤ fuel) :
    parseValue fuel depth (ws ++ (t ++ rest)) = some (j, rest) := by
  obtain ⟨mt, ms, hmt, ht, hj⟩ := h
  subst ht
  subst hj
  obtain ⟨ws0, tail, h0, hhead⟩ := membersText_head mt ms hmt
  have hd2 : ¬ maxNestingDepth ≤ depth := Nat.not_le.mpr hd
  obtain ⟨f, rfl⟩ : ∃ f, fuel = f + 1 :=
    ⟨fuel - 1, by simp only [List.length_append, List.length_cons] at hlen; omega⟩
  have hmem := parseMembers_text mt ms hmt f (depth + 1) rest
    (by simp only [List.length_append, List.length_cons, List.length_nil] at hlen ⊢; omega)
  have hskip : skipSpace (mt ++ '\x7d' :: rest) = '"' :: (tail ++ '\x7d' :: rest) := by
    rw [hhead, List.append_assoc, List.cons_append]
    exact skipSpace_blank_append ws0 h0 '"' _ (by decide)
  rw [parseValue]
  simp only [List.cons_append, List.append_assoc, List.singleton_append, List.nil_append]
  rw [skipSpace_blank_append ws hws '\x7b' _ (by decide)]
  simp only [show ¬ ('\x7b' = '[') by decide, if_false, if_true, hd2, hskip,
    show ¬ ('"' = '\x7d') by decide, hmem]

/-- The text of the elements starts, after whitespace, with the brace of the first
object. -/
theorem elementsText_head (et : List Char) (js : List JSON)
    (h : ElementsText et js) : ∃ ws0 tail, IsBlank ws0 ∧ et = ws0 ++ '\x7b' :: tail := by
  cases h with
  | last ws0 t ws1 j h0 h1 hobj =>
    obtain ⟨mt, ms, _, ht, _⟩ := hobj
    subst ht
    exact ⟨ws0, _, h0, rfl⟩
  | more ws0 t ws1 more j js h0 h1 hobj _ =>
    obtain ⟨mt, ms, _, ht, _⟩ := hobj
    subst ht
    exact ⟨ws0, _, h0, rfl⟩

/-- The text between the brackets of an array is read as its elements. -/
theorem parseElems_text (et : List Char) (js : List JSON) (h : ElementsText et js) :
    ∀ (fuel depth : Nat) (rest : List Char), depth < maxNestingDepth →
      et.length + 1 ≤ fuel →
      parseElems fuel depth (et ++ ']' :: rest) = some (js, rest) := by
  induction h with
  | last ws0 t ws1 j h0 h1 hobj =>
    intro fuel depth rest hd hlen
    obtain ⟨f, rfl⟩ : ∃ f, fuel = f + 1 :=
      ⟨fuel - 1, by simp only [List.length_append, List.length_cons] at hlen; omega⟩
    have hv := parseValue_object t j hobj f depth ws0 (ws1 ++ ']' :: rest) h0 hd
      (by simp only [List.length_append, List.length_cons] at hlen ⊢; omega)
    rw [parseElems]
    simp only [List.append_assoc, hv]
    rw [skipSpace_blank_append ws1 h1 ']' _ (by decide)]
    simp only [show ¬ (']' = ',') by decide, if_false, if_true]
  | more ws0 t ws1 more j js h0 h1 hobj _ ih =>
    intro fuel depth rest hd hlen
    obtain ⟨f, rfl⟩ : ∃ f, fuel = f + 1 :=
      ⟨fuel - 1, by simp only [List.length_append, List.length_cons] at hlen; omega⟩
    have hv := parseValue_object t j hobj f depth ws0 (ws1 ++ ',' :: (more ++ ']' :: rest)) h0 hd
      (by simp only [List.length_append, List.length_cons] at hlen ⊢; omega)
    have hrest := ih f depth rest hd
      (by simp only [List.length_append, List.length_cons] at hlen ⊢; omega)
    rw [parseElems]
    simp only [List.append_assoc, List.cons_append, hv]
    rw [skipSpace_blank_append ws1 h1 ',' _ (by decide)]
    simp only [if_true, hrest]

/-- The text of an array of objects, optionally surrounded by whitespace, is JSON for the
array it writes. -/
theorem parseJSON_arrayText (ws0 t ws1 : List Char) (js : List JSON)
    (h0 : IsBlank ws0) (h1 : IsBlank ws1) (h : ArrayText t js) :
    parseJSON (ws0 ++ (t ++ ws1)) = some (JSON.arr js) := by
  have hend := skipSpace_blank ws1 h1
  unfold parseJSON
  rw [parseValue]
  rcases h with ⟨ws, hws, ht, hjs⟩ | ⟨et, het, ht⟩
  · subst ht
    subst hjs
    simp only [List.cons_append, List.append_assoc, List.singleton_append, List.nil_append]
    rw [skipSpace_blank_append ws0 h0 '[' _ (by decide)]
    simp only [if_true, show ¬ (maxNestingDepth ≤ 0) by decide, if_false]
    rw [skipSpace_blank_append ws hws ']' _ (by decide)]
    simp only [if_true, hend]
  · subst ht
    obtain ⟨wsa, tail, ha, hhead⟩ := elementsText_head et js het
    have helems := parseElems_text et js het (ws0 ++ ('[' :: (et ++ [']']) ++ ws1)).length 1 ws1
      (by decide)
      (by simp only [List.length_append, List.length_cons, List.length_nil]; omega)
    have hskip : skipSpace (et ++ ']' :: ws1) = '\x7b' :: (tail ++ ']' :: ws1) := by
      rw [hhead, List.append_assoc, List.cons_append]
      exact skipSpace_blank_append wsa ha '\x7b' _ (by decide)
    simp only [List.cons_append, List.append_assoc, List.singleton_append, List.nil_append]
      at helems ⊢
    rw [skipSpace_blank_append ws0 h0 '[' _ (by decide)]
    simp only [if_true, show ¬ (maxNestingDepth ≤ 0) by decide, if_false, hskip,
      show ¬ ('\x7b' = ']') by decide, helems, hend]


/-- The empty text is whitespace. -/
theorem isBlank_nil : IsBlank [] := by
  intro c hc
  exact absurd hc (List.not_mem_nil c)

/-- The two hexadecimal digits written for a control character write its code. -/
theorem isHex4_control : ∀ n, n < 32 →
    IsHex4 '0' '0' (hexDigit (n / 16)) (hexDigit (n % 16)) n := by
  intro n hn
  refine ⟨0, 0, n / 16, n % 16, ⟨by decide, Or.inl (by decide)⟩, ⟨by decide, Or.inl (by decide)⟩,
    ⟨by omega, Or.inl rfl⟩, ⟨by omega, Or.inl rfl⟩, by omega⟩

/-- The escaped form of a text is the text of a string literal standing for it. -/
theorem stringText_escapeChars (cs : List Char) : StringText (escapeChars cs) cs := by
  induction cs with
  | nil => exact StringText.done
  | cons c cs ih =>
    simp only [escapeChars, escapeChar]
    by_cases h1 : c = '"'
    · subst h1
      exact StringText.escape '"' '"' _ _ (by decide) ih
    · by_cases h2 : c = '\\'
      · subst h2
        exact StringText.escape '\\' '\\' _ _ (by decide) ih
      · by_cases h3 : c.toNat < 0x20
        · simp only [h1, h2, h3, if_false, if_true, List.cons_append, List.nil_append]
          have := StringText.unicode '0' '0' (hexDigit (c.toNat / 16)) (hexDigit (c.toNat % 16))
            c.toNat _ _ (isHex4_control c.toNat h3) (by omega) ih
          rwa [Char.ofNat_toNat] at this
        · simp only [h1, h2, h3, if_false, List.cons_append, List.nil_append]
          exact StringText.plain c _ _ h1 h2 (by omega) ih

/-- A key and a string value written compactly are the text of a member. -/
theorem memberText_string (k v : String) :
    MemberText (encodeString k ++ ':' :: encodeString v) (k, JSON.str v) :=
  ⟨escapeChars k.data, [], [], encodeString v, stringText_escapeChars k.data, isBlank_nil,
    isBlank_nil, MemberValueText.string _ _ (stringText_escapeChars v.data),
    by simp [encodeString]⟩

/-- A key and an integer value written compactly are the text of a member. -/
theorem memberText_int (k : String) (n : Int) :
    MemberText (encodeString k ++ ':' :: intLiteral n) (k, JSON.num (intLiteral n)) :=
  ⟨escapeChars k.data, [], [], intLiteral n, stringText_escapeChars k.data, isBlank_nil,
    isBlank_nil, MemberValueText.integer n, by simp [encodeString]⟩

/-- The compact object of a record is the text of its record object. -/
theorem objectText_encodeRecord (db : DatabaseInfo) :
    ObjectText (encodeRecord db) (JSON.obj (recordMembers db)) := by
  have h4 := MembersText.last [] _ [] _ isBlank_nil isBlank_nil
    (memberText_int "document_count" db.DocumentCount)
  have h3 := MembersText.more [] _ [] _ _ _ isBlank_nil isBlank_nil
    (memberText_string "collection" db.Collection) h4
  have h2 := MembersText.more [] _ [] _ _ _ isBlank_nil isBlank_nil
    (memberText_string "type" db.Type_) h3
  have h1 := MembersText.more [] _ [] _ _ _ isBlank_nil isBlank_nil
    (memberText_string "name" db.Name) h2
  refine ⟨_, _, h1, ?_, rfl⟩
  simp [encodeRecord]

/-- The compact records are the text of the elements of the array of record objects. -/
theorem elementsText_encodeRecords (db : DatabaseInfo) (dbs : List DatabaseInfo) :
    ElementsText (encodeRecords (db :: dbs))
      ((db :: dbs).map (fun d => JSON.obj (recordMembers d))) := by
  induction dbs generalizing db with
  | nil =>
    have := ElementsText.last [] _ [] _ isBlank_nil isBlank_nil (objectText_encodeRecord db)
    simpa [encodeRecords] using this
  | cons db1 dbs ih =>
    have := ElementsText.more [] _ [] _ _ _ isBlank_nil isBlank_nil (objectText_encodeRecord db)
      (ih db1)
    simpa [encodeRecords] using this

/-- The compact text of a list of records is a body that is a JSON array of Database Record
objects encoding the list. -/
theorem recordArrayBody_encodeDatabases (dbs : List DatabaseInfo) :
    RecordArrayBody (encodeDatabases dbs) dbs := by
  refine ⟨[], '[' :: (encodeRecords dbs ++ [']']), [],
    dbs.map (fun d => JSON.obj (recordMembers d)), isBlank_nil, isBlank_nil, ?_, ?_,
    forall₂_encodesRecord dbs⟩
  · cases dbs with
    | nil => exact Or.inl ⟨[], isBlank_nil, rfl, rfl⟩
    | cons db dbs => exact Or.inr ⟨_, elementsText_encodeRecords db dbs, rfl⟩
  · simp [encodeDatabases]


/-! ## Counts outside the 64-bit range -/

/-- The function `strconv.ParseInt` rejects the literal of an integer outside the 64-bit
range. -/
theorem parseInt64_intLiteral_none (n : Int) (h : ¬ (-(2 ^ 63 : Int) ≤ n ∧ n < 2 ^ 63)) :
    parseInt64 (intLiteral n) = none := by
  cases n with
  | ofNat k =>
    obtain ⟨c, ds, heq, hc, _, _⟩ := natLiteral_shape k
    have hk := digitsValue_natLiteral k
    have hcm : c ≠ '-' := by
      intro h1
      rw [h1] at hc
      exact absurd hc (by decide)
    have hge : ¬ k < 2 ^ 63 := by
      intro hlt
      apply h
      constructor
      · have h0 : (0 : Int) ≤ Int.ofNat k := Int.ofNat_nonneg k
        have h1 : -(2 ^ 63 : Int) ≤ 0 := by decide
        exact le_trans h1 h0
      · show ((k : Nat) : Int) < 2 ^ 63
        exact_mod_cast hlt
    simp only [intLiteral]
    rw [heq] at hk ⊢
    simp only [parseInt64, hcm, if_false, hk, hge]
  | negSucc k =>
    have hk := digitsValue_natLiteral (k + 1)
    have hgt : ¬ k + 1 ≤ 2 ^ 63 := by
      intro hle
      apply h
      rw [Int.negSucc_eq]
      have h2 : ((k : Int) + 1) ≤ 2 ^ 63 := by exact_mod_cast hle
      constructor <;> omega
    simp only [intLiteral, parseInt64, if_true, hk, hgt, if_false]

/-- Decoding the member `document_count` fails when the integer does not fit 64 bits. -/
theorem decodeField_document_count_error (d : DatabaseInfo) (n : Int)
    (h : ¬ (-(2 ^ 63 : Int) ≤ n ∧ n < 2 ^ 63)) :
    decodeField d ("document_count", JSON.num (intLiteral n))
      = Except.error (UnmarshalError.typeMismatch (String.mk ("number ".data ++ intLiteral n))
          "int") := by
  simp [decodeField, storeInt, foldEq_record_names, parseInt64_intLiteral_none n h]

/-- Members of a record object whose count does not fit 64 bits fail to decode, in whatever
order they come. -/
theorem decodeMembers_out_of_range (db : DatabaseInfo) (h : ¬ db.inRange) :
    ∀ (ms : List (String × JSON)) (d : DatabaseInfo), (∀ m ∈ ms, m ∈ recordMembers db) →
      ("document_count", JSON.num (intLiteral db.DocumentCount)) ∈ ms →
      decodeMembers d ms
        = Except.error (UnmarshalError.typeMismatch
            (String.mk ("number ".data ++ intLiteral db.DocumentCount)) "int") := by
  intro ms
  induction ms with
  | nil => intro d _ hmem; exact absurd hmem (List.not_mem_nil _)
  | cons m ms ih =>
    intro d hsub hmem
    have hm := hsub m (List.mem_cons_self _ _)
    have htail : ∀ x ∈ ms, x ∈ recordMembers db :=
      fun x hx => hsub x (List.mem_cons_of_mem _ hx)
    simp only [recordMembers, List.mem_cons, List.mem_singleton, List.not_mem_nil,
      or_false] at hm
    rcases hm with hm | hm | hm | hm
    · subst hm
      have hin : ("document_count", JSON.num (intLiteral db.DocumentCount)) ∈ ms := by
        rcases List.mem_cons.mp hmem with h1 | h1
        · exact absurd (congrArg Prod.fst h1)
            (show ¬ ("document_count" = "name") by decide)
        · exact h1
      simp only [decodeMembers, decodeField_name]
      exact ih _ htail hin
    · subst hm
      have hin : ("document_count", JSON.num (intLiteral db.DocumentCount)) ∈ ms := by
        rcases List.mem_cons.mp hmem with h1 | h1
        · exact absurd (congrArg Prod.fst h1)
            (show ¬ ("document_count" = "type") by decide)
        · exact h1
      simp only [decodeMembers, decodeField_type]
      exact ih _ htail hin
    · subst hm
      have hin : ("document_count", JSON.num (intLiteral db.DocumentCount)) ∈ ms := by
        rcases List.mem_cons.mp hmem with h1 | h1
        · exact absurd (congrArg Prod.fst h1)
            (show ¬ ("document_count" = "collection") by decide)
        · exact h1
      simp only [decodeMembers, decodeField_collection]
      exact ih _ htail hin
    · subst hm
      simp only [decodeMembers, decodeField_document_count_error d db.DocumentCount h]

/-- A record object whose count does not fit 64 bits fails to decode. -/
theorem decodeElem_out_of_range (j : JSON) (db : DatabaseInfo) (h : ¬ db.inRange)
    (henc : EncodesRecord j db) :
    decodeElem j = Except.error (UnmarshalError.typeMismatch
      (String.mk ("number ".data ++ intLiteral db.DocumentCount)) "int") := by
  obtain ⟨ms, hj, hperm⟩ := henc
  subst hj
  simp only [decodeElem]
  exact decodeMembers_out_of_range db h ms _ (fun m hm => hperm.subset hm)
    (hperm.symm.subset (by simp [recordMembers]))

/-- An array of record objects with a count that does not fit 64 bits fails to decode, with
the error of such a record. -/
theorem decodeElems_out_of_range (js : List JSON) (dbs : List DatabaseInfo)
    (henc : List.Forall₂ EncodesRecord js dbs) (h : ¬ ∀ db ∈ dbs, db.inRange) :
    ∃ db ∈ dbs, ¬ db.inRange ∧
      decodeElems js = Except.error (UnmarshalError.typeMismatch
        (String.mk ("number ".data ++ intLiteral db.DocumentCount)) "int") := by
  induction henc with
  | nil => exact absurd (fun db hdb => absurd hdb (List.not_mem_nil db)) h
  | @cons j db js dbs hhead _ ih =>
    by_cases hd : db.inRange
    · have htail : ¬ ∀ d ∈ dbs, d.inRange := by
        intro hall
        apply h
        intro d hmem
        rcases List.mem_cons.mp hmem with h1 | h1
        · rw [h1]; exact hd
        · exact hall d h1
      obtain ⟨d, hmem, hnot, herr⟩ := ih htail
      refine ⟨d, List.mem_cons_of_mem _ hmem, hnot, ?_⟩
      simp only [decodeElems, decodeElem_of_encodes j db hd hhead, herr]
    · refine ⟨db, List.mem_cons_self _ _, hd, ?_⟩
      simp only [decodeElems, decodeElem_out_of_range j db hd hhead]

/-! ## The claim on arrays of Database Records -/

/-- The text of `twoRecordBody` is a JSON array of Database Record objects encoding its two
records. -/
theorem recordArrayBody_twoRecordBody :
    RecordArrayBody twoRecordBody
      [⟨"docs", "milvus", "c1", 42⟩, ⟨"a\"b\nA", "weaviate", "", 0⟩] := by
  have hsp : IsBlank [' '] := by simp [IsBlank]
  have hnl : IsBlank ['\n', ' ', ' '] := by simp [IsBlank]
  -- first record
  have a4 := MembersText.last [' '] _ [] _ hsp isBlank_nil (memberText_int "document_count" 42)
  have a3 := MembersText.more [' '] _ [] _ _ _ hsp isBlank_nil
    (memberText_string "collection" "c1") a4
  have a2 := MembersText.more [' '] _ [] _ _ _ hsp isBlank_nil
    (memberText_string "name" "docs") a3
  have a1 := MembersText.more [] _ [] _ _ _ isBlank_nil isBlank_nil
    (memberText_string "type" "milvus") a2
  have o1 : ObjectText _ _ := ⟨_, _, a1, rfl, rfl⟩
  -- second record: the name is written with escapes
  have hname : StringText
      ['a', '\\', '"', 'b', '\\', 'n', '\\', 'u', '0', '0', '4', '1']
      ['a', '"', 'b', '\n', 'A'] :=
    StringText.plain 'a' _ _ (by decide) (by decide) (by decide)
      (StringText.escape '"' '"' _ _ (by decide)
        (StringText.plain 'b' _ _ (by decide) (by decide) (by decide)
          (StringText.escape 'n' (Char.ofNat 10) _ _ (by decide)
            (StringText.unicode '0' '0' '4' '1' 65 [] []
              ⟨0, 0, 4, 1, ⟨by decide, Or.inl (by decide)⟩, ⟨by decide, Or.inl (by decide)⟩,
                ⟨by decide, Or.inl (by decide)⟩, ⟨by decide, Or.inl (by decide)⟩, by decide⟩
              (by decide) StringText.done))))
  have mname : MemberText _ ("name", JSON.str "a\"b\nA") :=
    ⟨_, [], [], _, stringText_escapeChars "name".data, isBlank_nil, isBlank_nil,
      MemberValueText.string _ _ hname, rfl⟩
  have b4 := MembersText.last [] _ [] _ isBlank_nil isBlank_nil (memberText_int "document_count" 0)
  have b3 := MembersText.more [] _ [] _ _ _ isBlank_nil isBlank_nil
    (memberText_string "collection" "") b4
  have b2 := MembersText.more [] _ [] _ _ _ isBlank_nil isBlank_nil
    (memberText_string "type" "weaviate") b3
  have b1 := MembersText.more [] _ [] _ _ _ isBlank_nil isBlank_nil mname b2
  have o2 : ObjectText _ _ := ⟨_, _, b1, rfl, rfl⟩
  have e2 := ElementsText.last ['\n', ' ', ' '] _ [' '] _ hnl hsp o2
  have e1 := ElementsText.more [' '] _ [] _ _ _ hsp isBlank_nil o1 e2
  refine ⟨[], _, [], _, isBlank_nil, isBlank_nil, Or.inr ⟨_, e1, rfl⟩, ?_, ?_⟩
  · decide
  · exact List.Forall₂.cons ⟨_, rfl, List.Perm.swap _ _ _⟩
      (List.Forall₂.cons ⟨_, rfl, List.Perm.refl _⟩ List.Forall₂.nil)

/-- C1 (counterexample): the body
`[{"name":"docs","type":"milvus","collection":"c1","document_count":9223372036854775808}]`
is a JSON array of one Database Record object, encoding the record with that count, yet
`ListDatabases` returns a parse error for it and no sequence: the count is one more than the
largest value of the 64-bit Go `int`. -/
theorem ListDatabases_count_beyond_int64_fails :
    RecordArrayBody hugeCountBody [⟨"docs", "milvus", "c1", 9223372036854775808⟩] ∧
    ((NewMCPClient "http://localhost:8000").ListDatabases
        (World.serving ⟨200, hugeCountBody, none⟩)).2
      = Except.error (ClientError.parseDatabaseList
          (UnmarshalError.typeMismatch "number 9223372036854775808" "int")) := by
  constructor
  · have h := recordArrayBody_encodeDatabases [⟨"docs", "milvus", "c1", 9223372036854775808⟩]
    have hb : encodeDatabases [⟨"docs", "milvus", "c1", 9223372036854775808⟩] = hugeCountBody := by
      decide
    rwa [hb] at h
  · rw [ListDatabases_of_body _ _ hugeCountBody rfl]
    rfl

/-- C1 (amended): for every response body that is the text of a JSON array of Database
Record objects (each an object with exactly the members `name`, `type`, `collection` and
`document_count`, in any order, the strings written with any JSON escapes, the count written
as a decimal integer literal, with any JSON whitespace between the tokens), `ListDatabases`
returns no error and exactly the sequence of records the array encodes (same length, same
order, same field values) when every `document_count` fits the 64-bit Go `int`; when some
count does not fit, it returns a parse error naming such a count, and no sequence. The
compact text of every list of records is such a body, and the body `[]` yields the empty
sequence and no error. -/
theorem ListDatabases_record_array (c : MCPClient) (w : World Y) (body : String)
    (dbs : List DatabaseInfo)
    (hr : w.httpPost (c.baseURL ++ "/mcp/tools/" ++ "list_databases") "application/json" "\x7b\x7d"
      = Except.ok ⟨200, body, none⟩) :
    (RecordArrayBody body dbs → (∀ db ∈ dbs, db.inRange) →
      (c.ListDatabases w).2 = Except.ok dbs) ∧
    (RecordArrayBody body dbs → (¬ ∀ db ∈ dbs, db.inRange) →
      ∃ db ∈ dbs, ¬ db.inRange ∧
        (c.ListDatabases w).2 = Except.error (ClientError.parseDatabaseList
          (UnmarshalError.typeMismatch
            (String.mk ("number ".data ++ intLiteral db.DocumentCount)) "int"))) ∧
    (body = encodeDatabases dbs → RecordArrayBody body dbs) ∧
    (body = "[]" → (c.ListDatabases w).2 = Except.ok []) := by
  have hok : ∀ ds, RecordArrayBody body ds → (∀ db ∈ ds, db.inRange) →
      (c.ListDatabases w).2 = Except.ok ds := by
    rintro ds ⟨ws0, t, ws1, js, h0, h1, harr, hdata, henc⟩ hrange
    have hp : parseJSON body.data = some (JSON.arr js) := by
      rw [hdata]
      exact parseJSON_arrayText ws0 t ws1 js h0 h1 harr
    rw [ListDatabases_of_body c w body hr]
    simp [jsonUnmarshal, hp, decodeDatabases, decodeElems_of_encodes js ds henc hrange]
  refine ⟨hok dbs, ?_, ?_, ?_⟩
  · rintro ⟨ws0, t, ws1, js, h0, h1, harr, hdata, henc⟩ hrange
    have hp : parseJSON body.data = some (JSON.arr js) := by
      rw [hdata]
      exact parseJSON_arrayText ws0 t ws1 js h0 h1 harr
    obtain ⟨db, hmem, hnot, herr⟩ := decodeElems_out_of_range js dbs henc hrange
    refine ⟨db, hmem, hnot, ?_⟩
    rw [ListDatabases_of_body c w body hr]
    simp [jsonUnmarshal, hp, decodeDatabases, herr, ne_noDatabasesMessage_of_parse body _ hp]
  · intro hb
    rw [hb]
    exact recordArrayBody_encodeDatabases dbs
  · intro hb
    have h := recordArrayBody_encodeDatabases []
    have he : encodeDatabases [] = body := by rw [hb]; decide
    rw [he] at h
    exact hok [] h (fun db hdb => absurd hdb (List.not_mem_nil db))

/-- Instance of `ListDatabases_record_array`: a two-record array written with whitespace,
members out of order and escapes in a name; the same array with a count of `2^63`; and the
body `[]`. -/
theorem ListDatabases_record_array_witness :
    ((NewMCPClient "http://localhost:8000").ListDatabases
        (World.serving ⟨200, twoRecordBody, none⟩)).2
      = Except.ok [⟨"docs", "milvus", "c1", 42⟩, ⟨"a\"b\nA", "weaviate", "", 0⟩] ∧
    ((NewMCPClient "http://localhost:8000").ListDatabases
        (World.serving ⟨200, "[]", none⟩)).2 = Except.ok [] :=
  ⟨(ListDatabases_record_array (NewMCPClient "http://localhost:8000")
      (World.serving ⟨200, twoRecordBody, none⟩) twoRecordBody
      [⟨"docs", "milvus", "c1", 42⟩, ⟨"a\"b\nA", "weaviate", "", 0⟩] rfl).1
      recordArrayBody_twoRecordBody (by decide),
   (ListDatabases_record_array (NewMCPClient "http://localhost:8000")
      (World.serving ⟨200, "[]", none⟩) "[]" [] rfl).2.2.2 rfl⟩

end MaestroK
